import Mathlib

/-!
# Markdown highlighter: line classification

A shallow embedding of `src/markdownhighlighter.cpp` (the per-line pass
`highlightBlock` with its four detectors) and proofs about it.

Modelling conventions.

* A line's text is a list of character units (`List Char`); offsets and
  lengths of spans are counted in these units.  The text of a block of a
  text document never holds a line feed, so statements about arbitrary
  lines carry the hypothesis `LineText t` (no line feed in `t`) where the
  pattern semantics depends on it.
* The regular expressions of the source are values of `Re`, interpreted by a
  backtracking matcher (`Re.go`) that tries alternatives in the order the
  pattern library does: left alternative first, greedy quantifiers longest
  first, lazy quantifiers shortest first, leftmost start position first.
* The style table `_formats` is external; a call `setFormat(start, count,
  _formats[state])` is recorded as the span `(start, count, state)`.
* During one pass the highlighter only reaches the current block, its
  predecessor and its successor; `Highlighter` holds these three and the
  result is written back to the document afterwards.
-/

namespace MarkdownHighlighter

/-! ## Data model -/

/-- Modelled from the spec: the enumeration `HighlighterState` is declared in
the header, which is not among the sources.  The spec lists the
classifications; `NoState` is the value an untouched block carries and the
value a missing neighbour reports. -/
inductive HighlighterState
  | NoState
  | Link
  | Image
  | CodeBlock
  | Italic
  | Bold
  | List
  | Comment
  | H1
  | H2
  | H3
  | H4
  | H5
  | H6
  | BlockQuote
  | HorizontalRuler
  | Table
  | InlineCodeBlock
  | CodeBlockEnd
  | HeadlineEnd
  deriving DecidableEq, Repr

/-- Modelled from the spec: the ordinals of the header are not among the
sources; the spec fixes that `H1 .. H6` are contiguous.  `headlineState count`
is `HighlighterState(H1 + count - 1)` for `count` in `1 .. 6`. -/
def headlineState : Nat → HighlighterState
  | 1 => .H1
  | 2 => .H2
  | 3 => .H3
  | 4 => .H4
  | 5 => .H5
  | 6 => .H6
  | _ => .NoState

/-- A block (line) of the document: its text and its user state. -/
structure Block where
  text : List Char
  userState : HighlighterState
  deriving DecidableEq, Repr

/-- A formatted range: a `setFormat(start, count, _formats[state])` call. -/
structure Span where
  start : Nat
  count : Nat
  state : HighlighterState
  deriving DecidableEq, Repr

/-- The text of a block never holds a line feed. -/
def LineText (t : List Char) : Prop := ¬ ('\n' ∈ t)

instance (t : List Char) : Decidable (LineText t) := by
  unfold LineText; infer_instance

/-! ## Regular expressions -/

/-- The position of a match attempt in a subject: the units before it
(nearest first), the units after it, and the last range captured by group 1. -/
structure Cursor where
  before : List Char
  after : List Char
  cap : Option (Nat × Nat)
  deriving DecidableEq, Repr

/-- The offset of a cursor in its subject. -/
def Cursor.pos (c : Cursor) : Nat := c.before.length

/-- The cursor reached from `c` by consuming the units `xs`, with `rest` left. -/
def Cursor.shift (c : Cursor) (xs rest : List Char) : Cursor :=
  ⟨xs.reverse ++ c.before, rest, c.cap⟩

/-- The patterns used by the highlighter.  `cls p` is one unit satisfying `p`,
`bol` is `^`, `eol` is `$`, `nwb` is `\B`, `star greedy a` is `a*` or `a*?`,
`cap a` is the first capturing group `(a)`; groups whose capture is never
read are not recorded. -/
inductive Re
  | eps
  | cls (p : Char → Bool)
  | bol
  | eol
  | nwb
  | seq (a b : Re)
  | alt (a b : Re)
  | star (greedy : Bool) (a : Re)
  | cap (a : Re)

/-- The class `\w`. -/
def isWordChar (c : Char) : Bool :=
  ('a' ≤ c && c ≤ 'z') || ('A' ≤ c && c ≤ 'Z') || ('0' ≤ c && c ≤ '9') || c == '_'

/-- The class `\s`. -/
def isSpaceChar (c : Char) : Bool :=
  c == ' ' || c == '\t' || c == '\n' || c == Char.ofNat 11 || c == Char.ofNat 12 || c == '\r'

/-- The class `\d`. -/
def isDigitChar (c : Char) : Bool := '0' ≤ c && c ≤ '9'

/-- The class `.`: any unit but a line feed. -/
def isDotChar (c : Char) : Bool := c != '\n'

/-- Is the first unit of a list a word character (false for no unit)? -/
def headIsWord : List Char → Bool
  | [] => false
  | c :: _ => isWordChar c

/-- The repetition loop of `star`.  An iteration that consumes something
loops on; one that consumes nothing leaves the loop.  `fuel` bounds the number
of iterations and is set by `Re.go` above the number of remaining units. -/
def starLoop (body : Cursor → (Cursor → Option Cursor) → Option Cursor) (greedy : Bool) :
    Nat → Cursor → (Cursor → Option Cursor) → Option Cursor
  | 0, _, _ => none
  | fuel + 1, c, k =>
    let iter := fun (_ : Unit) =>
      body c (fun c1 => if c1.after.length < c.after.length then
        starLoop body greedy fuel c1 k else k c1)
    if greedy then (iter ()).orElse (fun _ => k c) else (k c).orElse iter

/-- The backtracking matcher: `r.go c k` matches `r` at cursor `c` and hands
every candidate end to the continuation `k`, in priority order, until `k`
accepts one. -/
def Re.go : Re → Cursor → (Cursor → Option Cursor) → Option Cursor
  | .eps, c, k => k c
  | .cls p, c, k =>
    match c.after with
    | [] => none
    | x :: xs => if p x then k { c with before := x :: c.before, after := xs } else none
  | .bol, c, k => if c.before = [] then k c else none
  | .eol, c, k => if c.after = [] ∨ c.after = ['\n'] then k c else none
  | .nwb, c, k => if headIsWord c.before = headIsWord c.after then k c else none
  | .seq a b, c, k => a.go c (fun c1 => b.go c1 k)
  | .alt a b, c, k => (a.go c k).orElse (fun _ => b.go c k)
  | .star greedy a, c, k => starLoop a.go greedy (c.after.length + 1) c k
  | .cap a, c, k => a.go c (fun c1 => k { c1 with cap := some (c.pos, c1.pos) })

/-- One literal unit. -/
def Re.chr (x : Char) : Re := .cls (fun c => c == x)

/-- The pattern `a+` (greedy) or `a+?` (lazy). -/
def Re.plus (greedy : Bool) (a : Re) : Re := .seq a (.star greedy a)

/-- The pattern `a?`. -/
def Re.opt (a : Re) : Re := .alt a .eps

/-- The pattern `a{n}`. -/
def Re.rep : Nat → Re → Re
  | 0, _ => .eps
  | n + 1, a => .seq a (Re.rep n a)

/-- The pattern `a{n,}`. -/
def Re.atLeast (n : Nat) (a : Re) : Re := .seq (Re.rep n a) (.star true a)

/-- A literal string. -/
def Re.str : List Char → Re
  | [] => .eps
  | x :: xs => .seq (Re.chr x) (Re.str xs)

/-- A match: the offset where it starts and the cursor where it ends. -/
structure Match where
  start : Nat
  stop : Cursor
  deriving DecidableEq, Repr

/-- Offset of the match: `capturedStart()`. -/
def Match.capturedStart (m : Match) : Nat := m.start

/-- Length of the match: `capturedLength()`. -/
def Match.capturedLength (m : Match) : Nat := m.stop.pos - m.start

/-- Length of the text captured by group 1: `captured(1).count()`; an unset
group yields the empty string. -/
def Match.captured1Count (m : Match) : Nat :=
  match m.stop.cap with
  | some (s, e) => e - s
  | none => 0

/-- The leftmost match at or after the cursor `(before, after)`: the matcher is
tried at each offset in turn. -/
def Re.searchFrom (r : Re) : List Char → List Char → Option Match
  | before, [] =>
    (r.go ⟨before, [], none⟩ some).map (fun c => ⟨before.length, c⟩)
  | before, x :: xs =>
    match r.go ⟨before, x :: xs, none⟩ some with
    | some c => some ⟨before.length, c⟩
    | none => Re.searchFrom r (x :: before) xs

/-- The first match in `text`: `re.match(text)`. -/
def Re.firstMatch (r : Re) (text : List Char) : Option Match := r.searchFrom [] text

/-- Does the pattern match somewhere in `text`: `re.match(text).hasMatch()`. -/
def Re.hasMatch (r : Re) (text : List Char) : Bool := (r.firstMatch text).isSome

/-- The iteration of `globalMatch`: after a match the search resumes where it
ended; after an empty match it resumes one unit further. -/
def Re.globalFrom (r : Re) : Nat → List Char → List Char → List Match
  | 0, _, _ => []
  | fuel + 1, before, after =>
    match r.searchFrom before after with
    | none => []
    | some m =>
      if m.stop.pos = m.start then
        match m.stop.after with
        | [] => [m]
        | x :: xs => m :: Re.globalFrom r fuel (x :: m.stop.before) xs
      else m :: Re.globalFrom r fuel m.stop.before m.stop.after

/-- All matches in `text`, in order: `expression.globalMatch(text)`. -/
def Re.globalMatch (r : Re) (text : List Char) : List Match :=
  r.globalFrom (text.length + 1) [] text

/-! ## The rule table -/

/-- Modelled from the spec: the record `HighlightingRule` is declared in the
header, which is not among the sources: a pattern, the classification to
assign, and two flags that are off unless a rule sets them. -/
structure HighlightingRule where
  pattern : Re
  state : HighlighterState
  useStateAsCurrentBlockState : Bool
  disableIfCurrentStateIsSet : Bool

/-- The pattern `\B\*{2}.+?\*{2}\B`. -/
def reBold : Re :=
  .seq .nwb (.seq (Re.rep 2 (Re.chr '*')) (.seq (Re.plus false (.cls isDotChar))
    (.seq (Re.rep 2 (Re.chr '*')) .nwb)))

/-- The pattern `(^|\s)\*[^\*]+\*($|\s)`. -/
def reItalic : Re :=
  .seq (.alt .bol (.cls isSpaceChar)) (.seq (Re.chr '*')
    (.seq (Re.plus true (.cls (fun c => c != '*'))) (.seq (Re.chr '*')
      (.alt .eol (.cls isSpaceChar)))))

/-- The pattern `<.+?://.+?>`. -/
def reUrl : Re :=
  .seq (Re.chr '<') (.seq (Re.plus false (.cls isDotChar)) (.seq (Re.str "://".toList)
    (.seq (Re.plus false (.cls isDotChar)) (Re.chr '>'))))

/-- The pattern `\[.+?\]\(.+?://.+?\)`. -/
def reUrlTitle : Re :=
  .seq (Re.chr '[') (.seq (Re.plus false (.cls isDotChar)) (.seq (Re.str "](".toList)
    (.seq (Re.plus false (.cls isDotChar)) (.seq (Re.str "://".toList)
      (.seq (Re.plus false (.cls isDotChar)) (Re.chr ')'))))))

/-- The pattern `<.+?@.+?>`. -/
def reEmail : Re :=
  .seq (Re.chr '<') (.seq (Re.plus false (.cls isDotChar)) (.seq (Re.chr '@')
    (.seq (Re.plus false (.cls isDotChar)) (Re.chr '>'))))

/-- The pattern `\[.+?\]\[\d+\]`. -/
def reReferenceLink : Re :=
  .seq (Re.chr '[') (.seq (Re.plus false (.cls isDotChar)) (.seq (Re.str "][".toList)
    (.seq (Re.plus true (.cls isDigitChar)) (Re.chr ']'))))

/-- The pattern `^\[\d+?\]: .+://.+$`. -/
def reReference : Re :=
  .seq .bol (.seq (Re.chr '[') (.seq (Re.plus false (.cls isDigitChar))
    (.seq (Re.str "]: ".toList) (.seq (Re.plus true (.cls isDotChar))
      (.seq (Re.str "://".toList) (.seq (Re.plus true (.cls isDotChar)) .eol))))))

/-- The pattern `^\s*[-*+]\s`. -/
def reUnorderedList : Re :=
  .seq .bol (.seq (.star true (.cls isSpaceChar))
    (.seq (.cls (fun c => c == '-' || c == '*' || c == '+')) (.cls isSpaceChar)))

/-- The pattern `^\s*\d\.\s`. -/
def reOrderedList : Re :=
  .seq .bol (.seq (.star true (.cls isSpaceChar))
    (.seq (.cls isDigitChar) (.seq (Re.chr '.') (.cls isSpaceChar))))

/-- The pattern of inline code: a backtick, `.+?`, a backtick. -/
def reInlineCode : Re :=
  .seq (Re.chr (Char.ofNat 96)) (.seq (Re.plus false (.cls isDotChar)) (Re.chr (Char.ofNat 96)))

/-- The pattern `^((\t)|( {4,})).+$`. -/
def reIndentedCode : Re :=
  .seq .bol (.seq (.alt (Re.chr '\t') (Re.atLeast 4 (Re.chr ' ')))
    (.seq (Re.plus true (.cls isDotChar)) .eol))

/-- The pattern `!\[.+?\]\(.+?\)`. -/
def reImage : Re :=
  .seq (Re.str "![".toList) (.seq (Re.plus false (.cls isDotChar)) (.seq (Re.str "](".toList)
    (.seq (Re.plus false (.cls isDotChar)) (Re.chr ')'))))

/-- The pattern `^> `. -/
def reBlockQuote : Re := .seq .bol (Re.str "> ".toList)

/-- The pattern `<!\-\-.+?\-\->`. -/
def reInlineComment : Re :=
  .seq (Re.str "<!--".toList) (.seq (Re.plus false (.cls isDotChar)) (Re.str "-->".toList))

/-- The pattern `^([*\-_]\s?){3,}$`. -/
def reHorizontalRuler : Re :=
  .seq .bol (.seq (Re.atLeast 3 (.seq (.cls (fun c => c == '*' || c == '-' || c == '_'))
    (Re.opt (.cls isSpaceChar)))) .eol)

/-- The pattern `^\|.+?\|$`. -/
def reTable1 : Re :=
  .seq .bol (.seq (Re.chr '|') (.seq (Re.plus false (.cls isDotChar)) (.seq (Re.chr '|') .eol)))

/-- The pattern `^.+? \| .+? \| .+$`. -/
def reTable2 : Re :=
  .seq .bol (.seq (Re.plus false (.cls isDotChar)) (.seq (Re.str " | ".toList)
    (.seq (Re.plus false (.cls isDotChar)) (.seq (Re.str " | ".toList)
      (.seq (Re.plus true (.cls isDotChar)) .eol)))))

/-- The rule table `_highlightingRules`, in the order the constructor appends
it.  A rule appended without a fresh `HighlightingRule()` keeps the state and
the flags of the rule before it. -/
def highlightingRules : List HighlightingRule :=
  [ ⟨reBold, .Bold, false, false⟩,
    ⟨reItalic, .Italic, false, false⟩,
    ⟨reUrl, .Link, false, false⟩,
    ⟨reUrlTitle, .Link, false, false⟩,
    ⟨reEmail, .Link, false, false⟩,
    ⟨reReferenceLink, .Link, false, false⟩,
    ⟨reReference, .Comment, false, false⟩,
    ⟨reUnorderedList, .List, true, false⟩,
    ⟨reOrderedList, .List, true, false⟩,
    ⟨reInlineCode, .InlineCodeBlock, false, false⟩,
    ⟨reIndentedCode, .CodeBlock, false, true⟩,
    ⟨reImage, .Image, false, false⟩,
    ⟨reBlockQuote, .BlockQuote, false, false⟩,
    ⟨reInlineComment, .Comment, false, false⟩,
    ⟨reHorizontalRuler, .HorizontalRuler, false, false⟩,
    ⟨reTable1, .Table, false, false⟩,
    ⟨reTable2, .Table, false, false⟩ ]

/-- The pattern `^(#+) .+?$` of `highlightHeadline`. -/
def reHeadline : Re :=
  .seq .bol (.seq (.cap (Re.plus true (Re.chr '#'))) (.seq (Re.chr ' ')
    (.seq (Re.plus false (.cls isDotChar)) .eol)))

/-- The pattern `^=+$`. -/
def patternH1 : Re := .seq .bol (.seq (Re.plus true (Re.chr '=')) .eol)

/-- The pattern `^-+$`. -/
def patternH2 : Re := .seq .bol (.seq (Re.plus true (Re.chr '-')) .eol)

/-- The fence pattern of `highlightCodeBlock`: `^`, three backticks, `\w*?`, `$`. -/
def reFence : Re :=
  .seq .bol (.seq (Re.rep 3 (Re.chr (Char.ofNat 96))) (.seq (.star false (.cls isWordChar)) .eol))

/-! ## The highlighter -/

/-- What one pass can reach: the current block, its neighbours (`none` for an
invalid block) and the formats set so far, in call order. -/
structure Highlighter where
  previous : Option Block
  current : Block
  next : Option Block
  formats : List Span

namespace Highlighter

/-- The user state of the current block: `currentBlockState()`. -/
def currentBlockState (h : Highlighter) : HighlighterState := h.current.userState

/-- Sets the user state of the current block: `setCurrentBlockState(s)` and
`currentBlock().setUserState(s)` write the same cell. -/
def setCurrentBlockState (s : HighlighterState) (h : Highlighter) : Highlighter :=
  { h with current := { h.current with userState := s } }

/-- The user state of the previous block: `previousBlockState()`; an invalid
block reports `NoState`. -/
def previousBlockState (h : Highlighter) : HighlighterState :=
  match h.previous with
  | some b => b.userState
  | none => .NoState

/-- The text of the previous block: `currentBlock().previous().text()`, empty
for an invalid block. -/
def previousText (h : Highlighter) : List Char :=
  match h.previous with
  | some b => b.text
  | none => []

/-- Sets the user state of the previous block: `previousBlock.setUserState(s)`,
without effect on an invalid block. -/
def setPreviousUserState (s : HighlighterState) (h : Highlighter) : Highlighter :=
  { h with previous := h.previous.map (fun b => { b with userState := s }) }

/-- The text of the next block: `currentBlock().next().text()`, empty for an
invalid block. -/
def nextText (h : Highlighter) : List Char :=
  match h.next with
  | some b => b.text
  | none => []

/-- Records `setFormat(start, count, _formats[state])`. -/
def setFormat (start count : Nat) (state : HighlighterState) (h : Highlighter) : Highlighter :=
  { h with formats := h.formats ++ [⟨start, count, state⟩] }

end Highlighter

/-- The body of the loop of `highlightAdditionalRules` for one rule. -/
def applyRule (text : List Char) (h : Highlighter) (rule : HighlightingRule) : Highlighter :=
  if rule.disableIfCurrentStateIsSet = true ∧ h.currentBlockState ≠ .NoState then h
  else
    let i := rule.pattern.globalMatch text
    let h1 := if i ≠ [] ∧ rule.useStateAsCurrentBlockState = true then
      h.setCurrentBlockState rule.state else h
    i.foldl (fun acc m => acc.setFormat m.capturedStart m.capturedLength rule.state) h1

/-- Highlights the rules from the rule table: `highlightAdditionalRules`. -/
def highlightAdditionalRules (text : List Char) (h : Highlighter) : Highlighter :=
  highlightingRules.foldl (applyRule text) h

/-- Highlight headlines: `highlightHeadline`.  The statement
`previousText.trimmed().remove(...)` works on a temporary copy, so
`previousText` stays the text of the previous block. -/
def highlightHeadline (text : List Char) (h : Highlighter) : Highlighter :=
  match reHeadline.firstMatch text with
  | some m =>
    let count := min m.captured1Count 6
    let state := headlineState count
    ((h.setFormat m.capturedStart m.capturedLength state).setCurrentBlockState
      state).setCurrentBlockState state
  | none =>
    let previousText := h.previousText
    if patternH1.hasMatch text = true then
      if (h.previousBlockState = .H1 ∨ h.previousBlockState = .NoState) ∧
          previousText.length > 0 then
        ((h.setFormat 0 text.length .H1).setCurrentBlockState
          .HeadlineEnd).setPreviousUserState .H1
      else h
    else if patternH2.hasMatch text = true then
      if (h.previousBlockState = .H2 ∨ h.previousBlockState = .NoState) ∧
          previousText.length > 0 then
        ((h.setFormat 0 text.length .H2).setCurrentBlockState
          .HeadlineEnd).setPreviousUserState .H2
      else h
    else
      let nextBlockText := h.nextText
      let h1 := if patternH1.hasMatch nextBlockText = true ∨
          patternH2.hasMatch nextBlockText = true then
        ((h.setFormat 0 text.length .H1).setCurrentBlockState .H1).setCurrentBlockState .H1
        else h
      if patternH2.hasMatch nextBlockText = true then
        ((h1.setFormat 0 text.length .H2).setCurrentBlockState .H2).setCurrentBlockState .H2
      else h1

/-- Highlight multiline code blocks: `highlightCodeBlock`. -/
def highlightCodeBlock (text : List Char) (h : Highlighter) : Highlighter :=
  let r : Highlighter × Bool :=
    if reFence.hasMatch text = true then
      (h.setCurrentBlockState (if h.previousBlockState = .CodeBlock then
        .CodeBlockEnd else .CodeBlock), true)
    else if h.previousBlockState = .CodeBlock then
      (h.setCurrentBlockState .CodeBlock, true)
    else (h, false)
  if r.2 = true then r.1.setFormat 0 text.length .CodeBlock else r.1

/-- Highlight multiline comments: `highlightCommentBlock`. -/
def highlightCommentBlock (text : List Char) (h : Highlighter) : Highlighter :=
  let startText := "<!--".toList
  let endText := "-->".toList
  let r : Highlighter × Bool :=
    if text = startText ∨ (text ≠ endText ∧ h.previousBlockState = .Comment) then
      (h.setCurrentBlockState .Comment, true)
    else if text = endText then (h, true)
    else (h, false)
  if r.2 = true then r.1.setFormat 0 text.length .Comment else r.1

/-- The four detectors in order: `highlightMarkdown`. -/
def highlightMarkdown (text : List Char) (h : Highlighter) : Highlighter :=
  let h1 := if text ≠ [] then highlightHeadline text (highlightAdditionalRules text h) else h
  highlightCodeBlock text (highlightCommentBlock text h1)

/-- The pass on the current block: `highlightBlock`. -/
def Highlighter.highlightBlock (text : List Char) (h : Highlighter) : Highlighter :=
  highlightMarkdown text ((h.setCurrentBlockState .NoState).setCurrentBlockState .NoState)

/-! ## Documents -/

/-- The block before block `i`, `none` when `i` is the first block. -/
def previousBlock (doc : List Block) : Nat → Option Block
  | 0 => none
  | i + 1 => doc[i]?

/-- Stores the blocks a pass has written back into the document. -/
def writeBack (doc : List Block) (i : Nat) (h : Highlighter) : List Block :=
  match i, h.previous with
  | j + 1, some p => (doc.set (j + 1) h.current).set j p
  | _, _ => doc.set i h.current

/-- The per-line pass on block `i` of a document: the document afterwards and
the spans set for the block.  The host calls it on blocks of the document, with
the text of the block and no format set. -/
def highlightBlock (doc : List Block) (i : Nat) : List Block × List Span :=
  match doc[i]? with
  | none => (doc, [])
  | some b =>
    let h := Highlighter.highlightBlock b.text ⟨previousBlock doc i, b, doc[i + 1]?, []⟩
    (writeBack doc i h, h.formats)

/-- Runs the per-line pass on `n` blocks in order, starting at block `i`; yields
the document afterwards and the spans of each pass. -/
def highlightFrom : Nat → Nat → List Block → List Block × List (List Span)
  | 0, _, doc => (doc, [])
  | n + 1, i, doc =>
    let r := highlightBlock doc i
    let rest := highlightFrom n (i + 1) r.1
    (rest.1, r.2 :: rest.2)

/-- Runs the per-line pass on every line, from the first to the last. -/
def highlightLines (doc : List Block) : List Block × List (List Span) :=
  highlightFrom doc.length 0 doc

/-- A document with the given line texts and every carried classification at
`NoState`. -/
def freshDocument (texts : List (List Char)) : List Block :=
  texts.map (fun t => ⟨t, .NoState⟩)

/-- The carried classifications of a document. -/
def userStates (doc : List Block) : List HighlighterState := doc.map (fun b => b.userState)

/-! ## Declarative semantics of the patterns -/

/-- The relation `r.Matches c c1`: the pattern `r` can consume the subject from
cursor `c` to cursor `c1`, whatever the priority of that way of matching. -/
inductive Re.Matches : Re → Cursor → Cursor → Prop
  | eps (c : Cursor) : Re.Matches .eps c c
  | cls {p : Char → Bool} {b : List Char} {x : Char} {xs : List Char} {cp : Option (Nat × Nat)} :
      p x = true → Re.Matches (.cls p) ⟨b, x :: xs, cp⟩ ⟨x :: b, xs, cp⟩
  | bol {c : Cursor} : c.before = [] → Re.Matches .bol c c
  | eol {c : Cursor} : (c.after = [] ∨ c.after = ['\n']) → Re.Matches .eol c c
  | nwb {c : Cursor} : headIsWord c.before = headIsWord c.after → Re.Matches .nwb c c
  | seq {a b : Re} {c c1 c2 : Cursor} :
      Re.Matches a c c1 → Re.Matches b c1 c2 → Re.Matches (.seq a b) c c2
  | altL {a b : Re} {c c1 : Cursor} : Re.Matches a c c1 → Re.Matches (.alt a b) c c1
  | altR {a b : Re} {c c1 : Cursor} : Re.Matches b c c1 → Re.Matches (.alt a b) c c1
  | starStop {g : Bool} {a : Re} (c : Cursor) : Re.Matches (.star g a) c c
  | starStep {g : Bool} {a : Re} {c c1 c2 : Cursor} :
      Re.Matches a c c1 → c1.after.length < c.after.length →
      Re.Matches (.star g a) c1 c2 → Re.Matches (.star g a) c c2
  | starIdle {g : Bool} {a : Re} {c c1 : Cursor} :
      Re.Matches a c c1 → ¬ c1.after.length < c.after.length → Re.Matches (.star g a) c c1
  | cap {a : Re} {c c1 : Cursor} :
      Re.Matches a c c1 → Re.Matches (.cap a) c { c1 with cap := some (c.pos, c1.pos) }

/-- The spans a pattern sets on a text for the classification `s`: one span per
match of `globalMatch`, the whole match each. -/
def Re.spans (r : Re) (s : HighlighterState) (text : List Char) : List Span :=
  (r.globalMatch text).map (fun m => ⟨m.capturedStart, m.capturedLength, s⟩)

/-- A pattern that can only match at the start of the subject. -/
def Re.Anchored (r : Re) : Prop := ∀ c c1 : Cursor, r.Matches c c1 → c.before = []

/-! ## Shapes of lines, in the words of the specification -/

/-- A fence line: three backticks followed by zero or more word characters and
nothing else. -/
def FenceLine (t : List Char) : Prop :=
  ∃ w : List Char, t = "```".toList ++ w ∧ ∀ x ∈ w, isWordChar x = true

/-- A line consisting only of the character `x`, at least once. -/
def OnlyChar (x : Char) (t : List Char) : Prop := t ≠ [] ∧ ∀ y ∈ t, y = x

/-- An ATX headline of `k` marks: `k` characters `#` (`k ≥ 1`), one space, and at
least one further character. -/
def AtxHeadline (k : Nat) (t : List Char) : Prop :=
  1 ≤ k ∧ ∃ rest : List Char, rest ≠ [] ∧ t = List.replicate k '#' ++ ' ' :: rest

/-- A list item line: optional leading whitespace, then one of `-`, `*`, `+`, or one
digit and a dot, then a whitespace character. -/
def ListItemLine (t : List Char) : Prop :=
  ∃ ws rest : List Char, (∀ x ∈ ws, isSpaceChar x = true) ∧
    ((∃ m w : Char, (m = '-' ∨ m = '*' ∨ m = '+') ∧ isSpaceChar w = true ∧
        t = ws ++ m :: w :: rest) ∨
      (∃ d w : Char, isDigitChar d = true ∧ isSpaceChar w = true ∧
        t = ws ++ d :: '.' :: w :: rest))

/-- A pattern without the capturing group. -/
def Re.capFree : Re → Bool
  | .eps => true
  | .cls _ => true
  | .bol => true
  | .eol => true
  | .nwb => true
  | .seq a b => a.capFree && b.capFree
  | .alt a b => a.capFree && b.capFree
  | .star _ a => a.capFree
  | .cap _ => false

/-- A pattern whose matches all end where `$` holds. -/
def Re.EndsEol (r : Re) : Prop :=
  ∀ c c1 : Cursor, r.Matches c c1 → c1.after = [] ∨ c1.after = ['\n']

/-- A line that starts with a tab or with four spaces, followed by at least one
more character. -/
def IndentedLine (t : List Char) : Prop :=
  ∃ rest : List Char, rest ≠ [] ∧ (t = '\t' :: rest ∨ t = "    ".toList ++ rest)

/-- The text without whitespace at its start and at its end: `QString::trimmed()`. -/
def trimmed (t : List Char) : List Char :=
  ((t.dropWhile isSpaceChar).reverse.dropWhile isSpaceChar).reverse

/-- The text without its `=` and `-` characters:
`remove(QRegularExpression("[=-]"))`. -/
def removeMarkers (t : List Char) : List Char :=
  t.filter (fun c => !(c == '=' || c == '-'))

/-- The classifications a line can carry: `NoState`, the headline levels,
`HeadlineEnd`, `List`, `Comment`, `CodeBlock` and `CodeBlockEnd`. -/
def isCarried : HighlighterState → Bool
  | .NoState => true
  | .H1 => true
  | .H2 => true
  | .H3 => true
  | .H4 => true
  | .H5 => true
  | .H6 => true
  | .HeadlineEnd => true
  | .List => true
  | .Comment => true
  | .CodeBlock => true
  | .CodeBlockEnd => true
  | _ => false

/-- A sequence of per-line passes, on the lines `is` in turn. -/
def highlightMany (is : List Nat) (doc : List Block) : List Block :=
  is.foldl (fun d i => (highlightBlock d i).1) doc

/-! ## Theorems: the matcher and the declarative semantics -/

theorem starLoop_fuel (body : Cursor → (Cursor → Option Cursor) → Option Cursor) (g : Bool) :
    ∀ (n m : Nat) (c : Cursor) (k : Cursor → Option Cursor),
      c.after.length < n → c.after.length < m →
      starLoop body g n c k = starLoop body g m c k := by
  intro n
  induction n with
  | zero => intro m c k h; omega
  | succ n ih =>
    intro m c k hn hm
    cases m with
    | zero => omega
    | succ m =>
      have hk : (fun c1 : Cursor => if c1.after.length < c.after.length then
            starLoop body g n c1 k else k c1) =
          (fun c1 : Cursor => if c1.after.length < c.after.length then
            starLoop body g m c1 k else k c1) := by
        funext c1
        by_cases h : c1.after.length < c.after.length
        · simp only [h, if_true]
          exact ih m c1 k (by omega) (by omega)
        · simp only [h, if_false]
      simp only [starLoop, hk]

/-- Unfolding of `star`: one iteration, then the same pattern again. -/
theorem Re.go_star (g : Bool) (a : Re) (c : Cursor) (k : Cursor → Option Cursor) :
    (Re.star g a).go c k =
      if g then (a.go c (fun c1 => if c1.after.length < c.after.length then
          (Re.star g a).go c1 k else k c1)).orElse (fun _ => k c)
      else (k c).orElse (fun _ => a.go c (fun c1 => if c1.after.length < c.after.length then
          (Re.star g a).go c1 k else k c1)) := by
  have hk : (fun c1 : Cursor => if c1.after.length < c.after.length then
        starLoop a.go g c.after.length c1 k else k c1) =
      (fun c1 : Cursor => if c1.after.length < c.after.length then
        (Re.star g a).go c1 k else k c1) := by
    funext c1
    by_cases h : c1.after.length < c.after.length
    · simp only [h, if_true, Re.go]
      exact starLoop_fuel a.go g _ _ c1 k h (by omega)
    · simp only [h, if_false]
  simp only [Re.go, starLoop, hk]

theorem Re.go_sound : ∀ (r : Re) (c : Cursor) (k : Cursor → Option Cursor) (x : Cursor),
    r.go c k = some x → ∃ c1, r.Matches c c1 ∧ k c1 = some x := by
  intro r
  induction r with
  | eps => intro c k x h; exact ⟨c, .eps c, h⟩
  | cls p =>
    intro c k x h
    obtain ⟨b, af, cp⟩ := c
    cases af with
    | nil => simp [Re.go] at h
    | cons y ys =>
      by_cases hp : p y = true
      · simp only [Re.go, hp, if_true] at h
        exact ⟨_, .cls hp, h⟩
      · simp [Re.go, hp] at h
  | bol =>
    intro c k x h
    by_cases hb : c.before = []
    · simp only [Re.go, hb, if_true] at h
      exact ⟨c, .bol hb, h⟩
    · simp [Re.go, hb] at h
  | eol =>
    intro c k x h
    by_cases hb : c.after = [] ∨ c.after = ['\n']
    · simp only [Re.go, hb, if_true] at h
      exact ⟨c, .eol hb, h⟩
    · simp only [Re.go, hb, if_false] at h
      cases h
  | nwb =>
    intro c k x h
    by_cases hb : headIsWord c.before = headIsWord c.after
    · simp only [Re.go, hb, if_true] at h
      exact ⟨c, .nwb hb, h⟩
    · simp only [Re.go, hb, if_false] at h
      cases h
  | seq a b iha ihb =>
    intro c k x h
    simp only [Re.go] at h
    obtain ⟨c1, h1, h2⟩ := iha c _ x h
    obtain ⟨c2, h3, h4⟩ := ihb c1 k x h2
    exact ⟨c2, .seq h1 h3, h4⟩
  | alt a b iha ihb =>
    intro c k x h
    simp only [Re.go] at h
    cases ha : a.go c k with
    | some y =>
      simp only [ha, Option.orElse] at h
      obtain ⟨c1, h1, h2⟩ := iha c k y ha
      exact ⟨c1, .altL h1, h2.trans h⟩
    | none =>
      simp only [ha, Option.orElse] at h
      obtain ⟨c1, h1, h2⟩ := ihb c k x h
      exact ⟨c1, .altR h1, h2⟩
  | star g a iha =>
    have key : ∀ (n : Nat) (c : Cursor) (k : Cursor → Option Cursor) (x : Cursor),
        starLoop a.go g n c k = some x → ∃ c1, (Re.star g a).Matches c c1 ∧ k c1 = some x := by
      intro n
      induction n with
      | zero => intro c k x h; simp [starLoop] at h
      | succ n ihn =>
        intro c k x h
        have iter : ∀ y, a.go c (fun c1 => if c1.after.length < c.after.length then
            starLoop a.go g n c1 k else k c1) = some y →
            ∃ c1, (Re.star g a).Matches c c1 ∧ k c1 = some y := by
          intro y hy
          obtain ⟨c1, h1, h2⟩ := iha c _ y hy
          by_cases hlt : c1.after.length < c.after.length
          · simp only [hlt, if_true] at h2
            obtain ⟨c2, h3, h4⟩ := ihn c1 k y h2
            exact ⟨c2, .starStep h1 hlt h3, h4⟩
          · simp only [hlt, if_false] at h2
            exact ⟨c1, .starIdle h1 hlt, h2⟩
        simp only [starLoop] at h
        cases g with
        | true =>
          simp only [if_true] at h
          cases hi : a.go c (fun c1 => if c1.after.length < c.after.length then
              starLoop a.go true n c1 k else k c1) with
          | some y =>
            simp only [hi, Option.orElse] at h
            obtain ⟨c1, h1, h2⟩ := iter y hi
            exact ⟨c1, h1, h2.trans h⟩
          | none =>
            simp only [hi, Option.orElse] at h
            exact ⟨c, .starStop c, h⟩
        | false =>
          simp only [Bool.false_eq_true, if_false] at h
          cases hk : k c with
          | some y =>
            simp only [hk, Option.orElse] at h
            exact ⟨c, .starStop c, hk.trans h⟩
          | none =>
            simp only [hk, Option.orElse] at h
            exact iter x h
    intro c k x h
    exact key _ c k x h
  | cap a iha =>
    intro c k x h
    simp only [Re.go] at h
    obtain ⟨c1, h1, h2⟩ := iha c _ x h
    exact ⟨_, .cap h1, h2⟩

theorem isSome_orElse_left {α : Type} (o : Option α) (f : Unit → Option α)
    (h : o.isSome = true) : (o.orElse f).isSome = true := by
  cases o with
  | none => simp at h
  | some y => simp [Option.orElse]

theorem isSome_orElse_right {α : Type} (o : Option α) (f : Unit → Option α)
    (h : (f ()).isSome = true) : (o.orElse f).isSome = true := by
  cases o with
  | none => simpa [Option.orElse] using h
  | some y => simp [Option.orElse]

theorem Re.go_complete {r : Re} {c c1 : Cursor} (h : r.Matches c c1) :
    ∀ (k : Cursor → Option Cursor), (k c1).isSome = true → (r.go c k).isSome = true := by
  induction h with
  | eps c => intro k hk; exact hk
  | cls hp => intro k hk; simp only [Re.go, hp, if_true]; exact hk
  | bol hb => intro k hk; simp only [Re.go, hb, if_true]; exact hk
  | eol hb => intro k hk; simp only [Re.go, hb, if_true]; exact hk
  | nwb hb => intro k hk; simp only [Re.go, hb, if_true]; exact hk
  | seq _ _ iha ihb => intro k hk; simp only [Re.go]; exact iha _ (ihb k hk)
  | altL _ iha => intro k hk; simp only [Re.go]; exact isSome_orElse_left _ _ (iha k hk)
  | altR _ ihb => intro k hk; simp only [Re.go]; exact isSome_orElse_right _ _ (ihb k hk)
  | starStop c =>
    intro k hk
    rw [Re.go_star]
    split
    · exact isSome_orElse_right _ _ hk
    · exact isSome_orElse_left _ _ hk
  | @starStep g a c c1 c2 _ hlt _ iha ihs =>
    intro k hk
    rw [Re.go_star]
    have hi := iha (fun c3 => if c3.after.length < c.after.length then
        (Re.star g a).go c3 k else k c3)
      (by simp only [hlt, if_true]; exact ihs k hk)
    split
    · exact isSome_orElse_left _ _ hi
    · exact isSome_orElse_right _ _ hi
  | @starIdle g a c c1 _ hlt iha =>
    intro k hk
    rw [Re.go_star]
    have hi := iha (fun c3 => if c3.after.length < c.after.length then
        (Re.star g a).go c3 k else k c3)
      (by simp only [hlt, if_false]; exact hk)
    split
    · exact isSome_orElse_left _ _ hi
    · exact isSome_orElse_right _ _ hi
  | cap _ iha => intro k hk; simp only [Re.go]; exact iha _ hk

theorem Re.matches_eps {c c1 : Cursor} : Re.eps.Matches c c1 ↔ c1 = c := by
  constructor
  · intro h; cases h; rfl
  · rintro rfl; exact .eps _

theorem Re.matches_cls {p : Char → Bool} {c c1 : Cursor} :
    (Re.cls p).Matches c c1 ↔
      ∃ x xs, c.after = x :: xs ∧ p x = true ∧ c1 = c.shift [x] xs := by
  constructor
  · intro h
    cases h with
    | cls hp => exact ⟨_, _, rfl, hp, rfl⟩
  · rintro ⟨x, xs, h1, hp, rfl⟩
    obtain ⟨b, af, cp⟩ := c
    simp only at h1
    subst h1
    exact .cls hp

theorem Re.matches_bol {c c1 : Cursor} : Re.bol.Matches c c1 ↔ c.before = [] ∧ c1 = c := by
  constructor
  · intro h; cases h with | bol hb => exact ⟨hb, rfl⟩
  · rintro ⟨hb, rfl⟩; exact .bol hb

theorem Re.matches_eol {c c1 : Cursor} :
    Re.eol.Matches c c1 ↔ (c.after = [] ∨ c.after = ['\n']) ∧ c1 = c := by
  constructor
  · intro h; cases h with | eol hb => exact ⟨hb, rfl⟩
  · rintro ⟨hb, rfl⟩; exact .eol hb

theorem Re.matches_nwb {c c1 : Cursor} :
    Re.nwb.Matches c c1 ↔ headIsWord c.before = headIsWord c.after ∧ c1 = c := by
  constructor
  · intro h; cases h with | nwb hb => exact ⟨hb, rfl⟩
  · rintro ⟨hb, rfl⟩; exact .nwb hb

theorem Re.matches_seq {a b : Re} {c c2 : Cursor} :
    (Re.seq a b).Matches c c2 ↔ ∃ c1, a.Matches c c1 ∧ b.Matches c1 c2 := by
  constructor
  · intro h; cases h with | seq h1 h2 => exact ⟨_, h1, h2⟩
  · rintro ⟨c1, h1, h2⟩; exact .seq h1 h2

theorem Re.matches_alt {a b : Re} {c c1 : Cursor} :
    (Re.alt a b).Matches c c1 ↔ a.Matches c c1 ∨ b.Matches c c1 := by
  constructor
  · intro h
    cases h with
    | altL h1 => exact Or.inl h1
    | altR h1 => exact Or.inr h1
  · rintro (h | h)
    · exact .altL h
    · exact .altR h

theorem Re.matches_cap {a : Re} {c c2 : Cursor} :
    (Re.cap a).Matches c c2 ↔
      ∃ c1, a.Matches c c1 ∧ c2 = { c1 with cap := some (c.pos, c1.pos) } := by
  constructor
  · intro h; cases h with | cap h1 => exact ⟨_, h1, rfl⟩
  · rintro ⟨c1, h1, rfl⟩; exact .cap h1

theorem Cursor.shift_nil (c : Cursor) : c.shift [] c.after = c := rfl

theorem Cursor.shift_shift (c : Cursor) (xs ys r1 r2 : List Char) :
    (c.shift xs r1).shift ys r2 = c.shift (xs ++ ys) r2 := by
  simp [Cursor.shift]

theorem Re.matches_star_cls_fwd {r : Re} {c c1 : Cursor} (h : r.Matches c c1) :
    ∀ (g : Bool) (p : Char → Bool), r = Re.star g (Re.cls p) →
      ∃ xs rest, c.after = xs ++ rest ∧ (∀ x ∈ xs, p x = true) ∧ c1 = c.shift xs rest := by
  induction h with
  | eps c => intro g p e; cases e
  | cls hp => intro g p e; cases e
  | bol hb => intro g p e; cases e
  | eol hb => intro g p e; cases e
  | nwb hb => intro g p e; cases e
  | seq _ _ _ _ => intro g p e; cases e
  | altL _ _ => intro g p e; cases e
  | altR _ _ => intro g p e; cases e
  | starStop c => intro g p e; exact ⟨[], c.after, rfl, by simp, rfl⟩
  | starStep h1 hlt _ _ ihs =>
    intro g p e
    cases e
    obtain ⟨x, xs, hx, hp, rfl⟩ := Re.matches_cls.mp h1
    obtain ⟨ys, rest, hy, hall, rfl⟩ := ihs _ _ rfl
    refine ⟨x :: ys, rest, ?_, ?_, ?_⟩
    · rw [hx]; simp only [Cursor.shift] at hy; simp [hy]
    · intro y hy; cases hy with
      | head => exact hp
      | tail _ h => exact hall y h
    · simp [Cursor.shift]
  | starIdle h1 hlt _ =>
    intro g p e
    cases e
    obtain ⟨x, xs, hx, hp, rfl⟩ := Re.matches_cls.mp h1
    exfalso; apply hlt; simp [Cursor.shift, hx]
  | cap _ _ => intro g p e; cases e

theorem Re.matches_star_cls {g : Bool} {p : Char → Bool} {c c1 : Cursor} :
    (Re.star g (Re.cls p)).Matches c c1 ↔
      ∃ xs rest, c.after = xs ++ rest ∧ (∀ x ∈ xs, p x = true) ∧ c1 = c.shift xs rest := by
  constructor
  · intro h; exact Re.matches_star_cls_fwd h g p rfl
  · rintro ⟨xs, rest, h1, hall, rfl⟩
    induction xs generalizing c with
    | nil =>
      simp only [List.nil_append] at h1
      subst h1
      exact .starStop c
    | cons x xs ih =>
      have hstep : (Re.cls p).Matches c (c.shift [x] (xs ++ rest)) :=
        Re.matches_cls.mpr ⟨x, xs ++ rest, h1, hall x (List.mem_cons_self _ _), rfl⟩
      have hrest := @ih (c.shift [x] (xs ++ rest)) rfl
        (fun y hy => hall y (List.mem_cons_of_mem _ hy))
      rw [Cursor.shift_shift] at hrest
      refine .starStep hstep ?_ hrest
      simp [Cursor.shift, h1]

theorem Re.matches_plus_cls {g : Bool} {p : Char → Bool} {c c1 : Cursor} :
    (Re.plus g (Re.cls p)).Matches c c1 ↔
      ∃ xs rest, xs ≠ [] ∧ c.after = xs ++ rest ∧ (∀ x ∈ xs, p x = true) ∧
        c1 = c.shift xs rest := by
  simp only [Re.plus, Re.matches_seq, Re.matches_cls, Re.matches_star_cls]
  constructor
  · rintro ⟨c2, ⟨x, xs, hx, hp, rfl⟩, ys, rest, hy, hall, rfl⟩
    refine ⟨x :: ys, rest, by simp, ?_, ?_, ?_⟩
    · rw [hx]; simp only [Cursor.shift] at hy; simp [hy]
    · intro y hy; cases hy with
      | head => exact hp
      | tail _ h => exact hall y h
    · simp [Cursor.shift]
  · rintro ⟨xs, rest, hne, h1, hall, rfl⟩
    cases xs with
    | nil => exact absurd rfl hne
    | cons x xs =>
      refine ⟨c.shift [x] (xs ++ rest), ⟨x, xs ++ rest, h1, hall x (List.mem_cons_self _ _), rfl⟩,
        xs, rest, rfl, fun y hy => hall y (List.mem_cons_of_mem _ hy), ?_⟩
      simp [Cursor.shift]

theorem Re.matches_chr {x : Char} {c c1 : Cursor} :
    (Re.chr x).Matches c c1 ↔ ∃ rest, c.after = x :: rest ∧ c1 = c.shift [x] rest := by
  simp only [Re.chr, Re.matches_cls]
  constructor
  · rintro ⟨y, xs, h1, hp, rfl⟩
    have : y = x := by simpa using hp
    subst this
    exact ⟨xs, h1, rfl⟩
  · rintro ⟨rest, h1, rfl⟩
    exact ⟨x, rest, h1, by simp, rfl⟩

theorem Re.matches_str {s : List Char} {c c1 : Cursor} :
    (Re.str s).Matches c c1 ↔ ∃ rest, c.after = s ++ rest ∧ c1 = c.shift s rest := by
  induction s generalizing c with
  | nil =>
    simp only [Re.str, Re.matches_eps, List.nil_append]
    constructor
    · intro h; subst h; exact ⟨_, rfl, rfl⟩
    · rintro ⟨rest, h1, rfl⟩; subst h1; rfl
  | cons x xs ih =>
    simp only [Re.str, Re.matches_seq, Re.matches_chr, ih]
    constructor
    · rintro ⟨c2, ⟨r1, h1, rfl⟩, r2, h2, rfl⟩
      refine ⟨r2, ?_, ?_⟩
      · simp only [Cursor.shift] at h2; simp [h1, h2]
      · simp [Cursor.shift]
    · rintro ⟨rest, h1, rfl⟩
      refine ⟨c.shift [x] (xs ++ rest), ⟨xs ++ rest, by simpa using h1, rfl⟩, rest, rfl, ?_⟩
      simp [Cursor.shift]

theorem Re.matches_rep_chr {n : Nat} {x : Char} {c c1 : Cursor} :
    (Re.rep n (Re.chr x)).Matches c c1 ↔
      ∃ rest, c.after = List.replicate n x ++ rest ∧ c1 = c.shift (List.replicate n x) rest := by
  induction n generalizing c with
  | zero =>
    simp only [Re.rep, Re.matches_eps, List.replicate_zero, List.nil_append]
    constructor
    · intro h; subst h; exact ⟨_, rfl, rfl⟩
    · rintro ⟨rest, h1, rfl⟩; subst h1; rfl
  | succ n ih =>
    simp only [Re.rep, Re.matches_seq, Re.matches_chr, ih, List.replicate_succ]
    constructor
    · rintro ⟨c2, ⟨r1, h1, rfl⟩, r2, h2, rfl⟩
      refine ⟨r2, ?_, ?_⟩
      · simp only [Cursor.shift] at h2; simp [h1, h2]
      · simp [Cursor.shift]
    · rintro ⟨rest, h1, rfl⟩
      refine ⟨c.shift [x] (List.replicate n x ++ rest), ⟨_, by simpa using h1, rfl⟩, rest, rfl, ?_⟩
      simp [Cursor.shift]

/-! ## Theorems: searching -/

theorem Re.anchored_seq_bol (r : Re) : (Re.seq .bol r).Anchored := by
  intro c c1 h
  obtain ⟨c2, h1, -⟩ := Re.matches_seq.mp h
  exact (Re.matches_bol.mp h1).1

theorem Re.go_none_of_anchored {r : Re} (hr : r.Anchored) (c : Cursor) (hc : c.before ≠ []) :
    r.go c some = none := by
  cases h : r.go c some with
  | none => rfl
  | some x =>
    obtain ⟨c1, h1, -⟩ := Re.go_sound r c some x h
    exact absurd (hr c c1 h1) hc

theorem Re.searchFrom_anchored {r : Re} (hr : r.Anchored) (after before : List Char)
    (hb : before ≠ []) : r.searchFrom before after = none := by
  induction after generalizing before with
  | nil => simp [Re.searchFrom, Re.go_none_of_anchored hr ⟨before, [], none⟩ hb]
  | cons x xs ih =>
    simp only [Re.searchFrom, Re.go_none_of_anchored hr ⟨before, x :: xs, none⟩ hb]
    exact ih (x :: before) (by simp)

theorem Re.firstMatch_anchored {r : Re} (hr : r.Anchored) (t : List Char) :
    r.firstMatch t = (r.go ⟨[], t, none⟩ some).map (fun c => ⟨0, c⟩) := by
  cases t with
  | nil => simp [Re.firstMatch, Re.searchFrom]
  | cons x xs =>
    simp only [Re.firstMatch, Re.searchFrom]
    cases h : r.go ⟨[], x :: xs, none⟩ some with
    | none => simpa using Re.searchFrom_anchored hr xs [x] (by simp)
    | some y => simp

theorem Re.hasMatch_anchored_iff {r : Re} (hr : r.Anchored) (t : List Char) :
    r.hasMatch t = true ↔ ∃ c1, r.Matches ⟨[], t, none⟩ c1 := by
  rw [Re.hasMatch, Re.firstMatch_anchored hr]
  constructor
  · intro h
    cases hg : r.go ⟨[], t, none⟩ some with
    | none => simp [hg] at h
    | some y =>
      obtain ⟨c1, h1, -⟩ := Re.go_sound r _ some y hg
      exact ⟨c1, h1⟩
  · rintro ⟨c1, h1⟩
    have := Re.go_complete h1 some rfl
    cases hg : r.go ⟨[], t, none⟩ some with
    | none => simp [hg] at this
    | some y => simp

theorem Re.firstMatch_anchored_unique {r : Re} (hr : r.Anchored) (t : List Char) (c0 : Cursor)
    (h0 : r.Matches ⟨[], t, none⟩ c0) (hu : ∀ c1, r.Matches ⟨[], t, none⟩ c1 → c1 = c0) :
    r.firstMatch t = some ⟨0, c0⟩ := by
  rw [Re.firstMatch_anchored hr]
  have := Re.go_complete h0 some rfl
  cases hg : r.go ⟨[], t, none⟩ some with
  | none => simp [hg] at this
  | some y =>
    obtain ⟨c1, h1, h2⟩ := Re.go_sound r _ some y hg
    have h3 : c1 = y := by simpa using h2
    rw [← h3, hu c1 h1]
    rfl

theorem Re.firstMatch_none_of_hasMatch {r : Re} (t : List Char)
    (h : r.hasMatch t = false) : r.firstMatch t = none := by
  simpa [Re.hasMatch] using h

/-! ## Theorems: the patterns of the block detectors -/

theorem lineText_append {xs ys : List Char} (h : LineText (xs ++ ys)) : LineText ys := by
  intro hm; exact h (List.mem_append_right _ hm)

theorem lineText_not_newline {xs : List Char} (h : LineText (xs ++ ['\n'])) : False :=
  h (by simp)

/-- The fence pattern matches exactly the fence lines. -/
theorem reFence_hasMatch_iff (t : List Char) (ht : LineText t) :
    reFence.hasMatch t = true ↔ FenceLine t := by
  rw [reFence, Re.hasMatch_anchored_iff (Re.anchored_seq_bol _)]
  simp only [Re.matches_seq, Re.matches_bol, Re.matches_rep_chr, Re.matches_star_cls,
    Re.matches_eol, FenceLine]
  constructor
  · rintro ⟨c1, c2, ⟨-, rfl⟩, c3, ⟨r1, h1, rfl⟩, c4, ⟨w, r2, h2, hw, rfl⟩, h3, rfl⟩
    simp only [Cursor.shift] at h1 h2 h3
    subst h1
    subst h2
    rcases h3 with h3 | h3
    · subst h3
      exact ⟨w, by simp, hw⟩
    · subst h3
      exfalso
      apply ht
      simp
  · rintro ⟨w, rfl, hw⟩
    refine ⟨_, _, ⟨trivial, rfl⟩, _, ⟨w, rfl, rfl⟩, _, ⟨w, [], by simp [Cursor.shift], hw, rfl⟩, ?_, rfl⟩
    simp [Cursor.shift]

theorem fenceLine_hasMatch (t : List Char) (h : FenceLine t) : reFence.hasMatch t = true := by
  have ht : LineText t := by
    obtain ⟨w, rfl, hw⟩ := h
    intro hm
    rcases List.mem_append.mp hm with h1 | h1
    · revert h1; decide
    · have := hw _ h1; revert this; decide
  exact (reFence_hasMatch_iff t ht).mpr h

theorem not_fenceLine_hasMatch (t : List Char) (ht : LineText t) (h : ¬ FenceLine t) :
    reFence.hasMatch t = false := by
  cases hm : reFence.hasMatch t with
  | false => rfl
  | true => exact absurd ((reFence_hasMatch_iff t ht).mp hm) h

/-- The pattern `^x+$` matches exactly the lines made of `x` only. -/
theorem onlyChar_hasMatch_iff (x : Char) (t : List Char) (ht : LineText t) :
    (Re.seq .bol (.seq (Re.plus true (Re.chr x)) .eol)).hasMatch t = true ↔ OnlyChar x t := by
  rw [Re.hasMatch_anchored_iff (Re.anchored_seq_bol _)]
  simp only [Re.chr, Re.matches_seq, Re.matches_bol, Re.matches_plus_cls, Re.matches_eol, OnlyChar]
  constructor
  · rintro ⟨c1, c2, ⟨-, rfl⟩, c3, ⟨xs, r1, hne, h1, hx, rfl⟩, h3, rfl⟩
    simp only [Cursor.shift] at h1 h3
    subst h1
    rcases h3 with h3 | h3
    · subst h3
      refine ⟨by simpa using hne, ?_⟩
      intro y hy
      simpa using hx y (by simpa using hy)
    · subst h3
      exact absurd (List.mem_append_right _ (by simp)) ht
  · rintro ⟨hne, hall⟩
    refine ⟨_, _, ⟨trivial, rfl⟩, _, ⟨t, [], hne, by simp, ?_, rfl⟩, ?_, rfl⟩
    · intro y hy; simpa using hall y hy
    · simp [Cursor.shift]

theorem patternH1_hasMatch_iff (t : List Char) (ht : LineText t) :
    patternH1.hasMatch t = true ↔ OnlyChar '=' t := onlyChar_hasMatch_iff '=' t ht

theorem patternH2_hasMatch_iff (t : List Char) (ht : LineText t) :
    patternH2.hasMatch t = true ↔ OnlyChar '-' t := onlyChar_hasMatch_iff '-' t ht

theorem lineText_of_onlyChar {x : Char} {t : List Char} (hx : x ≠ '\n') (h : OnlyChar x t) :
    LineText t := by
  intro hm
  exact hx (h.2 _ hm).symm

theorem patternH1_of_onlyChar (t : List Char) (h : OnlyChar '=' t) :
    patternH1.hasMatch t = true :=
  (patternH1_hasMatch_iff t (lineText_of_onlyChar (by decide) h)).mpr h

theorem patternH2_of_onlyChar (t : List Char) (h : OnlyChar '-' t) :
    patternH2.hasMatch t = true :=
  (patternH2_hasMatch_iff t (lineText_of_onlyChar (by decide) h)).mpr h

theorem patternH1_not (t : List Char) (ht : LineText t) (h : ¬ OnlyChar '=' t) :
    patternH1.hasMatch t = false := by
  cases hm : patternH1.hasMatch t with
  | false => rfl
  | true => exact absurd ((patternH1_hasMatch_iff t ht).mp hm) h

theorem patternH2_not (t : List Char) (ht : LineText t) (h : ¬ OnlyChar '-' t) :
    patternH2.hasMatch t = false := by
  cases hm : patternH2.hasMatch t with
  | false => rfl
  | true => exact absurd ((patternH2_hasMatch_iff t ht).mp hm) h

theorem onlyChar_exclusive {x y : Char} (hxy : x ≠ y) {t : List Char} (h1 : OnlyChar x t)
    (h2 : OnlyChar y t) : False := by
  obtain ⟨hne, hx⟩ := h1
  cases t with
  | nil => exact hne rfl
  | cons z zs =>
    have e1 := hx z (List.mem_cons_self _ _)
    have e2 := h2.2 z (List.mem_cons_self _ _)
    exact hxy (e1.symm.trans e2)

/-- The run of marks before the first space is determined by the text. -/
theorem marks_unique : ∀ (hs hs1 ds ds1 : List Char), (∀ x ∈ hs, x = '#') → (∀ x ∈ hs1, x = '#') →
    hs ++ ' ' :: ds = hs1 ++ ' ' :: ds1 → hs = hs1 ∧ ds = ds1 := by
  intro hs
  induction hs with
  | nil =>
    intro hs1 ds ds1 _ h1 e
    cases hs1 with
    | nil => simpa using e
    | cons y ys =>
      simp only [List.nil_append, List.cons_append, List.cons.injEq] at e
      have := h1 y (List.mem_cons_self _ _)
      rw [← e.1] at this
      exact absurd this (by decide)
  | cons x xs ih =>
    intro hs1 ds ds1 h h1 e
    cases hs1 with
    | nil =>
      simp only [List.nil_append, List.cons_append, List.cons.injEq] at e
      have := h x (List.mem_cons_self _ _)
      rw [e.1] at this
      exact absurd this (by decide)
    | cons y ys =>
      simp only [List.cons_append, List.cons.injEq] at e
      obtain ⟨e1, e2⟩ := ih ys ds ds1 (fun z hz => h z (List.mem_cons_of_mem _ hz))
        (fun z hz => h1 z (List.mem_cons_of_mem _ hz)) e.2
      exact ⟨by rw [e.1, e1], e2⟩

theorem all_dot_of_lineText {t : List Char} (ht : LineText t) : ∀ x ∈ t, isDotChar x = true := by
  intro x hx
  have : x ≠ '\n' := fun e => ht (e ▸ hx)
  simpa [isDotChar] using this

/-- The matches of the headline pattern on a line: the whole line, group 1
holding the marks. -/
theorem reHeadline_matches (t : List Char) (ht : LineText t) (c1 : Cursor) :
    reHeadline.Matches ⟨[], t, none⟩ c1 ↔
      ∃ k, AtxHeadline k t ∧ c1 = ⟨t.reverse, [], some (0, k)⟩ := by
  simp only [reHeadline, Re.chr, Re.matches_seq, Re.matches_bol, Re.matches_cap,
    Re.matches_plus_cls, Re.matches_cls, Re.matches_eol, AtxHeadline]
  constructor
  · rintro ⟨c2, ⟨-, rfl⟩, c3, ⟨c4, ⟨hs, r1, hne, h1, hh, rfl⟩, rfl⟩, c5, ⟨x, r2, h2, hx, rfl⟩,
      c6, ⟨ds, r3, hdne, h3, -, rfl⟩, h4, rfl⟩
    simp only [Cursor.shift] at h1 h2 h3 h4
    subst h1
    subst h2
    subst h3
    have hx1 : x = ' ' := by simpa using hx
    subst hx1
    have hh1 : ∀ y ∈ hs, y = '#' := fun y hy => by simpa using hh y hy
    have hrep : hs = List.replicate hs.length '#' := List.eq_replicate_iff.mpr ⟨rfl, hh1⟩
    rcases h4 with h4 | h4
    · subst h4
      refine ⟨hs.length, ⟨?_, ds, hdne, ?_⟩, ?_⟩
      · cases hs with
        | nil => exact absurd rfl hne
        | cons _ _ => simp
      · rw [← hrep]; simp
      · simp [Cursor.shift, Cursor.pos]
    · subst h4
      exfalso
      apply ht
      simp
  · rintro ⟨k, ⟨hk, rest, hrest, rfl⟩, rfl⟩
    refine ⟨_, ⟨trivial, rfl⟩, _, ⟨_, ⟨List.replicate k '#', ' ' :: rest, ?_, rfl, ?_, rfl⟩, rfl⟩,
      _, ⟨' ', rest, rfl, by simp, rfl⟩, _, ⟨rest, [], hrest, by simp [Cursor.shift], ?_, rfl⟩, ?_, ?_⟩
    · cases k with
      | zero => omega
      | succ n => simp [List.replicate_succ]
    · intro y hy; simp [List.eq_of_mem_replicate hy]
    · exact all_dot_of_lineText (@lineText_append (List.replicate k '#' ++ [' ']) rest
        (by simpa using ht))
    · simp [Cursor.shift]
    · simp [Cursor.shift, Cursor.pos]

theorem atxHeadline_unique {k k1 : Nat} {t : List Char} (h : AtxHeadline k t)
    (h1 : AtxHeadline k1 t) : k = k1 := by
  obtain ⟨-, rest, -, rfl⟩ := h
  obtain ⟨-, rest1, -, e⟩ := h1
  have := (marks_unique _ _ _ _ (fun x hx => List.eq_of_mem_replicate hx)
    (fun x hx => List.eq_of_mem_replicate hx) e).1
  simpa using congrArg List.length this

theorem reHeadline_anchored : reHeadline.Anchored := Re.anchored_seq_bol _

/-- On an ATX headline the headline pattern matches the whole line and group 1
holds the `k` marks. -/
theorem reHeadline_firstMatch_atx (k : Nat) (t : List Char) (ht : LineText t)
    (h : AtxHeadline k t) :
    reHeadline.firstMatch t = some ⟨0, ⟨t.reverse, [], some (0, k)⟩⟩ := by
  apply Re.firstMatch_anchored_unique reHeadline_anchored
  · exact (reHeadline_matches t ht _).mpr ⟨k, h, rfl⟩
  · intro c1 hc
    obtain ⟨k1, hk1, rfl⟩ := (reHeadline_matches t ht _).mp hc
    rw [atxHeadline_unique hk1 h]

/-- On any other line the headline pattern has no match. -/
theorem reHeadline_firstMatch_none (t : List Char) (ht : LineText t)
    (h : ∀ k, ¬ AtxHeadline k t) : reHeadline.firstMatch t = none := by
  apply Re.firstMatch_none_of_hasMatch
  cases hm : reHeadline.hasMatch t with
  | false => rfl
  | true =>
    obtain ⟨c1, hc⟩ := (Re.hasMatch_anchored_iff reHeadline_anchored t).mp hm
    obtain ⟨k, hk, -⟩ := (reHeadline_matches t ht _).mp hc
    exact absurd hk (h k)

/-! ## Theorems: the detectors, one by one -/

theorem foldl_setFormat (s : HighlighterState) (ms : List Match) (h : Highlighter) :
    ms.foldl (fun acc m => acc.setFormat m.capturedStart m.capturedLength s) h =
      { h with formats := h.formats ++
          ms.map (fun m => (⟨m.capturedStart, m.capturedLength, s⟩ : Span)) } := by
  induction ms generalizing h with
  | nil => simp
  | cons m ms ih =>
    rw [List.foldl_cons, ih]
    simp [Highlighter.setFormat]

/-- The spans one rule sets on a text. -/
theorem applyRule_eq (text : List Char) (h : Highlighter) (rule : HighlightingRule) :
    applyRule text h rule =
      if rule.disableIfCurrentStateIsSet = true ∧ h.current.userState ≠ .NoState then h
      else
        { previous := h.previous,
          current := ⟨h.current.text,
            if rule.pattern.globalMatch text ≠ [] ∧ rule.useStateAsCurrentBlockState = true then
              rule.state else h.current.userState⟩,
          next := h.next,
          formats := h.formats ++ (rule.pattern.globalMatch text).map
            (fun m => (⟨m.capturedStart, m.capturedLength, rule.state⟩ : Span)) } := by
  unfold applyRule
  simp only [Highlighter.currentBlockState, foldl_setFormat]
  split
  · rfl
  · split <;> rfl

theorem applyRule_frame (text : List Char) (h : Highlighter) (rule : HighlightingRule) :
    (applyRule text h rule).previous = h.previous ∧ (applyRule text h rule).next = h.next ∧
      (applyRule text h rule).current.text = h.current.text := by
  rw [applyRule_eq]
  split <;> simp

theorem foldl_applyRule_frame (text : List Char) (rules : List HighlightingRule)
    (h : Highlighter) :
    (rules.foldl (applyRule text) h).previous = h.previous ∧
      (rules.foldl (applyRule text) h).next = h.next ∧
      (rules.foldl (applyRule text) h).current.text = h.current.text := by
  induction rules generalizing h with
  | nil => simp
  | cons r rs ih =>
    obtain ⟨h1, h2, h3⟩ := applyRule_frame text h r
    obtain ⟨h4, h5, h6⟩ := ih (applyRule text h r)
    simp only [List.foldl]
    exact ⟨h4.trans h1, h5.trans h2, h6.trans h3⟩

theorem highlightAdditionalRules_frame (text : List Char) (h : Highlighter) :
    (highlightAdditionalRules text h).previous = h.previous ∧
      (highlightAdditionalRules text h).next = h.next ∧
      (highlightAdditionalRules text h).current.text = h.current.text :=
  foldl_applyRule_frame text highlightingRules h

theorem setPreviousUserState_same (s : HighlighterState) (h : Highlighter)
    (hs : h.previousBlockState = s) (hn : s ≠ .NoState) :
    h.setPreviousUserState s = h := by
  obtain ⟨pv, cur, nx, fs⟩ := h
  cases pv with
  | none => exact absurd hs.symm hn
  | some b =>
    obtain ⟨bt, bs⟩ := b
    simp only [Highlighter.previousBlockState] at hs
    subst hs
    rfl

/-- The headline detector leaves the next block and the text of the current
block alone. -/
theorem highlightHeadline_frame (text : List Char) (h : Highlighter) :
    (highlightHeadline text h).next = h.next ∧
      (highlightHeadline text h).current.text = h.current.text := by
  unfold highlightHeadline
  split
  · simp [Highlighter.setFormat, Highlighter.setCurrentBlockState]
  · simp only
    split_ifs <;>
      simp [Highlighter.setFormat, Highlighter.setCurrentBlockState,
        Highlighter.setPreviousUserState]

/-- The headline detector leaves the previous block alone unless that block
carries `NoState`. -/
theorem highlightHeadline_previous (text : List Char) (h : Highlighter)
    (hp : h.previousBlockState ≠ .NoState) :
    (highlightHeadline text h).previous = h.previous := by
  unfold highlightHeadline
  split
  · simp [Highlighter.setFormat, Highlighter.setCurrentBlockState]
  · simp only
    split_ifs with h1 h2 h3 h4 h5 h6 <;>
      try simp [Highlighter.setFormat, Highlighter.setCurrentBlockState]
    · rcases h2.1 with e | e
      · have := setPreviousUserState_same .H1 h e (by decide)
        simpa [Highlighter.setFormat, Highlighter.setCurrentBlockState,
          Highlighter.setPreviousUserState] using congrArg Highlighter.previous this
      · exact absurd e hp
    · rcases h4.1 with e | e
      · have := setPreviousUserState_same .H2 h e (by decide)
        simpa [Highlighter.setFormat, Highlighter.setCurrentBlockState,
          Highlighter.setPreviousUserState] using congrArg Highlighter.previous this
      · exact absurd e hp

theorem highlightHeadline_previous_none (text : List Char) (h : Highlighter)
    (hp : h.previous = none) : (highlightHeadline text h).previous = none := by
  unfold highlightHeadline
  split
  · simp [Highlighter.setFormat, Highlighter.setCurrentBlockState, hp]
  · simp only
    split_ifs <;>
      simp [Highlighter.setFormat, Highlighter.setCurrentBlockState,
        Highlighter.setPreviousUserState, hp]

/-- The comment detector in closed form. -/
theorem highlightCommentBlock_eq (text : List Char) (h : Highlighter) :
    highlightCommentBlock text h =
      if text = "<!--".toList ∨ (text ≠ "-->".toList ∧ h.previousBlockState = .Comment) then
        { h with current := ⟨h.current.text, .Comment⟩,
                 formats := h.formats ++ [⟨0, text.length, .Comment⟩] }
      else if text = "-->".toList then
        { h with formats := h.formats ++ [⟨0, text.length, .Comment⟩] }
      else h := by
  unfold highlightCommentBlock
  simp only
  split_ifs <;> simp_all [Highlighter.setFormat, Highlighter.setCurrentBlockState]

/-- The code block detector in closed form. -/
theorem highlightCodeBlock_eq (text : List Char) (h : Highlighter) :
    highlightCodeBlock text h =
      if reFence.hasMatch text = true then
        { h with current := ⟨h.current.text,
                   if h.previousBlockState = .CodeBlock then .CodeBlockEnd else .CodeBlock⟩,
                 formats := h.formats ++ [⟨0, text.length, .CodeBlock⟩] }
      else if h.previousBlockState = .CodeBlock then
        { h with current := ⟨h.current.text, .CodeBlock⟩,
                 formats := h.formats ++ [⟨0, text.length, .CodeBlock⟩] }
      else h := by
  unfold highlightCodeBlock
  simp only
  split_ifs <;> simp_all [Highlighter.setFormat, Highlighter.setCurrentBlockState]

/-- What the headline detector can do to the classification of the previous
block: nothing, or turn `NoState` into `H1` or `H2`. -/
theorem highlightHeadline_previousBlockState (text : List Char) (h : Highlighter) :
    (highlightHeadline text h).previousBlockState = h.previousBlockState ∨
      (h.previousBlockState = .NoState ∧
        ((highlightHeadline text h).previousBlockState = .H1 ∨
          (highlightHeadline text h).previousBlockState = .H2)) := by
  by_cases hp : h.previousBlockState = .NoState
  · cases hpv : h.previous with
    | none =>
      left
      simp [Highlighter.previousBlockState, highlightHeadline_previous_none text h hpv, hpv]
    | some b =>
      have hb : b.userState = .NoState := by
        simpa [Highlighter.previousBlockState, hpv] using hp
      unfold highlightHeadline
      split
      · left; simp [Highlighter.setFormat, Highlighter.setCurrentBlockState,
          Highlighter.previousBlockState]
      · simp only
        split_ifs <;>
          simp [Highlighter.setFormat, Highlighter.setCurrentBlockState,
            Highlighter.setPreviousUserState, Highlighter.previousBlockState, hpv, hb]
  · left
    rw [Highlighter.previousBlockState, highlightHeadline_previous text h hp]
    rfl

/-- The state of the highlighter when the block detectors start. -/
theorem highlightMarkdown_eq (text : List Char) (h : Highlighter) :
    highlightMarkdown text h =
      highlightCodeBlock text (highlightCommentBlock text
        (if text ≠ [] then highlightHeadline text (highlightAdditionalRules text h) else h)) := rfl

theorem beforeBlocks_frame (text : List Char) (h : Highlighter) :
    (if text ≠ [] then highlightHeadline text (highlightAdditionalRules text h) else h).next =
        h.next ∧
      (if text ≠ [] then highlightHeadline text (highlightAdditionalRules text h)
        else h).current.text = h.current.text := by
  split
  · obtain ⟨-, h2, h3⟩ := highlightAdditionalRules_frame text h
    obtain ⟨h4, h5⟩ := highlightHeadline_frame text (highlightAdditionalRules text h)
    exact ⟨h4.trans h2, h5.trans h3⟩
  · exact ⟨rfl, rfl⟩

theorem beforeBlocks_previous (text : List Char) (h : Highlighter)
    (hp : h.previousBlockState ≠ .NoState) :
    (if text ≠ [] then highlightHeadline text (highlightAdditionalRules text h)
      else h).previous = h.previous := by
  split
  · obtain ⟨h1, -, -⟩ := highlightAdditionalRules_frame text h
    rw [highlightHeadline_previous, h1]
    rw [Highlighter.previousBlockState, h1]
    exact hp
  · rfl

theorem beforeBlocks_previous_none (text : List Char) (h : Highlighter)
    (hp : h.previous = none) :
    (if text ≠ [] then highlightHeadline text (highlightAdditionalRules text h)
      else h).previous = none := by
  split
  · obtain ⟨h1, -, -⟩ := highlightAdditionalRules_frame text h
    exact highlightHeadline_previous_none _ _ (h1.trans hp)
  · exact hp

theorem beforeBlocks_previousBlockState (text : List Char) (h : Highlighter) :
    (if text ≠ [] then highlightHeadline text (highlightAdditionalRules text h)
        else h).previousBlockState = h.previousBlockState ∨
      (h.previousBlockState = .NoState ∧
        ((if text ≠ [] then highlightHeadline text (highlightAdditionalRules text h)
            else h).previousBlockState = .H1 ∨
          (if text ≠ [] then highlightHeadline text (highlightAdditionalRules text h)
            else h).previousBlockState = .H2)) := by
  split
  · obtain ⟨h1, -, -⟩ := highlightAdditionalRules_frame text h
    have e : (highlightAdditionalRules text h).previousBlockState = h.previousBlockState := by
      rw [Highlighter.previousBlockState, h1]; rfl
    have := highlightHeadline_previousBlockState text (highlightAdditionalRules text h)
    rw [e] at this
    exact this
  · left; rfl

theorem setCurrentBlockState_frame (s : HighlighterState) (h : Highlighter) :
    (h.setCurrentBlockState s).previous = h.previous ∧
      (h.setCurrentBlockState s).next = h.next ∧
      (h.setCurrentBlockState s).current.text = h.current.text ∧
      (h.setCurrentBlockState s).formats = h.formats ∧
      (h.setCurrentBlockState s).previousBlockState = h.previousBlockState :=
  ⟨rfl, rfl, rfl, rfl, rfl⟩

/-- The block detectors leave the neighbours and the text alone. -/
theorem blocks_frame (text : List Char) (x : Highlighter) :
    (highlightCodeBlock text (highlightCommentBlock text x)).previous = x.previous ∧
      (highlightCodeBlock text (highlightCommentBlock text x)).next = x.next ∧
      (highlightCodeBlock text (highlightCommentBlock text x)).current.text = x.current.text := by
  rw [highlightCodeBlock_eq, highlightCommentBlock_eq]
  split_ifs <;> exact ⟨rfl, rfl, rfl⟩

theorem blocks_state_fence (text : List Char) (x : Highlighter)
    (hf : reFence.hasMatch text = true) :
    (highlightCodeBlock text (highlightCommentBlock text x)).current.userState =
      if x.previousBlockState = .CodeBlock then .CodeBlockEnd else .CodeBlock := by
  rw [highlightCodeBlock_eq, highlightCommentBlock_eq]
  simp only [hf, if_true]
  split_ifs <;> simp_all [Highlighter.previousBlockState]

theorem blocks_state_inCode (text : List Char) (x : Highlighter)
    (hf : reFence.hasMatch text = false) (hp : x.previousBlockState = .CodeBlock) :
    (highlightCodeBlock text (highlightCommentBlock text x)).current.userState = .CodeBlock := by
  rw [highlightCodeBlock_eq, highlightCommentBlock_eq]
  simp only [hf, Bool.false_eq_true, if_false]
  split_ifs <;> simp_all [Highlighter.previousBlockState]

/-- The pass leaves the next block and the text of the current block alone. -/
theorem pass_frame (text : List Char) (h : Highlighter) :
    (h.highlightBlock text).next = h.next ∧
      (h.highlightBlock text).current.text = h.current.text := by
  unfold Highlighter.highlightBlock
  rw [highlightMarkdown_eq]
  obtain ⟨h1, h2⟩ := beforeBlocks_frame text
    ((h.setCurrentBlockState .NoState).setCurrentBlockState .NoState)
  obtain ⟨-, h3, h4⟩ := blocks_frame text (if text ≠ [] then highlightHeadline text
    (highlightAdditionalRules text ((h.setCurrentBlockState .NoState).setCurrentBlockState
      .NoState)) else (h.setCurrentBlockState .NoState).setCurrentBlockState .NoState)
  exact ⟨h3.trans h1, h4.trans h2⟩

/-- The pass leaves the previous block alone unless that block carries
`NoState`. -/
theorem pass_previous (text : List Char) (h : Highlighter)
    (hp : h.previousBlockState ≠ .NoState) : (h.highlightBlock text).previous = h.previous := by
  unfold Highlighter.highlightBlock
  rw [highlightMarkdown_eq]
  have h1 := beforeBlocks_previous text
    ((h.setCurrentBlockState .NoState).setCurrentBlockState .NoState) hp
  exact (blocks_frame text _).1.trans h1

theorem pass_previous_none (text : List Char) (h : Highlighter)
    (hp : h.previous = none) : (h.highlightBlock text).previous = none := by
  unfold Highlighter.highlightBlock
  rw [highlightMarkdown_eq]
  have h1 := beforeBlocks_previous_none text
    ((h.setCurrentBlockState .NoState).setCurrentBlockState .NoState) hp
  exact (blocks_frame text _).1.trans h1

/-- On a fence line the pass ends with `CodeBlockEnd` after a `CodeBlock` line and
with `CodeBlock` after any other line. -/
theorem pass_state_fence (text : List Char) (h : Highlighter)
    (hf : reFence.hasMatch text = true) :
    (h.highlightBlock text).current.userState =
      if h.previousBlockState = .CodeBlock then .CodeBlockEnd else .CodeBlock := by
  unfold Highlighter.highlightBlock
  rw [highlightMarkdown_eq, blocks_state_fence _ _ hf]
  have h1 := beforeBlocks_previousBlockState text
    ((h.setCurrentBlockState .NoState).setCurrentBlockState .NoState)
  have e : ((h.setCurrentBlockState .NoState).setCurrentBlockState .NoState).previousBlockState =
      h.previousBlockState := rfl
  rw [e] at h1
  rcases h1 with h1 | ⟨h1, h2 | h2⟩
  · rw [h1]
  · rw [h1, h2]; rfl
  · rw [h1, h2]; rfl

/-- After a `CodeBlock` line, a line that is no fence ends with `CodeBlock`. -/
theorem pass_state_inCode (text : List Char) (h : Highlighter)
    (hf : reFence.hasMatch text = false) (hp : h.previousBlockState = .CodeBlock) :
    (h.highlightBlock text).current.userState = .CodeBlock := by
  unfold Highlighter.highlightBlock
  rw [highlightMarkdown_eq]
  apply blocks_state_inCode _ _ hf
  have h1 := beforeBlocks_previous text
    ((h.setCurrentBlockState .NoState).setCurrentBlockState .NoState)
    (by rw [(setCurrentBlockState_frame _ _).2.2.2.2, (setCurrentBlockState_frame _ _).2.2.2.2,
      hp]; decide)
  rw [Highlighter.previousBlockState, h1]
  exact hp

/-! ## Theorems: the pass on a document -/

theorem getElem?_append_at (pre : List Block) (x : Block) (post : List Block) :
    (pre ++ x :: post)[pre.length]? = some x := by
  induction pre with
  | nil => simp
  | cons a as ih => simpa using ih

theorem getElem?_append_next (pre : List Block) (x : Block) (post : List Block) :
    (pre ++ x :: post)[pre.length + 1]? = post.head? := by
  induction pre with
  | nil => cases post <;> simp
  | cons a as ih => simpa using ih

theorem set_append_at (pre : List Block) (x y : Block) (post : List Block) :
    (pre ++ x :: post).set pre.length y = pre ++ y :: post := by
  induction pre with
  | nil => rfl
  | cons a as ih => simp [ih]

/-- The pass on the first block of a document. -/
theorem highlightBlock_head (b : Block) (post : List Block) :
    highlightBlock (b :: post) 0 =
      ((Highlighter.highlightBlock b.text ⟨none, b, post.head?, []⟩).current :: post,
        (Highlighter.highlightBlock b.text ⟨none, b, post.head?, []⟩).formats) := by
  have e : (b :: post)[0 + 1]? = post.head? := getElem?_append_next [] b post
  simp only [highlightBlock, List.getElem?_cons_zero, previousBlock, writeBack, e,
    List.set_cons_zero]

/-- The pass on a block that has a predecessor `q`. -/
theorem highlightBlock_snoc (pre : List Block) (q b : Block) (post : List Block) :
    highlightBlock (pre ++ q :: b :: post) (pre.length + 1) =
      (pre ++ ((Highlighter.highlightBlock b.text ⟨some q, b, post.head?, []⟩).previous.getD q) ::
          (Highlighter.highlightBlock b.text ⟨some q, b, post.head?, []⟩).current :: post,
        (Highlighter.highlightBlock b.text ⟨some q, b, post.head?, []⟩).formats) := by
  have e0 : pre ++ q :: b :: post = (pre ++ [q]) ++ b :: post := by simp
  have l0 : (pre ++ [q]).length = pre.length + 1 := by simp
  have e1 : (pre ++ q :: b :: post)[pre.length + 1]? = some b := by
    rw [e0, ← l0]; exact getElem?_append_at _ _ _
  have e2 : (pre ++ q :: b :: post)[pre.length + 1 + 1]? = post.head? := by
    rw [e0, ← l0]; exact getElem?_append_next _ _ _
  have e3 : (pre ++ q :: b :: post)[pre.length]? = some q := getElem?_append_at _ _ _
  have e4 : ∀ y, (pre ++ q :: b :: post).set (pre.length + 1) y = pre ++ q :: y :: post := by
    intro y
    rw [e0, ← l0, set_append_at]; simp
  simp only [highlightBlock, e1, previousBlock, e2, e3, writeBack]
  cases hp : (Highlighter.highlightBlock b.text ⟨some q, b, post.head?, []⟩).previous with
  | none => simp only [e4, Option.getD]
  | some p => simp only [e4, Option.getD, set_append_at]

theorem highlightFrom_add (n m : Nat) : ∀ (i : Nat) (doc : List Block),
    highlightFrom (n + m) i doc =
      ((highlightFrom m (i + n) (highlightFrom n i doc).1).1,
        (highlightFrom n i doc).2 ++ (highlightFrom m (i + n) (highlightFrom n i doc).1).2) := by
  induction n with
  | zero => intro i doc; simp [highlightFrom]
  | succ n ih =>
    intro i doc
    have e : n + 1 + m = (n + m) + 1 := by omega
    rw [e]
    simp only [highlightFrom, ih]
    have e2 : i + 1 + n = i + (n + 1) := by omega
    rw [e2]
    simp

/-- A run of lines that each keep the classification `s` of the line before:
the pass gives each of them `s`, leaves the lines before and after alone, and
the spans of each pass satisfy `G`. -/
theorem highlightFrom_chain (s : HighlighterState) (G : List Char → List Span → Prop) :
    ∀ (body : List (List Char)),
      (∀ t ∈ body, ∀ (q : Block) (nx : Option Block), q.userState = s →
        (Highlighter.highlightBlock t ⟨some q, ⟨t, .NoState⟩, nx, []⟩).previous = some q ∧
        (Highlighter.highlightBlock t ⟨some q, ⟨t, .NoState⟩, nx, []⟩).current = ⟨t, s⟩ ∧
        G t (Highlighter.highlightBlock t ⟨some q, ⟨t, .NoState⟩, nx, []⟩).formats) →
      ∀ (pre : List Block) (q : Block) (post : List Block), q.userState = s →
        (highlightFrom body.length (pre.length + 1)
            (pre ++ q :: (freshDocument body ++ post))).1 =
          pre ++ q :: (body.map (fun t => (⟨t, s⟩ : Block)) ++ post) ∧
        List.Forall₂ G body (highlightFrom body.length (pre.length + 1)
            (pre ++ q :: (freshDocument body ++ post))).2 := by
  intro body
  induction body with
  | nil => intro _ pre q post _; simp [highlightFrom, freshDocument]
  | cons t ts ih =>
    intro hstep pre q post hq
    obtain ⟨h1, h2, h3⟩ := hstep t (List.mem_cons_self _ _) q
      (freshDocument ts ++ post).head? hq
    have hdoc : pre ++ q :: (freshDocument (t :: ts) ++ post) =
        pre ++ q :: ⟨t, .NoState⟩ :: (freshDocument ts ++ post) := by
      simp [freshDocument]
    have hb := highlightBlock_snoc pre q ⟨t, .NoState⟩ (freshDocument ts ++ post)
    simp only [h1, h2, Option.getD] at hb
    obtain ⟨ih1, ih2⟩ := ih (fun t1 ht1 => hstep t1 (List.mem_cons_of_mem _ ht1))
      (pre ++ [q]) ⟨t, s⟩ post rfl
    have l0 : (pre ++ [q]).length = pre.length + 1 := by simp
    have e0 : pre ++ [q] ++ (⟨t, s⟩ : Block) :: (freshDocument ts ++ post) =
        pre ++ q :: ⟨t, s⟩ :: (freshDocument ts ++ post) := by simp
    rw [l0, e0] at ih1 ih2
    simp only [List.length_cons, highlightFrom, hdoc, hb]
    refine ⟨?_, ?_⟩
    · rw [ih1]; simp
    · exact List.Forall₂.cons h3 ih2

/-! ## Theorems: fenced code blocks -/

theorem block_ext (b : Block) (t : List Char) (s : HighlighterState) (h1 : b.text = t)
    (h2 : b.userState = s) : b = ⟨t, s⟩ := by
  cases b; simp_all

/-- Inside a fenced block a line that is no fence keeps `CodeBlock` and leaves
the line before alone. -/
theorem codeBlock_step (t : List Char) (hf : reFence.hasMatch t = false) (q : Block)
    (nx : Option Block) (hq : q.userState = .CodeBlock) :
    (Highlighter.highlightBlock t ⟨some q, ⟨t, .NoState⟩, nx, []⟩).previous = some q ∧
      (Highlighter.highlightBlock t ⟨some q, ⟨t, .NoState⟩, nx, []⟩).current = ⟨t, .CodeBlock⟩ ∧
      True := by
  have hp : (⟨some q, ⟨t, .NoState⟩, nx, []⟩ : Highlighter).previousBlockState = .CodeBlock := hq
  refine ⟨?_, ?_, trivial⟩
  · exact pass_previous t _ (by rw [hp]; decide)
  · exact block_ext _ _ _ (pass_frame t _).2 (pass_state_inCode t _ hf hp)

/-- An opening fence and the lines up to the next fence all end with
`CodeBlock`; the lines after them are not touched. -/
theorem fence_run (op : List Char) (body : List (List Char)) (post : List Block)
    (hop : FenceLine op) (hbody : ∀ t ∈ body, LineText t ∧ ¬ FenceLine t) :
    (highlightFrom (1 + body.length) 0 (freshDocument (op :: body) ++ post)).1 =
      ⟨op, .CodeBlock⟩ :: (body.map (fun t => (⟨t, .CodeBlock⟩ : Block)) ++ post) := by
  rw [highlightFrom_add]
  have hdoc : freshDocument (op :: body) ++ post =
      ⟨op, .NoState⟩ :: (freshDocument body ++ post) := by simp [freshDocument]
  have h1 : (highlightFrom 1 0 (freshDocument (op :: body) ++ post)).1 =
      ⟨op, .CodeBlock⟩ :: (freshDocument body ++ post) := by
    simp only [highlightFrom, hdoc, highlightBlock_head, List.cons.injEq, and_true]
    apply block_ext _ _ _ (pass_frame op _).2
    rw [pass_state_fence op _ (fenceLine_hasMatch op hop)]
    rfl
  rw [h1]
  have := (highlightFrom_chain .CodeBlock (fun _ _ => True) body
    (fun t ht q nx hq => codeBlock_step t (not_fenceLine_hasMatch t (hbody t ht).1 (hbody t ht).2)
      q nx hq) [] ⟨op, .CodeBlock⟩ post rfl).1
  simpa using this

theorem exists_last_block (a : Block) (l : List Block) :
    ∃ pre q, a :: l = pre ++ [q] ∧ pre.length = l.length ∧ q ∈ a :: l := by
  induction l generalizing a with
  | nil => exact ⟨[], a, rfl, rfl, List.mem_cons_self _ _⟩
  | cons b bs ih =>
    obtain ⟨pre, q, h1, h2, h3⟩ := ih b
    exact ⟨a :: pre, q, by simp [h1], by simp [h2], List.mem_cons_of_mem _ h3⟩

theorem userStates_map_const (s : HighlighterState) (body : List (List Char)) :
    userStates (body.map (fun t => (⟨t, s⟩ : Block))) = List.replicate body.length s := by
  induction body with
  | nil => rfl
  | cons t ts ih =>
    simp only [userStates, List.map_cons, List.length_cons, List.replicate_succ] at ih ⊢
    rw [ih]

/-- C9 (unterminated fence): in a buffer made of one fence line followed by
lines none of which is a fence line, classifying the lines in order, all from
`NoState`, leaves every line with carried classification `CodeBlock`. -/
theorem unterminated_fence_stays_open (fence : List Char) (body : List (List Char))
    (hfence : FenceLine fence) (hbody : ∀ t ∈ body, LineText t ∧ ¬ FenceLine t) :
    userStates (highlightLines (freshDocument (fence :: body))).1 =
      List.replicate (body.length + 1) .CodeBlock := by
  have h := fence_run fence body [] hfence hbody
  have e : (freshDocument (fence :: body)).length = 1 + body.length := by
    simp [freshDocument]; omega
  simp only [List.append_nil] at h
  rw [highlightLines, e, h]
  simp only [userStates, List.map_cons, List.replicate_succ]
  have := userStates_map_const .CodeBlock body
  simp only [userStates] at this
  rw [this]

theorem unterminated_fence_stays_open_witness :
    FenceLine "```".toList ∧
      (∀ t ∈ ["code".toList, "# head".toList, [], "<!--".toList, "===".toList],
        LineText t ∧ ¬ FenceLine t) ∧
      userStates (highlightLines (freshDocument ("```".toList ::
        ["code".toList, "# head".toList, [], "<!--".toList, "===".toList]))).1 =
        List.replicate (5 + 1) .CodeBlock :=
  have h1 : FenceLine "```".toList := ⟨[], rfl, by simp⟩
  have h2 : ∀ t ∈ ["code".toList, "# head".toList, [], "<!--".toList, "===".toList],
      LineText t ∧ ¬ FenceLine t := by
    intro t ht
    simp only [List.mem_cons, List.mem_singleton, List.not_mem_nil, or_false] at ht
    rcases ht with rfl | rfl | rfl | rfl | rfl <;>
      exact ⟨by decide, by rintro ⟨w, hw, -⟩; simp at hw⟩
  ⟨h1, h2, unterminated_fence_stays_open _ _ h1 h2⟩

/-- C1 (fence toggling): in a buffer `[open] ++ body ++ [close]` where `open` and
`close` are fence lines and no line of `body` is one, classifying the lines in
order, all from `NoState`, gives `CodeBlock` to the opening fence and to every
body line and `CodeBlockEnd` to the closing fence. -/
theorem fence_toggling (op cl : List Char) (body : List (List Char))
    (hop : FenceLine op) (hcl : FenceLine cl)
    (hbody : ∀ t ∈ body, LineText t ∧ ¬ FenceLine t) :
    userStates (highlightLines (freshDocument (op :: (body ++ [cl])))).1 =
      List.replicate (body.length + 1) .CodeBlock ++ [.CodeBlockEnd] := by
  have hdoc : freshDocument (op :: (body ++ [cl])) =
      freshDocument (op :: body) ++ [⟨cl, .NoState⟩] := by simp [freshDocument]
  have e : (freshDocument (op :: (body ++ [cl]))).length = (1 + body.length) + 1 := by
    simp [freshDocument]; omega
  rw [highlightLines, e, highlightFrom_add, hdoc, fence_run op body _ hop hbody]
  obtain ⟨pre, q, h1, h2, h3⟩ :=
    exists_last_block ⟨op, .CodeBlock⟩ (body.map (fun t => (⟨t, .CodeBlock⟩ : Block)))
  have hq : q.userState = .CodeBlock := by
    rcases List.mem_cons.mp h3 with h | h
    · rw [h]
    · obtain ⟨t, -, rfl⟩ := List.mem_map.mp h
      rfl
  have hd2 : (⟨op, .CodeBlock⟩ : Block) :: (body.map (fun t => (⟨t, .CodeBlock⟩ : Block)) ++
      [⟨cl, .NoState⟩]) = pre ++ q :: ⟨cl, .NoState⟩ :: [] := by
    rw [← List.cons_append, h1]; simp
  have hi : 0 + (1 + body.length) = pre.length + 1 := by
    rw [h2]; simp; omega
  have hp : (⟨some q, ⟨cl, .NoState⟩, none, []⟩ : Highlighter).previousBlockState =
      .CodeBlock := hq
  have hcur : (Highlighter.highlightBlock cl ⟨some q, ⟨cl, .NoState⟩, none, []⟩).current =
      ⟨cl, .CodeBlockEnd⟩ := by
    apply block_ext _ _ _ (pass_frame cl _).2
    rw [pass_state_fence cl _ (fenceLine_hasMatch cl hcl), hp]
    rfl
  have hprev : (Highlighter.highlightBlock cl ⟨some q, ⟨cl, .NoState⟩, none, []⟩).previous =
      some q := pass_previous cl _ (by rw [hp]; decide)
  rw [hd2, hi]
  simp only [highlightFrom, highlightBlock_snoc, List.head?_nil, hcur, hprev, Option.getD]
  have e3 : pre ++ [q, (⟨cl, .CodeBlockEnd⟩ : Block)] = (pre ++ [q]) ++ [⟨cl, .CodeBlockEnd⟩] := by
    simp
  rw [e3, ← h1]
  have := userStates_map_const .CodeBlock body
  simp only [userStates] at this
  simp only [userStates, List.map_append, List.map_cons, List.map_nil, this,
    List.replicate_succ]

theorem fence_toggling_witness :
    FenceLine "```cpp".toList ∧ FenceLine "```".toList ∧
      (∀ t ∈ ["code".toList, [], "---".toList], LineText t ∧ ¬ FenceLine t) ∧
      userStates (highlightLines (freshDocument ("```cpp".toList ::
        (["code".toList, [], "---".toList] ++ ["```".toList])))).1 =
        List.replicate (3 + 1) .CodeBlock ++ [.CodeBlockEnd] :=
  have h1 : FenceLine "```cpp".toList := ⟨"cpp".toList, rfl, by decide⟩
  have h2 : FenceLine "```".toList := ⟨[], rfl, by simp⟩
  have h3 : ∀ t ∈ ["code".toList, [], "---".toList], LineText t ∧ ¬ FenceLine t := by
    intro t ht
    simp only [List.mem_cons, List.mem_singleton, List.not_mem_nil, or_false] at ht
    rcases ht with rfl | rfl | rfl <;>
      exact ⟨by decide, by rintro ⟨w, hw, -⟩; simp at hw⟩
  ⟨h1, h2, h3, fence_toggling _ _ _ h1 h2 h3⟩

/-! ## Theorems: headlines -/

/-- C3 (ATX headline): on a line made of `k ≥ 1` characters `#`, one space and
at least one further character, `highlightHeadline` sets the carried
classification to the level `H1 + min k 6 - 1`, appends exactly one span, which
covers the whole line with that level, and changes nothing else: the previous
block and the next block are as before, and the result does not depend on the
next block. -/
theorem atx_headline (k : Nat) (t : List Char) (h : Highlighter) (ht : LineText t)
    (hk : AtxHeadline k t) :
    highlightHeadline t h =
        { previous := h.previous,
          current := ⟨h.current.text, headlineState (min k 6)⟩,
          next := h.next,
          formats := h.formats ++ [⟨0, t.length, headlineState (min k 6)⟩] } ∧
      [HighlighterState.H1, .H2, .H3, .H4, .H5, .H6][min k 6 - 1]? =
        some (headlineState (min k 6)) ∧
      (∀ nx : Option Block, (highlightHeadline t { h with next := nx }).current =
          (highlightHeadline t h).current ∧
        (highlightHeadline t { h with next := nx }).formats = (highlightHeadline t h).formats ∧
        (highlightHeadline t { h with next := nx }).previous = h.previous) := by
  have key : ∀ g : Highlighter, highlightHeadline t g =
      { previous := g.previous,
        current := ⟨g.current.text, headlineState (min k 6)⟩,
        next := g.next,
        formats := g.formats ++ [⟨0, t.length, headlineState (min k 6)⟩] } := by
    intro g
    unfold highlightHeadline
    rw [reHeadline_firstMatch_atx k t ht hk]
    simp [Match.captured1Count, Match.capturedStart, Match.capturedLength, Cursor.pos,
      Highlighter.setFormat, Highlighter.setCurrentBlockState]
  refine ⟨key h, ?_, ?_⟩
  · have h1 : 1 ≤ k := hk.1
    have h2 : min k 6 = 1 ∨ min k 6 = 2 ∨ min k 6 = 3 ∨ min k 6 = 4 ∨ min k 6 = 5 ∨
        min k 6 = 6 := by omega
    rcases h2 with e | e | e | e | e | e <;> rw [e] <;> simp [headlineState]
  · intro nx
    rw [key, key]
    exact ⟨rfl, rfl, rfl⟩

theorem atx_headline_witness :
    LineText "####### deep title".toList ∧ AtxHeadline 7 "####### deep title".toList ∧
      highlightHeadline "####### deep title".toList
          ⟨some ⟨"above".toList, .NoState⟩, ⟨"####### deep title".toList, .NoState⟩,
            some ⟨"===".toList, .NoState⟩, []⟩ =
        { previous := some ⟨"above".toList, .NoState⟩,
          current := ⟨"####### deep title".toList, .H6⟩,
          next := some ⟨"===".toList, .NoState⟩,
          formats := [⟨0, 18, .H6⟩] } :=
  have h1 : LineText "####### deep title".toList := by decide
  have h2 : AtxHeadline 7 "####### deep title".toList :=
    ⟨by decide, "deep title".toList, by decide, rfl⟩
  ⟨h1, h2, (atx_headline 7 _ _ h1 h2).1⟩

/-- C5 (Setext look-ahead): on a line that is no ATX headline and consists
neither of `=` only nor of `-` only, `highlightHeadline` decides by the text of
the next line alone: `=` only gives `H1` and one whole-line `H1` span; `-` only
gives `H2`, the last span being a whole-line `H2` span (after a whole-line `H1`
span); any other next line, or none, leaves the highlighter as it was.  The
first two cases exclude each other. -/
theorem setext_lookahead (t : List Char) (h : Highlighter) (ht : LineText t)
    (hatx : ∀ k, ¬ AtxHeadline k t) (h1 : ¬ OnlyChar '=' t) (h2 : ¬ OnlyChar '-' t)
    (hn : LineText h.nextText) :
    (OnlyChar '=' h.nextText →
      highlightHeadline t h =
        { h with current := ⟨h.current.text, .H1⟩,
                 formats := h.formats ++ [⟨0, t.length, .H1⟩] }) ∧
    (OnlyChar '-' h.nextText →
      highlightHeadline t h =
        { h with current := ⟨h.current.text, .H2⟩,
                 formats := h.formats ++ [⟨0, t.length, .H1⟩, ⟨0, t.length, .H2⟩] } ∧
      (highlightHeadline t h).formats.getLast? = some ⟨0, t.length, .H2⟩) ∧
    (¬ OnlyChar '=' h.nextText → ¬ OnlyChar '-' h.nextText → highlightHeadline t h = h) ∧
    ¬ (OnlyChar '=' h.nextText ∧ OnlyChar '-' h.nextText) := by
  have e0 := reHeadline_firstMatch_none t ht hatx
  have e1 := patternH1_not t ht h1
  have e2 := patternH2_not t ht h2
  refine ⟨?_, ?_, ?_, ?_⟩
  · intro hx
    have n1 := patternH1_of_onlyChar _ hx
    have n2 := patternH2_not _ hn (fun hy => onlyChar_exclusive (by decide) hx hy)
    unfold highlightHeadline
    simp [e0, e1, e2, n1, n2, Highlighter.setFormat, Highlighter.setCurrentBlockState]
  · intro hx
    have n2 := patternH2_of_onlyChar _ hx
    have key : highlightHeadline t h =
        { h with current := ⟨h.current.text, .H2⟩,
                 formats := h.formats ++ [⟨0, t.length, .H1⟩, ⟨0, t.length, .H2⟩] } := by
      unfold highlightHeadline
      simp [e0, e1, e2, n2, Highlighter.setFormat, Highlighter.setCurrentBlockState]
    refine ⟨key, ?_⟩
    rw [key]
    simp
  · intro hx hy
    have n1 := patternH1_not _ hn hx
    have n2 := patternH2_not _ hn hy
    unfold highlightHeadline
    simp [e0, e1, e2, n1, n2]
  · rintro ⟨hx, hy⟩
    exact onlyChar_exclusive (by decide) hx hy

theorem setext_lookahead_witness :
    LineText "Title".toList ∧ (∀ k, ¬ AtxHeadline k "Title".toList) ∧
      ¬ OnlyChar '=' "Title".toList ∧ ¬ OnlyChar '-' "Title".toList ∧
      LineText "---".toList ∧ OnlyChar '-' "---".toList ∧
      highlightHeadline "Title".toList
          ⟨none, ⟨"Title".toList, .NoState⟩, some ⟨"---".toList, .NoState⟩, []⟩ =
        { previous := none, current := ⟨"Title".toList, .H2⟩,
          next := some ⟨"---".toList, .NoState⟩,
          formats := [⟨0, 5, .H1⟩, ⟨0, 5, .H2⟩] } :=
  have h1 : LineText "Title".toList := by decide
  have h2 : ∀ k, ¬ AtxHeadline k "Title".toList := by
    rintro k ⟨hk, rest, -, e⟩
    cases k with
    | zero => omega
    | succ n => simp [List.replicate_succ] at e
  have h3 : ¬ OnlyChar '=' "Title".toList := by
    rintro ⟨-, h⟩
    exact absurd (h 'T' (by simp)) (by decide)
  have h4 : ¬ OnlyChar '-' "Title".toList := by
    rintro ⟨-, h⟩
    exact absurd (h 'T' (by simp)) (by decide)
  have h5 : LineText "---".toList := by decide
  have h6 : OnlyChar '-' "---".toList := ⟨by simp, by simp⟩
  ⟨h1, h2, h3, h4, h5, h6,
    ((setext_lookahead "Title".toList
      ⟨none, ⟨"Title".toList, .NoState⟩, some ⟨"---".toList, .NoState⟩, []⟩
      h1 h2 h3 h4 h5).2.1 h6).1⟩

/-! ## Theorems: the rule table in closed form -/

/-- The rule table on a line whose carried classification is `NoState`: the
classification becomes `List` when a list rule matches, every rule adds the
spans of its matches, and the indented-code rule is skipped when a list rule
has matched. -/
theorem highlightAdditionalRules_eq (t : List Char) (h : Highlighter)
    (hs : h.current.userState = .NoState) :
    highlightAdditionalRules t h =
      { previous := h.previous,
        current := ⟨h.current.text,
          if reUnorderedList.globalMatch t ≠ [] ∨ reOrderedList.globalMatch t ≠ [] then .List
          else .NoState⟩,
        next := h.next,
        formats := h.formats ++ (reBold.spans .Bold t ++ (reItalic.spans .Italic t ++
          (reUrl.spans .Link t ++ (reUrlTitle.spans .Link t ++ (reEmail.spans .Link t ++
          (reReferenceLink.spans .Link t ++ (reReference.spans .Comment t ++
          (reUnorderedList.spans .List t ++ (reOrderedList.spans .List t ++
          (reInlineCode.spans .InlineCodeBlock t ++
          ((if reUnorderedList.globalMatch t ≠ [] ∨ reOrderedList.globalMatch t ≠ [] then []
            else reIndentedCode.spans .CodeBlock t) ++
          (reImage.spans .Image t ++ (reBlockQuote.spans .BlockQuote t ++
          (reInlineComment.spans .Comment t ++ (reHorizontalRuler.spans .HorizontalRuler t ++
          (reTable1.spans .Table t ++ reTable2.spans .Table t)))))))))))))))) } := by
  simp only [highlightAdditionalRules, highlightingRules, List.foldl, applyRule_eq, Re.spans]
  by_cases h1 : reUnorderedList.globalMatch t = [] <;>
    by_cases h2 : reOrderedList.globalMatch t = [] <;>
    simp [h1, h2, hs]

/-! ## Theorems: Setext underlines -/

theorem onlyChar_head {x : Char} {t : List Char} (h : OnlyChar x t) : ∃ rest, t = x :: rest := by
  obtain ⟨hne, hall⟩ := h
  cases t with
  | nil => exact absurd rfl hne
  | cons y ys => exact ⟨ys, by rw [hall y (List.mem_cons_self _ _)]⟩

theorem fenceLine_head {t : List Char} (h : FenceLine t) : ∃ rest, t = Char.ofNat 96 :: rest := by
  obtain ⟨w, rfl, -⟩ := h
  exact ⟨_, rfl⟩

theorem atxHeadline_head {k : Nat} {t : List Char} (h : AtxHeadline k t) :
    ∃ rest, t = '#' :: rest := by
  obtain ⟨hk, rest, -, rfl⟩ := h
  cases k with
  | zero => omega
  | succ n => exact ⟨List.replicate n '#' ++ ' ' :: rest, by simp [List.replicate_succ]⟩

/-- The block detectors do nothing on a line that is no fence and no comment
marker when the line before is neither in a code block nor in a comment. -/
theorem blocks_id (t : List Char) (x : Highlighter) (hf : reFence.hasMatch t = false)
    (h1 : t ≠ "<!--".toList) (h2 : t ≠ "-->".toList)
    (h3 : x.previousBlockState ≠ .Comment) (h4 : x.previousBlockState ≠ .CodeBlock) :
    highlightCodeBlock t (highlightCommentBlock t x) = x := by
  have hc : highlightCommentBlock t x = x := by
    rw [highlightCommentBlock_eq, if_neg, if_neg h2]
    rintro (h | ⟨-, h⟩)
    · exact h1 h
    · exact h3 h
  rw [hc, highlightCodeBlock_eq, if_neg (by simp [hf]), if_neg h4]

/-- The pass on an underline of `=` below a non-empty line that carries
`NoState` or `H1`. -/
theorem pass_underline_h1 (t : List Char) (q cur : Block) (nx : Option Block)
    (ht : OnlyChar '=' t) (hq : q.text ≠ [])
    (hs : q.userState = .NoState ∨ q.userState = .H1) :
    (Highlighter.highlightBlock t ⟨some q, cur, nx, []⟩).previous = some ⟨q.text, .H1⟩ ∧
      (Highlighter.highlightBlock t ⟨some q, cur, nx, []⟩).current = ⟨cur.text, .HeadlineEnd⟩ ∧
      ⟨0, t.length, .H1⟩ ∈ (Highlighter.highlightBlock t ⟨some q, cur, nx, []⟩).formats := by
  obtain ⟨rest, hrest⟩ := onlyChar_head ht
  have hlt : LineText t := lineText_of_onlyChar (by decide) ht
  have hne : t ≠ [] := ht.1
  have hf : reFence.hasMatch t = false :=
    not_fenceLine_hasMatch t hlt (fun hfl => by
      obtain ⟨r, hr⟩ := fenceLine_head hfl
      rw [hrest] at hr
      exact absurd (List.cons.inj hr).1 (by decide))
  have e0 : reHeadline.firstMatch t = none :=
    reHeadline_firstMatch_none t hlt (fun k hk => by
      obtain ⟨r, hr⟩ := atxHeadline_head hk
      rw [hrest] at hr
      exact absurd (List.cons.inj hr).1 (by decide))
  have e1 := patternH1_of_onlyChar t ht
  have c1 : t ≠ "<!--".toList := by
    rw [hrest]; intro e; exact absurd (List.cons.inj e).1 (by decide)
  have c2 : t ≠ "-->".toList := by
    rw [hrest]; intro e; exact absurd (List.cons.inj e).1 (by decide)
  have hX : highlightHeadline t (highlightAdditionalRules t
      ((Highlighter.setCurrentBlockState .NoState
        (Highlighter.setCurrentBlockState .NoState ⟨some q, cur, nx, []⟩)))) =
      { previous := some ⟨q.text, .H1⟩, current := ⟨cur.text, .HeadlineEnd⟩, next := nx,
        formats := (highlightAdditionalRules t
          ((Highlighter.setCurrentBlockState .NoState
            (Highlighter.setCurrentBlockState .NoState ⟨some q, cur, nx, []⟩)))).formats ++
          [⟨0, t.length, .H1⟩] } := by
    obtain ⟨f1, f2, f3⟩ := highlightAdditionalRules_frame t
      ((Highlighter.setCurrentBlockState .NoState
        (Highlighter.setCurrentBlockState .NoState ⟨some q, cur, nx, []⟩)))
    generalize highlightAdditionalRules t
      ((Highlighter.setCurrentBlockState .NoState
        (Highlighter.setCurrentBlockState .NoState ⟨some q, cur, nx, []⟩))) = r at f1 f2 f3 ⊢
    obtain ⟨rp, rc, rn, rf⟩ := r
    simp only [Highlighter.setCurrentBlockState] at f1 f2 f3
    subst f1
    subst f2
    have hcond : (q.userState = .H1 ∨ q.userState = .NoState) ∧ q.text.length > 0 :=
      ⟨hs.symm, List.length_pos.mpr hq⟩
    unfold highlightHeadline
    simp [e0, e1, Highlighter.previousBlockState, Highlighter.previousText, hcond,
      Highlighter.setFormat, Highlighter.setCurrentBlockState, Highlighter.setPreviousUserState,
      f3]
  unfold Highlighter.highlightBlock
  rw [highlightMarkdown_eq, if_pos hne, hX, blocks_id t _ hf c1 c2 (by simp [Highlighter.previousBlockState])
    (by simp [Highlighter.previousBlockState])]
  exact ⟨rfl, rfl, by simp⟩

/-- C4 (Setext underline): the pass on a line of `=` only whose preceding line has
non-empty text and carries `NoState` or `H1` sets a whole-line `H1` span, leaves
the line at `HeadlineEnd` and the preceding line at `H1`; the other lines are as
before. -/
theorem setext_underline (pre : List Block) (q b : Block) (post : List Block)
    (ht : OnlyChar '=' b.text) (hq : q.text ≠ [])
    (hs : q.userState = .NoState ∨ q.userState = .H1) :
    (highlightBlock (pre ++ q :: b :: post) (pre.length + 1)).1 =
        pre ++ ⟨q.text, .H1⟩ :: ⟨b.text, .HeadlineEnd⟩ :: post ∧
      ⟨0, b.text.length, .H1⟩ ∈ (highlightBlock (pre ++ q :: b :: post) (pre.length + 1)).2 := by
  obtain ⟨h1, h2, h3⟩ := pass_underline_h1 b.text q b post.head? ht hq hs
  rw [highlightBlock_snoc]
  simp only [h1, h2, Option.getD]
  exact ⟨trivial, h3⟩

theorem setext_underline_witness :
    OnlyChar '=' (⟨"=====".toList, .H3⟩ : Block).text ∧
      (⟨"Title".toList, .NoState⟩ : Block).text ≠ [] ∧
      ((⟨"Title".toList, .NoState⟩ : Block).userState = .NoState ∨
        (⟨"Title".toList, .NoState⟩ : Block).userState = .H1) ∧
      (highlightBlock ([⟨"intro".toList, .NoState⟩] ++ ⟨"Title".toList, .NoState⟩ ::
          ⟨"=====".toList, .H3⟩ :: [⟨"text".toList, .NoState⟩]) (1 + 1)).1 =
        [⟨"intro".toList, .NoState⟩] ++ ⟨"Title".toList, .H1⟩ ::
          ⟨"=====".toList, .HeadlineEnd⟩ :: [⟨"text".toList, .NoState⟩] ∧
      ⟨0, 5, .H1⟩ ∈ (highlightBlock ([⟨"intro".toList, .NoState⟩] ++
          ⟨"Title".toList, .NoState⟩ :: ⟨"=====".toList, .H3⟩ ::
          [⟨"text".toList, .NoState⟩]) (1 + 1)).2 :=
  have h1 : OnlyChar '=' (⟨"=====".toList, .H3⟩ : Block).text := ⟨by simp, by simp⟩
  have h2 : (⟨"Title".toList, .NoState⟩ : Block).text ≠ [] := by simp
  have h3 : (⟨"Title".toList, .NoState⟩ : Block).userState = .NoState ∨
      (⟨"Title".toList, .NoState⟩ : Block).userState = .H1 := Or.inl rfl
  ⟨h1, h2, h3, setext_underline [⟨"intro".toList, .NoState⟩] ⟨"Title".toList, .NoState⟩
    ⟨"=====".toList, .H3⟩ [⟨"text".toList, .NoState⟩] h1 h2 h3⟩

/-! ## Theorems: block comments -/

theorem headlineState_ne_comment (n : Nat) : headlineState n ≠ .Comment := by
  unfold headlineState
  split <;> decide

/-- The headline detector never sets `Comment`. -/
theorem highlightHeadline_ne_comment (t : List Char) (g : Highlighter)
    (hg : g.current.userState ≠ .Comment) :
    (highlightHeadline t g).current.userState ≠ .Comment := by
  unfold highlightHeadline
  split
  · simp only [Highlighter.setFormat, Highlighter.setCurrentBlockState]
    exact headlineState_ne_comment _
  · simp only
    split_ifs <;>
      simp [Highlighter.setFormat, Highlighter.setCurrentBlockState,
        Highlighter.setPreviousUserState, hg]

/-- The rule table never sets `Comment`. -/
theorem highlightAdditionalRules_ne_comment (t : List Char) (h : Highlighter)
    (hs : h.current.userState = .NoState) :
    (highlightAdditionalRules t h).current.userState ≠ .Comment := by
  rw [highlightAdditionalRules_eq t h hs]
  simp only
  split <;> decide

theorem beforeBlocks_ne_comment (t : List Char) (h : Highlighter)
    (hs : h.current.userState = .NoState) :
    (if t ≠ [] then highlightHeadline t (highlightAdditionalRules t h)
      else h).current.userState ≠ .Comment := by
  split
  · exact highlightHeadline_ne_comment t _ (highlightAdditionalRules_ne_comment t h hs)
  · rw [hs]; decide

theorem reFence_endText : reFence.hasMatch "-->".toList = false := by decide

theorem reFence_startText : reFence.hasMatch "<!--".toList = false := by decide

/-- The block detectors on the end marker: a whole-line `Comment` span, and the
classification stays what it was unless the line before is in a code block. -/
theorem blocks_endText (x : Highlighter) :
    highlightCodeBlock "-->".toList (highlightCommentBlock "-->".toList x) =
      if x.previousBlockState = .CodeBlock then
        { x with current := ⟨x.current.text, .CodeBlock⟩,
                 formats := x.formats ++ [⟨0, 3, .Comment⟩, ⟨0, 3, .CodeBlock⟩] }
      else { x with formats := x.formats ++ [⟨0, 3, .Comment⟩] } := by
  have hc : highlightCommentBlock "-->".toList x =
      { x with formats := x.formats ++ [⟨0, 3, .Comment⟩] } := by
    rw [highlightCommentBlock_eq, if_neg, if_pos rfl]
    · rfl
    · rintro (h | ⟨h, -⟩)
      · exact absurd h (by decide)
      · exact h rfl
  rw [hc, highlightCodeBlock_eq, if_neg (by rw [reFence_endText]; decide)]
  split
  · next h => simp [Highlighter.previousBlockState] at h ⊢; simp [Highlighter.previousBlockState, h]
  · next h => simp [Highlighter.previousBlockState] at h ⊢; simp [Highlighter.previousBlockState, h]

theorem blocks_endText_spec (x : Highlighter) (hx : x.current.userState ≠ .Comment) :
    ⟨0, 3, .Comment⟩ ∈
        (highlightCodeBlock "-->".toList (highlightCommentBlock "-->".toList x)).formats ∧
      (highlightCodeBlock "-->".toList (highlightCommentBlock "-->".toList x)).current.userState ≠
        .Comment := by
  rw [blocks_endText]
  split
  · exact ⟨by simp, by simp⟩
  · exact ⟨by simp, hx⟩

/-- The pass on the end marker sets a whole-line `Comment` span and does not end
with `Comment`. -/
theorem pass_endText (h : Highlighter) :
    ⟨0, 3, .Comment⟩ ∈ (h.highlightBlock "-->".toList).formats ∧
      (h.highlightBlock "-->".toList).current.userState ≠ .Comment := by
  unfold Highlighter.highlightBlock
  rw [highlightMarkdown_eq]
  exact blocks_endText_spec _ (beforeBlocks_ne_comment "-->".toList
    ((h.setCurrentBlockState .NoState).setCurrentBlockState .NoState) rfl)

/-- The pass on block `i`: its spans and the block it leaves at `i`. -/
theorem highlightBlock_at (doc : List Block) (i : Nat) (b : Block) (hb : doc[i]? = some b) :
    (highlightBlock doc i).2 =
        (Highlighter.highlightBlock b.text ⟨previousBlock doc i, b, doc[i + 1]?, []⟩).formats ∧
      (highlightBlock doc i).1[i]? =
        some (Highlighter.highlightBlock b.text
          ⟨previousBlock doc i, b, doc[i + 1]?, []⟩).current := by
  have hi : i < doc.length := by
    rcases Nat.lt_or_ge i doc.length with h | h
    · exact h
    · rw [List.getElem?_eq_none h] at hb; cases hb
  simp only [highlightBlock, hb, true_and]
  unfold writeBack
  split
  · next j p hp =>
    rw [List.getElem?_set_ne (by omega), List.getElem?_set_self (by omega)]
  · rw [List.getElem?_set_self hi]

/-- C10 (the end marker closes the comment): for every buffer and every line
whose text is the end marker, whatever the line before carries and whatever the
next line is, the pass sets a whole-line `Comment` span and leaves the line
with a carried classification other than `Comment`. -/
theorem end_marker_closes (doc : List Block) (i : Nat) (b : Block) (hb : doc[i]? = some b)
    (ht : b.text = "-->".toList) :
    ⟨0, b.text.length, .Comment⟩ ∈ (highlightBlock doc i).2 ∧
      ∃ c, (highlightBlock doc i).1[i]? = some c ∧ c.text = "-->".toList ∧
        c.userState ≠ .Comment := by
  obtain ⟨h1, h2⟩ := highlightBlock_at doc i b hb
  rw [h1, h2, ht]
  obtain ⟨h3, h4⟩ := pass_endText ⟨previousBlock doc i, b, doc[i + 1]?, []⟩
  refine ⟨h3, _, rfl, ?_, h4⟩
  rw [(pass_frame _ _).2]
  exact ht

theorem end_marker_closes_witness :
    [(⟨"<!--".toList, .Comment⟩ : Block), ⟨"-->".toList, .Comment⟩,
        ⟨"===".toList, .NoState⟩][1]? = some ⟨"-->".toList, .Comment⟩ ∧
      (⟨"-->".toList, .Comment⟩ : Block).text = "-->".toList ∧
      (⟨0, 3, .Comment⟩ ∈ (highlightBlock [(⟨"<!--".toList, .Comment⟩ : Block),
          ⟨"-->".toList, .Comment⟩, ⟨"===".toList, .NoState⟩] 1).2 ∧
        ∃ c, (highlightBlock [(⟨"<!--".toList, .Comment⟩ : Block),
          ⟨"-->".toList, .Comment⟩, ⟨"===".toList, .NoState⟩] 1).1[1]? = some c ∧
          c.text = "-->".toList ∧ c.userState ≠ .Comment) :=
  ⟨rfl, rfl, end_marker_closes _ 1 ⟨"-->".toList, .Comment⟩ rfl rfl⟩

/-- The block detectors on a line that opens or continues a comment and is no
fence, when the line before is not in a code block. -/
theorem blocks_comment (t : List Char) (x : Highlighter)
    (hc : t = "<!--".toList ∨ (t ≠ "-->".toList ∧ x.previousBlockState = .Comment))
    (hf : reFence.hasMatch t = false) (hp : x.previousBlockState ≠ .CodeBlock) :
    highlightCodeBlock t (highlightCommentBlock t x) =
      { x with current := ⟨x.current.text, .Comment⟩,
               formats := x.formats ++ [⟨0, t.length, .Comment⟩] } := by
  rw [highlightCommentBlock_eq, if_pos hc, highlightCodeBlock_eq, if_neg (by simp [hf]),
    if_neg (by simpa [Highlighter.previousBlockState] using hp)]

/-- Inside a comment a line that is neither the end marker nor a fence keeps
`Comment`, ends with a whole-line `Comment` span and leaves the line before
alone. -/
theorem comment_step (t : List Char) (ht : t ≠ "-->".toList)
    (hf : reFence.hasMatch t = false) (q : Block) (nx : Option Block)
    (hq : q.userState = .Comment) :
    (Highlighter.highlightBlock t ⟨some q, ⟨t, .NoState⟩, nx, []⟩).previous = some q ∧
      (Highlighter.highlightBlock t ⟨some q, ⟨t, .NoState⟩, nx, []⟩).current = ⟨t, .Comment⟩ ∧
      (Highlighter.highlightBlock t ⟨some q, ⟨t, .NoState⟩, nx, []⟩).formats.getLast? =
        some ⟨0, t.length, .Comment⟩ := by
  have hp : (⟨some q, ⟨t, .NoState⟩, nx, []⟩ : Highlighter).previousBlockState = .Comment := hq
  have h1 := beforeBlocks_previous t ((Highlighter.setCurrentBlockState .NoState
    (Highlighter.setCurrentBlockState .NoState ⟨some q, ⟨t, .NoState⟩, nx, []⟩)))
    (by rw [(setCurrentBlockState_frame _ _).2.2.2.2, (setCurrentBlockState_frame _ _).2.2.2.2,
      hp]; decide)
  have h2 := (beforeBlocks_frame t ((Highlighter.setCurrentBlockState .NoState
    (Highlighter.setCurrentBlockState .NoState ⟨some q, ⟨t, .NoState⟩, nx, []⟩)))).2
  have hx : (if t ≠ [] then highlightHeadline t (highlightAdditionalRules t
      ((Highlighter.setCurrentBlockState .NoState
        (Highlighter.setCurrentBlockState .NoState ⟨some q, ⟨t, .NoState⟩, nx, []⟩))))
      else ((Highlighter.setCurrentBlockState .NoState
        (Highlighter.setCurrentBlockState .NoState
          ⟨some q, ⟨t, .NoState⟩, nx, []⟩)))).previousBlockState = .Comment := by
    rw [Highlighter.previousBlockState, h1]; exact hq
  unfold Highlighter.highlightBlock
  rw [highlightMarkdown_eq, blocks_comment t _ (Or.inr ⟨ht, hx⟩) hf (by rw [hx]; decide)]
  refine ⟨h1, ?_, by simp⟩
  simp only [h2]
  rfl

/-- The pass on the start marker as first line: `Comment`, ending with a
whole-line `Comment` span. -/
theorem comment_start (cur : Block) (nx : Option Block) :
    (Highlighter.highlightBlock "<!--".toList ⟨none, cur, nx, []⟩).current =
        ⟨cur.text, .Comment⟩ ∧
      (Highlighter.highlightBlock "<!--".toList ⟨none, cur, nx, []⟩).formats.getLast? =
        some ⟨0, 4, .Comment⟩ := by
  have h1 := beforeBlocks_previous_none "<!--".toList ((Highlighter.setCurrentBlockState .NoState
    (Highlighter.setCurrentBlockState .NoState ⟨none, cur, nx, []⟩))) rfl
  have h2 := (beforeBlocks_frame "<!--".toList ((Highlighter.setCurrentBlockState .NoState
    (Highlighter.setCurrentBlockState .NoState ⟨none, cur, nx, []⟩)))).2
  have hx : (if "<!--".toList ≠ [] then highlightHeadline "<!--".toList
      (highlightAdditionalRules "<!--".toList ((Highlighter.setCurrentBlockState .NoState
        (Highlighter.setCurrentBlockState .NoState ⟨none, cur, nx, []⟩))))
      else ((Highlighter.setCurrentBlockState .NoState
        (Highlighter.setCurrentBlockState .NoState
          ⟨none, cur, nx, []⟩)))).previousBlockState = .NoState := by
    rw [Highlighter.previousBlockState, h1]
  unfold Highlighter.highlightBlock
  rw [highlightMarkdown_eq, blocks_comment "<!--".toList _ (Or.inl rfl) reFence_startText
    (by rw [hx]; decide)]
  refine ⟨?_, by simp⟩
  simp only [h2]
  rfl

/-- The pass on the end marker below a `Comment` line: the line before is left
alone, the line does not end with `Comment`, and the last span is a whole-line
`Comment` span. -/
theorem comment_end (q cur : Block) (nx : Option Block) (hq : q.userState = .Comment) :
    (Highlighter.highlightBlock "-->".toList ⟨some q, cur, nx, []⟩).previous = some q ∧
      (Highlighter.highlightBlock "-->".toList ⟨some q, cur, nx, []⟩).current.userState ≠
        .Comment ∧
      (Highlighter.highlightBlock "-->".toList ⟨some q, cur, nx, []⟩).formats.getLast? =
        some ⟨0, 3, .Comment⟩ := by
  have hp : (⟨some q, cur, nx, []⟩ : Highlighter).previousBlockState = .Comment := hq
  refine ⟨pass_previous _ _ (by rw [hp]; decide), (pass_endText _).2, ?_⟩
  have h1 := beforeBlocks_previous "-->".toList ((Highlighter.setCurrentBlockState .NoState
    (Highlighter.setCurrentBlockState .NoState ⟨some q, cur, nx, []⟩)))
    (by rw [(setCurrentBlockState_frame _ _).2.2.2.2, (setCurrentBlockState_frame _ _).2.2.2.2,
      hp]; decide)
  have hx : (if "-->".toList ≠ [] then highlightHeadline "-->".toList
      (highlightAdditionalRules "-->".toList ((Highlighter.setCurrentBlockState .NoState
        (Highlighter.setCurrentBlockState .NoState ⟨some q, cur, nx, []⟩))))
      else ((Highlighter.setCurrentBlockState .NoState
        (Highlighter.setCurrentBlockState .NoState
          ⟨some q, cur, nx, []⟩)))).previousBlockState ≠ .CodeBlock := by
    rw [Highlighter.previousBlockState, h1]
    simp only [Highlighter.setCurrentBlockState]
    rw [hq]; decide
  unfold Highlighter.highlightBlock
  rw [highlightMarkdown_eq, blocks_endText, if_neg hx]
  simp

theorem forall₂_append_single {α β : Type} (R : α → β → Prop) :
    ∀ (xs : List α) (ys : List β) (x : α) (y : β), List.Forall₂ R xs ys → R x y →
      List.Forall₂ R (xs ++ [x]) (ys ++ [y]) := by
  intro xs ys x y h hxy
  induction h with
  | nil => exact List.Forall₂.cons hxy List.Forall₂.nil
  | cons h1 _ ih => exact List.Forall₂.cons h1 ih

/-- The start marker and the lines up to the end marker: all end with `Comment`
and with a whole-line `Comment` span; the lines after them are not touched. -/
theorem comment_run (body : List (List Char)) (post : List Block)
    (hbody : ∀ t ∈ body, LineText t ∧ t ≠ "-->".toList ∧ ¬ FenceLine t) :
    (highlightFrom (1 + body.length) 0 (freshDocument ("<!--".toList :: body) ++ post)).1 =
        ⟨"<!--".toList, .Comment⟩ :: (body.map (fun t => (⟨t, .Comment⟩ : Block)) ++ post) ∧
      List.Forall₂ (fun t spans => spans.getLast? = some (⟨0, t.length, .Comment⟩ : Span))
        ("<!--".toList :: body)
        (highlightFrom (1 + body.length) 0 (freshDocument ("<!--".toList :: body) ++ post)).2 := by
  rw [highlightFrom_add]
  have hdoc : freshDocument ("<!--".toList :: body) ++ post =
      ⟨"<!--".toList, .NoState⟩ :: (freshDocument body ++ post) := by simp [freshDocument]
  obtain ⟨c1, c2⟩ := comment_start ⟨"<!--".toList, .NoState⟩ (freshDocument body ++ post).head?
  have h1 : highlightFrom 1 0 (freshDocument ("<!--".toList :: body) ++ post) =
      (⟨"<!--".toList, .Comment⟩ :: (freshDocument body ++ post),
        [(Highlighter.highlightBlock "<!--".toList ⟨none, ⟨"<!--".toList, .NoState⟩,
          (freshDocument body ++ post).head?, []⟩).formats]) := by
    simp only [highlightFrom, hdoc, highlightBlock_head, c1]
  rw [h1]
  obtain ⟨k1, k2⟩ := highlightFrom_chain .Comment
    (fun t spans => spans.getLast? = some (⟨0, t.length, .Comment⟩ : Span)) body
    (fun t ht q nx hq => comment_step t (hbody t ht).2.1
      (not_fenceLine_hasMatch t (hbody t ht).1 (hbody t ht).2.2) q nx hq)
    [] ⟨"<!--".toList, .Comment⟩ post rfl
  simp only [List.length_nil, Nat.zero_add, List.nil_append] at k1 k2
  refine ⟨by simpa using k1, ?_⟩
  simp only [List.singleton_append]
  exact List.Forall₂.cons c2 (by simpa using k2)

/-- C2, as amended (comment block guarantee): in a buffer
`["<!--"] ++ body ++ ["-->"]` where no line of `body` is the end marker or a fence
line, classifying the lines in order, all from `NoState`, leaves the start
marker and every body line with `Comment`, the end marker with a
classification other than `Comment`, and the last span of each of the lines,
the end marker included, is a whole-line `Comment` span. -/
theorem comment_block_styled (body : List (List Char))
    (hbody : ∀ t ∈ body, LineText t ∧ t ≠ "-->".toList ∧ ¬ FenceLine t) :
    (∃ s, s ≠ HighlighterState.Comment ∧
      (highlightLines (freshDocument ("<!--".toList :: (body ++ ["-->".toList])))).1 =
        ⟨"<!--".toList, .Comment⟩ ::
          (body.map (fun t => (⟨t, .Comment⟩ : Block)) ++ [⟨"-->".toList, s⟩])) ∧
      List.Forall₂ (fun t spans => spans.getLast? = some (⟨0, t.length, .Comment⟩ : Span))
        ("<!--".toList :: (body ++ ["-->".toList]))
        (highlightLines (freshDocument ("<!--".toList :: (body ++ ["-->".toList])))).2 := by
  have hdoc : freshDocument ("<!--".toList :: (body ++ ["-->".toList])) =
      freshDocument ("<!--".toList :: body) ++ [⟨"-->".toList, .NoState⟩] := by
    simp [freshDocument]
  have e : (freshDocument ("<!--".toList :: (body ++ ["-->".toList]))).length =
      (1 + body.length) + 1 := by
    simp [freshDocument]; omega
  obtain ⟨r1, r2⟩ := comment_run body [⟨"-->".toList, .NoState⟩] hbody
  obtain ⟨pre, q, h1, h2, h3⟩ :=
    exists_last_block ⟨"<!--".toList, .Comment⟩ (body.map (fun t => (⟨t, .Comment⟩ : Block)))
  have hq : q.userState = .Comment := by
    rcases List.mem_cons.mp h3 with h | h
    · rw [h]
    · obtain ⟨t, -, rfl⟩ := List.mem_map.mp h
      rfl
  have hd2 : (⟨"<!--".toList, .Comment⟩ : Block) ::
      (body.map (fun t => (⟨t, .Comment⟩ : Block)) ++ [⟨"-->".toList, .NoState⟩]) =
      pre ++ q :: ⟨"-->".toList, .NoState⟩ :: [] := by
    rw [← List.cons_append, h1]; simp
  have hi : 0 + (1 + body.length) = pre.length + 1 := by
    rw [h2]; simp; omega
  obtain ⟨e1, e2, e3⟩ := comment_end q ⟨"-->".toList, .NoState⟩ none hq
  have hcur : (Highlighter.highlightBlock "-->".toList
      ⟨some q, ⟨"-->".toList, .NoState⟩, none, []⟩).current =
      ⟨"-->".toList, (Highlighter.highlightBlock "-->".toList
        ⟨some q, ⟨"-->".toList, .NoState⟩, none, []⟩).current.userState⟩ :=
    block_ext _ _ _ (pass_frame _ _).2 rfl
  rw [highlightLines, e, highlightFrom_add, hdoc]
  refine ⟨⟨_, e2, ?_⟩, ?_⟩
  · rw [r1, hd2, hi]
    simp only [highlightFrom, highlightBlock_snoc, List.head?_nil, e1, Option.getD]
    rw [hcur]
    have e4 : pre ++ [q, (⟨"-->".toList, (Highlighter.highlightBlock "-->".toList
        ⟨some q, ⟨"-->".toList, .NoState⟩, none, []⟩).current.userState⟩ : Block)] =
        (pre ++ [q]) ++ [⟨"-->".toList, (Highlighter.highlightBlock "-->".toList
        ⟨some q, ⟨"-->".toList, .NoState⟩, none, []⟩).current.userState⟩] := by simp
    rw [e4, ← h1]
    simp
  · have e5 : "<!--".toList :: (body ++ ["-->".toList]) =
        ("<!--".toList :: body) ++ ["-->".toList] := by simp
    rw [e5]
    apply forall₂_append_single _ _ _ _ _ r2
    rw [r1, hd2, hi]
    simp only [highlightFrom, highlightBlock_snoc, List.head?_nil]
    exact e3

theorem comment_block_styled_witness :
    (∀ t ∈ ["hidden".toList, [], "# no headline".toList],
        LineText t ∧ t ≠ "-->".toList ∧ ¬ FenceLine t) ∧
      ((∃ s, s ≠ HighlighterState.Comment ∧
        (highlightLines (freshDocument ("<!--".toList ::
          (["hidden".toList, [], "# no headline".toList] ++ ["-->".toList])))).1 =
          ⟨"<!--".toList, .Comment⟩ ::
            (["hidden".toList, [], "# no headline".toList].map
              (fun t => (⟨t, .Comment⟩ : Block)) ++ [⟨"-->".toList, s⟩])) ∧
        List.Forall₂ (fun t spans => spans.getLast? = some (⟨0, t.length, .Comment⟩ : Span))
          ("<!--".toList :: (["hidden".toList, [], "# no headline".toList] ++ ["-->".toList]))
          (highlightLines (freshDocument ("<!--".toList ::
            (["hidden".toList, [], "# no headline".toList] ++ ["-->".toList])))).2) :=
  have h : ∀ t ∈ ["hidden".toList, [], "# no headline".toList],
      LineText t ∧ t ≠ "-->".toList ∧ ¬ FenceLine t := by
    intro t ht
    simp only [List.mem_cons, List.mem_singleton, List.not_mem_nil, or_false] at ht
    rcases ht with rfl | rfl | rfl <;>
      exact ⟨by decide, by decide, by rintro ⟨w, hw, -⟩; simp at hw⟩
  ⟨h, comment_block_styled _ h⟩

/-- C2 as stated fails: a fence line inside the comment is no end marker, yet it
ends with `CodeBlock`, its last span is a `CodeBlock` span, and the end marker
that follows is styled as code as well. -/
theorem comment_block_broken_by_fence :
    (∀ t ∈ ["```".toList], t ≠ "-->".toList) ∧
      userStates (highlightLines (freshDocument
        ("<!--".toList :: (["```".toList] ++ ["-->".toList])))).1 =
        [.Comment, .CodeBlock, .CodeBlock] ∧
      (highlightLines (freshDocument
        ("<!--".toList :: (["```".toList] ++ ["-->".toList])))).2.map List.getLast? =
        [some ⟨0, 4, .Comment⟩, some ⟨0, 3, .CodeBlock⟩, some ⟨0, 3, .CodeBlock⟩] :=
  ⟨by decide, rfl, rfl⟩

/-! ## Theorems: idempotence of the pass -/

/-- Running the headline detector again, with the previous block as the first
run left it, gives the same result. -/
theorem highlightHeadline_idem (t : List Char) (pv : Option Block) (c : Block)
    (nx : Option Block) (fs : List Span) :
    highlightHeadline t ⟨(highlightHeadline t ⟨pv, c, nx, fs⟩).previous, c, nx, fs⟩ =
      highlightHeadline t ⟨pv, c, nx, fs⟩ := by
  cases pv with
  | none =>
    rw [highlightHeadline_previous_none t ⟨none, c, nx, fs⟩ rfl]
  | some q =>
    obtain ⟨qt, qs⟩ := q
    unfold highlightHeadline
    split
    · rfl
    · simp only [Highlighter.previousBlockState, Highlighter.previousText,
        Highlighter.setFormat, Highlighter.setCurrentBlockState,
        Highlighter.setPreviousUserState, Highlighter.nextText, Option.map]
      split_ifs <;> simp_all

/-- The state of the highlighter when the block detectors start, in terms of
the previous block. -/
theorem beforeBlocks_idem (t : List Char) (pv : Option Block) (c c1 : Block)
    (nx : Option Block) (hc : c1.text = c.text) :
    (if t ≠ [] then highlightHeadline t (highlightAdditionalRules t
        ⟨(if t ≠ [] then highlightHeadline t (highlightAdditionalRules t
            ⟨pv, ⟨c.text, .NoState⟩, nx, []⟩) else ⟨pv, ⟨c.text, .NoState⟩, nx, []⟩).previous,
          ⟨c1.text, .NoState⟩, nx, []⟩)
      else ⟨(if t ≠ [] then highlightHeadline t (highlightAdditionalRules t
            ⟨pv, ⟨c.text, .NoState⟩, nx, []⟩) else ⟨pv, ⟨c.text, .NoState⟩, nx, []⟩).previous,
          ⟨c1.text, .NoState⟩, nx, []⟩) =
      (if t ≠ [] then highlightHeadline t (highlightAdditionalRules t
        ⟨pv, ⟨c.text, .NoState⟩, nx, []⟩) else ⟨pv, ⟨c.text, .NoState⟩, nx, []⟩) := by
  rw [hc]
  by_cases ht : t = []
  · simp [ht]
  · simp only [ne_eq, ht, not_false_eq_true, if_true]
    rw [highlightAdditionalRules_eq t _ rfl, highlightAdditionalRules_eq t _ rfl]
    exact highlightHeadline_idem t pv _ nx _

/-- Running the pass again, with the previous block as the first run left it,
gives the same highlighter. -/
theorem pass_idem (t : List Char) (pv : Option Block) (c c1 : Block) (nx : Option Block)
    (hc : c1.text = c.text) :
    Highlighter.highlightBlock t
        ⟨(Highlighter.highlightBlock t ⟨pv, c, nx, []⟩).previous, c1, nx, []⟩ =
      Highlighter.highlightBlock t ⟨pv, c, nx, []⟩ := by
  have hp : (Highlighter.highlightBlock t ⟨pv, c, nx, []⟩).previous =
      (if t ≠ [] then highlightHeadline t (highlightAdditionalRules t
        ⟨pv, ⟨c.text, .NoState⟩, nx, []⟩) else ⟨pv, ⟨c.text, .NoState⟩, nx, []⟩).previous := by
    unfold Highlighter.highlightBlock
    rw [highlightMarkdown_eq]
    exact (blocks_frame t _).1
  rw [hp]
  unfold Highlighter.highlightBlock
  rw [highlightMarkdown_eq, highlightMarkdown_eq]
  simp only [Highlighter.setCurrentBlockState]
  rw [beforeBlocks_idem t pv c c1 nx hc]

theorem pass_previous_some (t : List Char) (q c : Block) (nx : Option Block) :
    ∃ p, (Highlighter.highlightBlock t ⟨some q, c, nx, []⟩).previous = some p := by
  by_cases hq : q.userState = .NoState
  · have h0 : (Highlighter.highlightBlock t ⟨some q, c, nx, []⟩).previous =
        (if t ≠ [] then highlightHeadline t (highlightAdditionalRules t
          ⟨some q, ⟨c.text, .NoState⟩, nx, []⟩)
          else ⟨some q, ⟨c.text, .NoState⟩, nx, []⟩).previous := by
      unfold Highlighter.highlightBlock
      rw [highlightMarkdown_eq]
      exact (blocks_frame t _).1
    rw [h0]
    by_cases ht : t = []
    · simp [ht]
    · simp only [ne_eq, ht, not_false_eq_true, if_true]
      rw [highlightAdditionalRules_eq t _ rfl]
      unfold highlightHeadline
      split
      · exact ⟨q, rfl⟩
      · simp only [Highlighter.setFormat, Highlighter.setCurrentBlockState,
          Highlighter.setPreviousUserState, Option.map]
        split_ifs <;> exact ⟨_, rfl⟩
  · exact ⟨q, pass_previous t _ hq⟩

theorem exists_split_at (doc : List Block) (i : Nat) (b : Block) (hb : doc[i]? = some b) :
    ∃ pre post, doc = pre ++ b :: post ∧ pre.length = i := by
  induction doc generalizing i with
  | nil => simp at hb
  | cons a as ih =>
    cases i with
    | zero =>
      simp only [List.getElem?_cons_zero, Option.some.injEq] at hb
      exact ⟨[], as, by rw [hb]; rfl, rfl⟩
    | succ j =>
      simp only [List.getElem?_cons_succ] at hb
      obtain ⟨pre, post, h1, h2⟩ := ih j hb
      exact ⟨a :: pre, post, by rw [h1]; rfl, by simp [h2]⟩

/-- C6 (idempotence of the per-line pass): for every buffer and every index,
running the pass on the same line twice in succession gives the same buffer
(the carried classification of every line, the retroactively set previous
line included) and the same spans as running it once. -/
theorem highlightBlock_idempotent (doc : List Block) (i : Nat) :
    highlightBlock (highlightBlock doc i).1 i = highlightBlock doc i := by
  cases hb : doc[i]? with
  | none => simp [highlightBlock, hb]
  | some b =>
    obtain ⟨pre, post, rfl, hlen⟩ := exists_split_at doc i b hb
    subst hlen
    rcases List.eq_nil_or_concat pre with hpre | ⟨pre1, q, hpre⟩
    · subst hpre
      simp only [List.nil_append, List.length_nil]
      rw [highlightBlock_head, highlightBlock_head]
      have h1 := pass_previous_none b.text ⟨none, b, post.head?, []⟩ rfl
      have h2 := pass_idem b.text none b
        (Highlighter.highlightBlock b.text ⟨none, b, post.head?, []⟩).current post.head?
        (pass_frame _ _).2
      rw [h1] at h2
      rw [(pass_frame b.text ⟨none, b, post.head?, []⟩).2]
      simp only [h2]
    · rw [List.concat_eq_append] at hpre
      subst hpre
      have e0 : pre1 ++ [q] ++ b :: post = pre1 ++ q :: b :: post := by simp
      have l0 : (pre1 ++ [q]).length = pre1.length + 1 := by simp
      rw [e0, l0, highlightBlock_snoc]
      obtain ⟨p, hp⟩ := pass_previous_some b.text q b post.head?
      have h2 := pass_idem b.text (some q) b
        (Highlighter.highlightBlock b.text ⟨some q, b, post.head?, []⟩).current post.head?
        (pass_frame _ _).2
      rw [hp] at h2
      simp only [hp, Option.getD]
      rw [highlightBlock_snoc, (pass_frame b.text ⟨some q, b, post.head?, []⟩).2]
      simp only [h2, hp, Option.getD]

/-! ## Theorems: matches of the rule table -/

theorem Re.go_unique {r : Re} {c c0 : Cursor} (h0 : r.Matches c c0)
    (hu : ∀ c1, r.Matches c c1 → c1 = c0) : r.go c some = some c0 := by
  have := Re.go_complete h0 some rfl
  cases hg : r.go c some with
  | none => simp [hg] at this
  | some y =>
    obtain ⟨c1, h1, h2⟩ := Re.go_sound r _ some y hg
    have h3 : c1 = y := by simpa using h2
    rw [← h3, hu c1 h1]

theorem Re.go_none {r : Re} {c : Cursor} (h : ∀ c1, ¬ r.Matches c c1) : r.go c some = none := by
  cases hg : r.go c some with
  | none => rfl
  | some y =>
    obtain ⟨c1, h1, -⟩ := Re.go_sound r _ some y hg
    exact absurd h1 (h c1)

theorem Re.globalMatch_ne_nil_iff (r : Re) (t : List Char) :
    r.globalMatch t ≠ [] ↔ r.hasMatch t = true := by
  unfold Re.globalMatch Re.hasMatch Re.firstMatch
  simp only [Re.globalFrom]
  cases r.searchFrom [] t with
  | none => simp
  | some m =>
    simp only [Option.isSome_some, iff_true]
    split_ifs
    · split <;> simp
    · simp

/-- A text on which the pattern matches at offset 0 up to the end, in one way
only, and not at the end of the text: `globalMatch` yields this one match. -/
theorem Re.globalMatch_whole {r : Re} (x : Char) (xs : List Char)
    (h0 : r.Matches ⟨[], x :: xs, none⟩ ⟨(x :: xs).reverse, [], none⟩)
    (hu : ∀ c1, r.Matches ⟨[], x :: xs, none⟩ c1 → c1 = ⟨(x :: xs).reverse, [], none⟩)
    (hend : ∀ c1, ¬ r.Matches ⟨(x :: xs).reverse, [], none⟩ c1) :
    r.globalMatch (x :: xs) = [⟨0, ⟨(x :: xs).reverse, [], none⟩⟩] := by
  have hs : r.searchFrom [] (x :: xs) = some ⟨0, ⟨(x :: xs).reverse, [], none⟩⟩ := by
    simp only [Re.searchFrom, Re.go_unique h0 hu, List.length_nil]
  have he : r.searchFrom (x :: xs).reverse [] = none := by
    simp only [Re.searchFrom, Re.go_none hend, Option.map_none']
  simp only [Re.globalMatch, List.length_cons, Re.globalFrom, hs, Cursor.pos]
  rw [if_neg (by simp)]
  have he1 := he
  simp only [List.reverse_cons] at he1
  simp [Re.globalFrom, he1]

theorem Re.spans_whole {r : Re} (s : HighlighterState) (x : Char) (xs : List Char)
    (h0 : r.Matches ⟨[], x :: xs, none⟩ ⟨(x :: xs).reverse, [], none⟩)
    (hu : ∀ c1, r.Matches ⟨[], x :: xs, none⟩ c1 → c1 = ⟨(x :: xs).reverse, [], none⟩)
    (hend : ∀ c1, ¬ r.Matches ⟨(x :: xs).reverse, [], none⟩ c1) :
    r.spans s (x :: xs) = [⟨0, (x :: xs).length, s⟩] := by
  simp [Re.spans, Re.globalMatch_whole x xs h0 hu hend, Match.capturedStart,
    Match.capturedLength, Cursor.pos]

/-- The first occurrence of a character splits a text in one way only. -/
theorem split_unique (x : Char) : ∀ (hs hs1 ds ds1 : List Char), x ∉ hs → x ∉ hs1 →
    hs ++ x :: ds = hs1 ++ x :: ds1 → hs = hs1 ∧ ds = ds1 := by
  intro hs
  induction hs with
  | nil =>
    intro hs1 ds ds1 _ h1 e
    cases hs1 with
    | nil => simpa using e
    | cons y ys =>
      simp only [List.nil_append, List.cons_append, List.cons.injEq] at e
      exact absurd (e.1 ▸ List.mem_cons_self _ _) h1
  | cons y ys ih =>
    intro hs1 ds ds1 h h1 e
    cases hs1 with
    | nil =>
      simp only [List.nil_append, List.cons_append, List.cons.injEq] at e
      exact absurd (e.1 ▸ List.mem_cons_self _ _) h
    | cons z zs =>
      simp only [List.cons_append, List.cons.injEq] at e
      obtain ⟨e1, e2⟩ := ih zs ds ds1 (fun hm => h (List.mem_cons_of_mem _ hm))
        (fun hm => h1 (List.mem_cons_of_mem _ hm)) e.2
      exact ⟨by rw [e.1, e1], e2⟩

/-! ## Theorems: list items and indented code -/

/-- A list item line matches one of the two list rules. -/
theorem listItemLine_matches (t : List Char) (h : ListItemLine t) :
    reUnorderedList.globalMatch t ≠ [] ∨ reOrderedList.globalMatch t ≠ [] := by
  obtain ⟨ws, rest, hws, h | h⟩ := h
  · obtain ⟨m, w, hm, hw, rfl⟩ := h
    left
    rw [Re.globalMatch_ne_nil_iff, reUnorderedList, Re.hasMatch_anchored_iff (Re.anchored_seq_bol _)]
    simp only [Re.matches_seq, Re.matches_bol, Re.matches_star_cls, Re.matches_cls]
    refine ⟨_, _, ⟨trivial, rfl⟩, _, ⟨ws, m :: w :: rest, rfl, hws, rfl⟩, _,
      ⟨m, w :: rest, rfl, ?_, rfl⟩, w, rest, rfl, hw, rfl⟩
    rcases hm with rfl | rfl | rfl <;> rfl
  · obtain ⟨d, w, hd, hw, rfl⟩ := h
    right
    rw [Re.globalMatch_ne_nil_iff, reOrderedList, Re.hasMatch_anchored_iff (Re.anchored_seq_bol _)]
    simp only [Re.matches_seq, Re.matches_bol, Re.matches_star_cls, Re.matches_cls,
      Re.matches_chr]
    exact ⟨_, _, ⟨trivial, rfl⟩, _, ⟨ws, d :: '.' :: w :: rest, rfl, hws, rfl⟩, _,
      ⟨d, '.' :: w :: rest, rfl, hd, rfl⟩, _, ⟨w :: rest, rfl, rfl⟩, w, rest, rfl, hw, rfl⟩

theorem Re.spans_state (r : Re) (s : HighlighterState) (t : List Char) :
    ∀ sp ∈ r.spans s t, sp.state = s := by
  intro sp hsp
  obtain ⟨m, -, rfl⟩ := List.mem_map.mp hsp
  rfl

/-- The matches of the italic pattern at the start of a line
`w1 * s * w2`: the whole line. -/
theorem reItalic_matches (w1 w2 : Char) (s : List Char) (h1 : isSpaceChar w1 = true)
    (h2 : isSpaceChar w2 = true) (hn : w2 ≠ '\n') (hne : s ≠ []) (hs : '*' ∉ s) (c1 : Cursor) :
    reItalic.Matches ⟨[], w1 :: '*' :: (s ++ ['*', w2]), none⟩ c1 ↔
      c1 = ⟨(w1 :: '*' :: (s ++ ['*', w2])).reverse, [], none⟩ := by
  have hw1 : w1 ≠ '*' := by rintro rfl; revert h1; decide
  simp only [reItalic, Re.matches_seq, Re.matches_alt, Re.matches_bol, Re.matches_cls,
    Re.matches_chr, Re.matches_plus_cls, Re.matches_eol]
  constructor
  · rintro ⟨c2, hc2, c3, ⟨r3, e3, rfl⟩, c4, ⟨xs, r4, hx, e4, hall, rfl⟩, c5, ⟨r5, e5, rfl⟩, hc6⟩
    rcases hc2 with ⟨-, rfl⟩ | ⟨y, ys, ey, -, rfl⟩
    · simp only [List.cons.injEq] at e3
      exact absurd e3.1 hw1
    · simp only [List.cons.injEq] at ey
      obtain ⟨rfl, rfl⟩ := ey
      simp only [Cursor.shift, List.cons.injEq, true_and] at e3
      subst e3
      simp only [Cursor.shift] at e4 e5
      subst e5
      have hxs : '*' ∉ xs := by
        intro hm
        have := hall _ hm
        simp at this
      obtain ⟨rfl, rfl⟩ := split_unique '*' s xs [w2] r5 hs hxs (by simpa using e4)
      rcases hc6 with ⟨h6, -⟩ | ⟨x, xs1, e6, -, rfl⟩
      · simp only [Cursor.shift] at h6
        rcases h6 with h6 | h6
        · cases h6
        · exact absurd (List.cons.inj h6).1 hn
      · simp only [Cursor.shift, List.cons.injEq] at e6
        obtain ⟨rfl, rfl⟩ := e6
        simp [Cursor.shift]
  · rintro rfl
    refine ⟨_, Or.inr ⟨w1, _, rfl, h1, rfl⟩, _, ⟨s ++ ['*', w2], rfl, rfl⟩, _,
      ⟨s, ['*', w2], hne, rfl, ?_, rfl⟩, _, ⟨[w2], rfl, rfl⟩, Or.inr ⟨w2, [], rfl, h2, ?_⟩⟩
    · intro x hx
      have : x ≠ '*' := fun e => hs (e ▸ hx)
      simpa using this
    · simp [Cursor.shift]

/-- The italic pattern has no match at the end of a text. -/
theorem reItalic_no_match_at_end (b : List Char) (c1 : Cursor) :
    ¬ reItalic.Matches ⟨b, [], none⟩ c1 := by
  simp only [reItalic, Re.matches_seq, Re.matches_alt, Re.matches_bol, Re.matches_cls,
    Re.matches_chr]
  rintro ⟨c2, hc2, c3, ⟨r3, e3, rfl⟩, -⟩
  rcases hc2 with ⟨-, rfl⟩ | ⟨y, ys, ey, -, rfl⟩
  · cases e3
  · cases ey

/-- The spans of the italic rule on a line `w1 * s * w2`: one span, the whole
line. -/
theorem reItalic_spans (w1 w2 : Char) (s : List Char) (h1 : isSpaceChar w1 = true)
    (h2 : isSpaceChar w2 = true) (hn : w2 ≠ '\n') (hne : s ≠ []) (hs : '*' ∉ s) :
    reItalic.spans .Italic (w1 :: '*' :: (s ++ ['*', w2])) = [⟨0, s.length + 4, .Italic⟩] := by
  rw [Re.spans_whole .Italic w1 _ ((reItalic_matches w1 w2 s h1 h2 hn hne hs _).mpr rfl)
    (fun c1 hc => (reItalic_matches w1 w2 s h1 h2 hn hne hs c1).mp hc)
    (fun c1 => reItalic_no_match_at_end _ c1)]
  simp

/-- C8, as amended (italic span boundaries): on a line `w1 * s * w2`, with `s`
non-empty and free of `*` and `w1`, `w2` single whitespace characters, the rule
table sets an `Italic` span that covers the whole match, the two whitespace
characters included (offset 0, length `|s| + 4`); it sets no `Italic` span from
the opening to the closing asterisk (offset 1, length `|s| + 2`). -/
theorem italic_span_boundaries (w1 w2 : Char) (s : List Char) (pv nx : Option Block)
    (cur : List Char) (h1 : isSpaceChar w1 = true) (h2 : isSpaceChar w2 = true)
    (hn : w2 ≠ '\n') (hne : s ≠ []) (hs : '*' ∉ s) :
    ⟨0, s.length + 4, .Italic⟩ ∈ (highlightAdditionalRules (w1 :: '*' :: (s ++ ['*', w2]))
        ⟨pv, ⟨cur, .NoState⟩, nx, []⟩).formats ∧
      ⟨1, s.length + 2, .Italic⟩ ∉ (highlightAdditionalRules (w1 :: '*' :: (s ++ ['*', w2]))
        ⟨pv, ⟨cur, .NoState⟩, nx, []⟩).formats := by
  have hsp := reItalic_spans w1 w2 s h1 h2 hn hne hs
  generalize w1 :: '*' :: (s ++ ['*', w2]) = t at hsp ⊢
  rw [highlightAdditionalRules_eq t _ rfl]
  have hst : ∀ (r : Re) (st : HighlighterState), st ≠ .Italic →
      (⟨1, s.length + 2, .Italic⟩ : Span) ∉ r.spans st t := by
    intro r st hne1 hm
    exact hne1 (Re.spans_state r st _ _ hm).symm
  constructor
  · simp only [List.mem_append]
    right; right; left
    rw [hsp]
    exact List.mem_singleton.mpr rfl
  · intro hm
    simp only [List.mem_append, List.not_mem_nil, false_or] at hm
    rcases hm with h | h | h | h | h | h | h | h | h | h | h | h | h | h | h | h | h
    · exact hst _ _ (by decide) h
    · rw [hsp] at h
      simp at h
    · exact hst _ _ (by decide) h
    · exact hst _ _ (by decide) h
    · exact hst _ _ (by decide) h
    · exact hst _ _ (by decide) h
    · exact hst _ _ (by decide) h
    · exact hst _ _ (by decide) h
    · exact hst _ _ (by decide) h
    · exact hst _ _ (by decide) h
    · split at h
      · cases h
      · exact hst _ _ (by decide) h
    · exact hst _ _ (by decide) h
    · exact hst _ _ (by decide) h
    · exact hst _ _ (by decide) h
    · exact hst _ _ (by decide) h
    · exact hst _ _ (by decide) h
    · exact hst _ _ (by decide) h

theorem italic_span_boundaries_witness :
    isSpaceChar ' ' = true ∧ isSpaceChar '\t' = true ∧ '\t' ≠ '\n' ∧ "italic".toList ≠ [] ∧
      '*' ∉ "italic".toList ∧
      (⟨0, 6 + 4, .Italic⟩ ∈ (highlightAdditionalRules (' ' :: '*' :: ("italic".toList ++ ['*', '\t']))
          ⟨none, ⟨" *italic*\t".toList, .NoState⟩, none, []⟩).formats ∧
        ⟨1, 6 + 2, .Italic⟩ ∉ (highlightAdditionalRules
          (' ' :: '*' :: ("italic".toList ++ ['*', '\t']))
          ⟨none, ⟨" *italic*\t".toList, .NoState⟩, none, []⟩).formats) :=
  ⟨rfl, rfl, by decide, by decide, by decide,
    italic_span_boundaries ' ' '\t' "italic".toList none none " *italic*\t".toList rfl rfl
      (by decide) (by decide) (by decide)⟩

/-- C8 as stated fails: on `" *italic* "` the rule table sets one span, the `Italic`
span of the whole line (offset 0, length 10), and none from asterisk to
asterisk (offset 1, length 8). -/
theorem italic_span_includes_spaces :
    (highlightAdditionalRules " *italic* ".toList
        ⟨none, ⟨" *italic* ".toList, .NoState⟩, none, []⟩).formats = [⟨0, 10, .Italic⟩] ∧
      ⟨1, 8, .Italic⟩ ∉ (highlightAdditionalRules " *italic* ".toList
        ⟨none, ⟨" *italic* ".toList, .NoState⟩, none, []⟩).formats := by
  have e : (highlightAdditionalRules " *italic* ".toList
      ⟨none, ⟨" *italic* ".toList, .NoState⟩, none, []⟩).formats = [⟨0, 10, .Italic⟩] := rfl
  rw [e]
  exact ⟨rfl, by decide⟩

/-! ## Theorems: matches stay inside the text -/

/-- A match consumes units of the subject and never changes it. -/
theorem Re.matches_text {r : Re} {c c1 : Cursor} (h : r.Matches c c1) :
    c1.before.reverse ++ c1.after = c.before.reverse ++ c.after := by
  induction h with
  | eps c => rfl
  | cls hp => simp
  | bol hb => rfl
  | eol hb => rfl
  | nwb hb => rfl
  | seq _ _ iha ihb => exact ihb.trans iha
  | altL _ iha => exact iha
  | altR _ ihb => exact ihb
  | starStop c => rfl
  | starStep _ _ _ iha ihs => exact ihs.trans iha
  | starIdle _ _ iha => exact iha
  | cap _ iha => exact iha

/-- A match never moves backwards. -/
theorem Re.matches_pos {r : Re} {c c1 : Cursor} (h : r.Matches c c1) : c.pos ≤ c1.pos := by
  induction h with
  | eps c => exact Nat.le_refl _
  | cls hp => simp [Cursor.pos]
  | bol hb => exact Nat.le_refl _
  | eol hb => exact Nat.le_refl _
  | nwb hb => exact Nat.le_refl _
  | seq _ _ iha ihb => exact Nat.le_trans iha ihb
  | altL _ iha => exact iha
  | altR _ ihb => exact ihb
  | starStop c => exact Nat.le_refl _
  | starStep _ _ _ iha ihs => exact Nat.le_trans iha ihs
  | starIdle _ _ iha => exact iha
  | cap _ iha => exact iha

/-- A pattern without the capturing group leaves the capture alone. -/
theorem Re.matches_capFree {r : Re} {c c1 : Cursor} (h : r.Matches c c1) :
    r.capFree = true → c1.cap = c.cap := by
  induction h with
  | eps c => intro _; rfl
  | cls hp => intro _; rfl
  | bol hb => intro _; rfl
  | eol hb => intro _; rfl
  | nwb hb => intro _; rfl
  | seq _ _ iha ihb =>
    intro hc
    simp only [Re.capFree, Bool.and_eq_true] at hc
    exact (ihb hc.2).trans (iha hc.1)
  | altL _ iha =>
    intro hc
    simp only [Re.capFree, Bool.and_eq_true] at hc
    exact iha hc.1
  | altR _ ihb =>
    intro hc
    simp only [Re.capFree, Bool.and_eq_true] at hc
    exact ihb hc.2
  | starStop c => intro _; rfl
  | starStep _ _ _ iha ihs =>
    intro hc
    exact (ihs hc).trans (iha (by simpa [Re.capFree] using hc))
  | starIdle _ _ iha =>
    intro hc
    exact iha (by simpa [Re.capFree] using hc)
  | cap _ _ => intro hc; simp [Re.capFree] at hc

theorem Re.endsEol_eol : Re.eol.EndsEol := by
  intro c c1 h
  obtain ⟨h1, rfl⟩ := Re.matches_eol.mp h
  exact h1

theorem Re.endsEol_seq (a : Re) {b : Re} (hb : b.EndsEol) : (Re.seq a b).EndsEol := by
  intro c c1 h
  obtain ⟨c2, -, h2⟩ := Re.matches_seq.mp h
  exact hb c2 c1 h2

/-- On a line, a match of an end-anchored pattern without capture that starts
at offset 0 ends at the end of the line. -/
theorem Re.matches_whole {r : Re} (he : r.EndsEol) (hc : r.capFree = true) {t : List Char}
    (ht : LineText t) {c1 : Cursor} (h : r.Matches ⟨[], t, none⟩ c1) :
    c1 = ⟨t.reverse, [], none⟩ := by
  have h1 := Re.matches_text h
  have h2 := Re.matches_capFree h hc
  obtain ⟨b, a, cp⟩ := c1
  simp only [List.reverse_nil, List.nil_append] at h1 h2
  rcases he _ _ h with h3 | h3
  · simp only at h3
    subst h3
    subst h2
    simp only [List.append_nil] at h1
    rw [← h1]
    simp
  · simp only at h3
    subst h3
    exact absurd (h1 ▸ List.mem_append_right _ (List.mem_singleton.mpr rfl)) ht

/-- The spans of a start- and end-anchored pattern on a non-empty line: the
whole line when the pattern matches, none otherwise. -/
theorem Re.spans_anchored {r : Re} (ha : r.Anchored) (he : r.EndsEol) (hc : r.capFree = true)
    (s : HighlighterState) {t : List Char} (ht : LineText t) (hne : t ≠ []) :
    (r.hasMatch t = true → r.spans s t = [⟨0, t.length, s⟩]) ∧
      (r.hasMatch t = false → r.spans s t = []) := by
  constructor
  · intro hm
    obtain ⟨c1, h1⟩ := (Re.hasMatch_anchored_iff ha t).mp hm
    have e1 := Re.matches_whole he hc ht h1
    subst e1
    cases t with
    | nil => exact absurd rfl hne
    | cons x xs =>
      exact Re.spans_whole s x xs h1 (fun c2 h2 => Re.matches_whole he hc ht h2)
        (fun c2 h2 => absurd (ha _ _ h2) (by simp))
  · intro hm
    have : r.globalMatch t = [] := by
      by_contra hne1
      rw [(Re.globalMatch_ne_nil_iff r t).mp hne1] at hm
      cases hm
    simp [Re.spans, this]

/-! ## Theorems: tables -/

theorem lineText_cons {x : Char} {xs : List Char} (hx : x ≠ '\n') (h : LineText xs) :
    LineText (x :: xs) := by
  intro hm
  rcases List.mem_cons.mp hm with e | e
  · exact hx e.symm
  · exact h e

theorem lineText_app {xs ys : List Char} (h1 : LineText xs) (h2 : LineText ys) :
    LineText (xs ++ ys) := by
  intro hm
  rcases List.mem_append.mp hm with e | e
  · exact h1 e
  · exact h2 e

theorem reTable1_props : reTable1.Anchored ∧ reTable1.EndsEol ∧ reTable1.capFree = true :=
  ⟨Re.anchored_seq_bol _,
    Re.endsEol_seq _ (Re.endsEol_seq _ (Re.endsEol_seq _ (Re.endsEol_seq _ Re.endsEol_eol))), rfl⟩

theorem reTable2_props : reTable2.Anchored ∧ reTable2.EndsEol ∧ reTable2.capFree = true :=
  ⟨Re.anchored_seq_bol _,
    Re.endsEol_seq _ (Re.endsEol_seq _ (Re.endsEol_seq _ (Re.endsEol_seq _
      (Re.endsEol_seq _ (Re.endsEol_seq _ Re.endsEol_eol))))), rfl⟩

/-- The first table pattern matches a line `|s|`. -/
theorem reTable1_hasMatch (s : List Char) (hne : s ≠ []) (hs : LineText s) :
    reTable1.hasMatch ('|' :: (s ++ ['|'])) = true := by
  rw [Re.hasMatch_anchored_iff reTable1_props.1, reTable1]
  simp only [Re.matches_seq, Re.matches_bol, Re.matches_chr, Re.matches_plus_cls,
    Re.matches_eol]
  exact ⟨_, _, ⟨trivial, rfl⟩, _, ⟨s ++ ['|'], rfl, rfl⟩, _,
    ⟨s, ['|'], hne, rfl, all_dot_of_lineText hs, rfl⟩, _, ⟨[], rfl, rfl⟩, Or.inl rfl, rfl⟩

/-- The second table pattern matches a line `x | y | z`. -/
theorem reTable2_hasMatch (x y z : List Char) (hx : x ≠ []) (hy : y ≠ []) (hz : z ≠ [])
    (lx : LineText x) (ly : LineText y) (lz : LineText z) :
    reTable2.hasMatch (x ++ (" | ".toList ++ (y ++ (" | ".toList ++ z)))) = true := by
  rw [Re.hasMatch_anchored_iff reTable2_props.1, reTable2]
  simp only [Re.matches_seq, Re.matches_bol, Re.matches_str, Re.matches_plus_cls,
    Re.matches_eol]
  exact ⟨_, _, ⟨trivial, rfl⟩, _, ⟨x, _, hx, rfl, all_dot_of_lineText lx, rfl⟩, _,
    ⟨y ++ (" | ".toList ++ z), rfl, rfl⟩, _,
    ⟨y, " | ".toList ++ z, hy, rfl, all_dot_of_lineText ly, rfl⟩, _, ⟨z, rfl, rfl⟩, _,
    ⟨z, [], hz, by simp [Cursor.shift], all_dot_of_lineText lz, rfl⟩, Or.inl rfl, rfl⟩

/-- A span of one of the table rules is a span of the rule table. -/
theorem table_spans_mem (t : List Char) (pv nx : Option Block) (cur : List Char) (sp : Span)
    (h : sp ∈ reTable1.spans .Table t ∨ sp ∈ reTable2.spans .Table t) :
    sp ∈ (highlightAdditionalRules t ⟨pv, ⟨cur, .NoState⟩, nx, []⟩).formats := by
  rw [highlightAdditionalRules_eq t _ rfl]
  simp only [List.mem_append]
  rcases h with h | h
  · exact Or.inr (Or.inr (Or.inr (Or.inr (Or.inr (Or.inr (Or.inr (Or.inr (Or.inr (Or.inr
      (Or.inr (Or.inr (Or.inr (Or.inr (Or.inr (Or.inr (Or.inl h))))))))))))))))
  · exact Or.inr (Or.inr (Or.inr (Or.inr (Or.inr (Or.inr (Or.inr (Or.inr (Or.inr (Or.inr
      (Or.inr (Or.inr (Or.inr (Or.inr (Or.inr (Or.inr (Or.inr h))))))))))))))))

/-- C11 (table detection): on a line `|s|` with `s` non-empty, and on a line
`x | y | z` with `x`, `y`, `z` non-empty, the rule table sets a `Table` span that
covers the whole line. -/
theorem table_detection (pv nx : Option Block) (cur : List Char) :
    (∀ s : List Char, s ≠ [] → LineText s →
      ⟨0, ('|' :: (s ++ ['|'])).length, .Table⟩ ∈
        (highlightAdditionalRules ('|' :: (s ++ ['|']))
          ⟨pv, ⟨cur, .NoState⟩, nx, []⟩).formats) ∧
    (∀ x y z : List Char, x ≠ [] → y ≠ [] → z ≠ [] → LineText x → LineText y → LineText z →
      ⟨0, (x ++ (" | ".toList ++ (y ++ (" | ".toList ++ z)))).length, .Table⟩ ∈
        (highlightAdditionalRules (x ++ (" | ".toList ++ (y ++ (" | ".toList ++ z))))
          ⟨pv, ⟨cur, .NoState⟩, nx, []⟩).formats) := by
  constructor
  · intro s hne hs
    have hm := reTable1_hasMatch s hne hs
    have hl : LineText ('|' :: (s ++ ['|'])) :=
      lineText_cons (by decide) (lineText_app hs (by decide))
    generalize '|' :: (s ++ ['|']) = t at hm hl ⊢
    have hne1 : t ≠ [] := by
      rintro rfl
      revert hm; decide
    apply table_spans_mem
    left
    rw [(Re.spans_anchored reTable1_props.1 reTable1_props.2.1 reTable1_props.2.2 .Table hl
      hne1).1 hm]
    exact List.mem_singleton.mpr rfl
  · intro x y z hx hy hz lx ly lz
    have hm := reTable2_hasMatch x y z hx hy hz lx ly lz
    have hl : LineText (x ++ (" | ".toList ++ (y ++ (" | ".toList ++ z)))) :=
      lineText_app lx (lineText_app (by decide) (lineText_app ly (lineText_app (by decide) lz)))
    generalize x ++ (" | ".toList ++ (y ++ (" | ".toList ++ z))) = t at hm hl ⊢
    have hne1 : t ≠ [] := by
      rintro rfl
      revert hm; decide
    apply table_spans_mem
    right
    rw [(Re.spans_anchored reTable2_props.1 reTable2_props.2.1 reTable2_props.2.2 .Table hl
      hne1).1 hm]
    exact List.mem_singleton.mpr rfl

theorem table_detection_witness :
    ("a|b".toList ≠ [] ∧ LineText "a|b".toList ∧
      ⟨0, ('|' :: ("a|b".toList ++ ['|'])).length, .Table⟩ ∈
        (highlightAdditionalRules ('|' :: ("a|b".toList ++ ['|']))
          ⟨none, ⟨"|a|b|".toList, .NoState⟩, none, []⟩).formats) ∧
    ("a".toList ≠ [] ∧ "b".toList ≠ [] ∧ "c".toList ≠ [] ∧ LineText "a".toList ∧
      LineText "b".toList ∧ LineText "c".toList ∧
      ⟨0, ("a".toList ++ (" | ".toList ++ ("b".toList ++ (" | ".toList ++ "c".toList)))).length,
          .Table⟩ ∈
        (highlightAdditionalRules
          ("a".toList ++ (" | ".toList ++ ("b".toList ++ (" | ".toList ++ "c".toList))))
          ⟨none, ⟨"a | b | c".toList, .NoState⟩, none, []⟩).formats) :=
  ⟨⟨by decide, by decide,
      (table_detection none none "|a|b|".toList).1 "a|b".toList (by decide) (by decide)⟩,
    ⟨by decide, by decide, by decide, by decide, by decide, by decide,
      (table_detection none none "a | b | c".toList).2 "a".toList "b".toList "c".toList
        (by decide) (by decide) (by decide) (by decide) (by decide) (by decide)⟩⟩

/-! ## Theorems: bold spans -/

theorem Re.searchFrom_none {r : Re} : ∀ (after before : List Char),
    (∀ pre post, after = pre ++ post → ∀ c1, ¬ r.Matches ⟨pre.reverse ++ before, post, none⟩ c1) →
    r.searchFrom before after = none := by
  intro after
  induction after with
  | nil =>
    intro before h
    have h0 := Re.go_none (h [] [] rfl)
    simp only [List.reverse_nil, List.nil_append] at h0
    simp only [Re.searchFrom, h0, Option.map_none']
  | cons x xs ih =>
    intro before h
    have h0 := Re.go_none (h [] (x :: xs) rfl)
    simp only [List.reverse_nil, List.nil_append] at h0
    simp only [Re.searchFrom, h0]
    apply ih
    intro pre post e c1
    have := h (x :: pre) post (by rw [e]; rfl) c1
    simpa using this

theorem Re.spans_of_no_match {r : Re} (s : HighlighterState) (t : List Char)
    (h : ∀ pre post, t = pre ++ post → ∀ c1, ¬ r.Matches ⟨pre.reverse, post, none⟩ c1) :
    r.spans s t = [] := by
  have hs : r.searchFrom [] t = none :=
    Re.searchFrom_none t [] (fun pre post e c1 => by simpa using h pre post e c1)
  simp [Re.spans, Re.globalMatch, Re.globalFrom, hs]

/-- The first occurrence of a character in a text. -/
theorem exists_first (x : Char) : ∀ xs : List Char, x ∈ xs →
    ∃ a b, xs = a ++ x :: b ∧ x ∉ a := by
  intro xs
  induction xs with
  | nil => intro h; cases h
  | cons y ys ih =>
    intro h
    by_cases e : y = x
    · exact ⟨[], ys, by rw [e]; rfl, by simp⟩
    · have hm : x ∈ ys := by
        rcases List.mem_cons.mp h with h1 | h1
        · exact absurd h1.symm e
        · exact h1
      obtain ⟨a, b, h1, h2⟩ := ih hm
      refine ⟨y :: a, b, by rw [h1]; rfl, ?_⟩
      intro hm1
      rcases List.mem_cons.mp hm1 with h3 | h3
      · exact e h3.symm
      · exact h2 h3

/-- In `s**` with no asterisk in `s`, the two asterisks can only be found at the
end. -/
theorem bold_split (s xs r : List Char) (hs : '*' ∉ s)
    (e : s ++ ['*', '*'] = xs ++ '*' :: '*' :: r) : xs = s ∧ r = [] := by
  by_cases hx : '*' ∈ xs
  · obtain ⟨a, b, h1, h2⟩ := exists_first '*' xs hx
    subst h1
    have e1 : s ++ '*' :: ['*'] = a ++ '*' :: (b ++ '*' :: '*' :: r) := by simpa using e
    obtain ⟨-, e3⟩ := split_unique '*' s a _ _ hs h2 e1
    have := congrArg List.length e3
    simp only [List.length_append, List.length_cons, List.length_nil] at this
    omega
  · have e1 : s ++ '*' :: ['*'] = xs ++ '*' :: ('*' :: r) := by simpa using e
    obtain ⟨e2, e3⟩ := split_unique '*' s xs _ _ hs hx e1
    simp only [List.cons.injEq, true_and] at e3
    exact ⟨e2.symm, e3.symm⟩

/-- In `**s**` with no asterisk in `s`, no asterisk stands between two other
characters. -/
theorem no_isolated_star (s pre rest : List Char) (x y : Char) (hs : '*' ∉ s)
    (hx : x ≠ '*') (hy : y ≠ '*')
    (e : '*' :: '*' :: (s ++ ['*', '*']) = pre ++ x :: '*' :: y :: rest) : False := by
  cases pre with
  | nil =>
    simp only [List.nil_append, List.cons.injEq] at e
    exact hx e.1.symm
  | cons p pre1 =>
    cases pre1 with
    | nil =>
      simp only [List.cons_append, List.nil_append, List.cons.injEq] at e
      exact hx e.2.1.symm
    | cons q pre2 =>
      simp only [List.cons_append, List.cons.injEq] at e
      obtain ⟨-, -, e⟩ := e
      by_cases hp : '*' ∈ pre2
      · obtain ⟨a, b, h1, h2⟩ := exists_first '*' pre2 hp
        subst h1
        have e1 : s ++ '*' :: ['*'] = a ++ '*' :: (b ++ x :: '*' :: y :: rest) := by
          simpa using e
        obtain ⟨-, e3⟩ := split_unique '*' s a _ _ hs h2 e1
        have := congrArg List.length e3
        simp only [List.length_append, List.length_cons, List.length_nil] at this
        omega
      · have hp1 : '*' ∉ pre2 ++ [x] := by
          intro hm
          rcases List.mem_append.mp hm with h | h
          · exact hp h
          · exact hx (List.mem_singleton.mp h).symm
        have e1 : s ++ '*' :: ['*'] = (pre2 ++ [x]) ++ '*' :: (y :: rest) := by simpa using e
        obtain ⟨-, e3⟩ := split_unique '*' s _ _ _ hs hp1 e1
        simp only [List.cons.injEq] at e3
        exact hy e3.1.symm

/-- The matches of the bold pattern at the start of a line `**s**`: the whole
line. -/
theorem reBold_matches (s : List Char) (hne : s ≠ []) (hs : '*' ∉ s) (hl : LineText s)
    (c1 : Cursor) :
    reBold.Matches ⟨[], '*' :: '*' :: (s ++ ['*', '*']), none⟩ c1 ↔
      c1 = ⟨('*' :: '*' :: (s ++ ['*', '*'])).reverse, [], none⟩ := by
  simp only [reBold, Re.matches_seq, Re.matches_nwb, Re.matches_rep_chr, Re.matches_plus_cls]
  constructor
  · rintro ⟨c2, ⟨-, rfl⟩, c3, ⟨r3, e3, rfl⟩, c4, ⟨xs, r4, hx, e4, -, rfl⟩, c5, ⟨r5, e5, rfl⟩,
      -, rfl⟩
    simp only [List.replicate, List.cons_append, List.nil_append, List.cons.injEq,
      true_and] at e3
    subst e3
    simp only [Cursor.shift] at e4 e5
    subst e5
    obtain ⟨rfl, rfl⟩ := bold_split s xs r5 hs (by simpa using e4)
    simp [Cursor.shift]
  · rintro rfl
    refine ⟨_, ⟨rfl, rfl⟩, _, ⟨s ++ ['*', '*'], rfl, rfl⟩, _,
      ⟨s, ['*', '*'], hne, rfl, all_dot_of_lineText hl, rfl⟩, _, ⟨[], rfl, rfl⟩, ?_, ?_⟩
    · simp [Cursor.shift, headIsWord, isWordChar]
    · simp [Cursor.shift]

theorem reBold_no_match_at_end (b : List Char) (c1 : Cursor) :
    ¬ reBold.Matches ⟨b, [], none⟩ c1 := by
  simp only [reBold, Re.matches_seq, Re.matches_nwb, Re.matches_rep_chr]
  rintro ⟨c2, ⟨-, rfl⟩, c3, ⟨r3, e3, rfl⟩, -⟩
  simp [List.replicate] at e3

/-- The spans of the bold rule on a line `**s**`: one span, the whole line. -/
theorem reBold_spans (s : List Char) (hne : s ≠ []) (hs : '*' ∉ s) (hl : LineText s) :
    reBold.spans .Bold ('*' :: '*' :: (s ++ ['*', '*'])) = [⟨0, s.length + 4, .Bold⟩] := by
  rw [Re.spans_whole .Bold '*' _ ((reBold_matches s hne hs hl _).mpr rfl)
    (fun c1 hc => (reBold_matches s hne hs hl c1).mp hc)
    (fun c1 => reBold_no_match_at_end _ c1)]
  simp

/-- The italic rule has no match on a line `**s**`. -/
theorem reItalic_spans_bold (s : List Char) (hs : '*' ∉ s) :
    reItalic.spans .Italic ('*' :: '*' :: (s ++ ['*', '*'])) = [] := by
  apply Re.spans_of_no_match
  intro pre post e c1 hm
  simp only [reItalic, Re.matches_seq, Re.matches_alt, Re.matches_bol, Re.matches_cls,
    Re.matches_chr, Re.matches_plus_cls] at hm
  obtain ⟨c2, hc2, c3, ⟨r3, e3, rfl⟩, c4, ⟨ys, r4, hy, e4, hall, rfl⟩, -⟩ := hm
  simp only [Cursor.shift] at e4
  cases ys with
  | nil => exact hy rfl
  | cons y ys1 =>
    have hy1 : y ≠ '*' := by
      have := hall y (List.mem_cons_self _ _)
      simpa using this
    rcases hc2 with ⟨hb, rfl⟩ | ⟨x, xs, ex, hsp, rfl⟩
    · simp only [List.reverse_eq_nil_iff] at hb
      subst hb
      simp only at e3
      subst e3
      simp only [List.nil_append, List.cons.injEq, true_and] at e
      rw [e4] at e
      simp only [List.cons_append, List.cons.injEq] at e
      exact hy1 e.1.symm
    · subst ex
      simp only [Cursor.shift] at e3
      subst e3
      subst e4
      have hx1 : x ≠ '*' := by rintro rfl; revert hsp; decide
      exact no_isolated_star s pre (ys1 ++ r4) x y hs hx1 hy1 (by simpa using e)

theorem Re.spans_filter (r : Re) (s1 s : HighlighterState) (t : List Char) :
    (r.spans s1 t).filter (fun sp => decide (sp.state = s)) =
      if s1 = s then r.spans s1 t else [] := by
  split
  · next h =>
    subst h
    apply List.filter_eq_self.mpr
    intro sp hsp
    simp [Re.spans_state r s1 t sp hsp]
  · next h =>
    apply List.filter_eq_nil_iff.mpr
    intro sp hsp
    simp [Re.spans_state r s1 t sp hsp, h]

/-- The spans of the rule table that carry the classification `s`, for a
classification other than `CodeBlock`. -/
theorem rules_filter (t : List Char) (pv nx : Option Block) (cur : List Char)
    (s : HighlighterState) (hs : s ≠ .CodeBlock) :
    (highlightAdditionalRules t ⟨pv, ⟨cur, .NoState⟩, nx, []⟩).formats.filter
        (fun sp => decide (sp.state = s)) =
      (if HighlighterState.Bold = s then reBold.spans .Bold t else []) ++
      ((if HighlighterState.Italic = s then reItalic.spans .Italic t else []) ++
      ((if HighlighterState.Link = s then reUrl.spans .Link t else []) ++
      ((if HighlighterState.Link = s then reUrlTitle.spans .Link t else []) ++
      ((if HighlighterState.Link = s then reEmail.spans .Link t else []) ++
      ((if HighlighterState.Link = s then reReferenceLink.spans .Link t else []) ++
      ((if HighlighterState.Comment = s then reReference.spans .Comment t else []) ++
      ((if HighlighterState.List = s then reUnorderedList.spans .List t else []) ++
      ((if HighlighterState.List = s then reOrderedList.spans .List t else []) ++
      ((if HighlighterState.InlineCodeBlock = s then reInlineCode.spans .InlineCodeBlock t
        else []) ++
      ((if HighlighterState.Image = s then reImage.spans .Image t else []) ++
      ((if HighlighterState.BlockQuote = s then reBlockQuote.spans .BlockQuote t else []) ++
      ((if HighlighterState.Comment = s then reInlineComment.spans .Comment t else []) ++
      ((if HighlighterState.HorizontalRuler = s then
          reHorizontalRuler.spans .HorizontalRuler t else []) ++
      ((if HighlighterState.Table = s then reTable1.spans .Table t else []) ++
      (if HighlighterState.Table = s then reTable2.spans .Table t else []))))))))))))))) := by
  rw [highlightAdditionalRules_eq t _ rfl]
  have hcode : (if reUnorderedList.globalMatch t ≠ [] ∨ reOrderedList.globalMatch t ≠ [] then []
      else reIndentedCode.spans .CodeBlock t).filter (fun sp => decide (sp.state = s)) = [] := by
    split
    · rfl
    · rw [Re.spans_filter, if_neg (fun e => hs e.symm)]
  dsimp only
  rw [List.nil_append]
  generalize (if reUnorderedList.globalMatch t ≠ [] ∨ reOrderedList.globalMatch t ≠ [] then
    ([] : List Span) else reIndentedCode.spans .CodeBlock t) = x at hcode ⊢
  simp only [List.nil_append, List.filter_append, Re.spans_filter, hcode]

/-- C12 (bold span): on a line `**s**`, with `s` non-empty and free of `*`, the
rule table sets exactly one `Bold` span, which covers the whole line (offset 0,
length `|s| + 4`), and the italic rule has no match: the rule table sets no
`Italic` span. -/
theorem bold_span (s : List Char) (pv nx : Option Block) (cur : List Char) (hne : s ≠ [])
    (hs : '*' ∉ s) (hl : LineText s) :
    (highlightAdditionalRules ('*' :: '*' :: (s ++ ['*', '*']))
        ⟨pv, ⟨cur, .NoState⟩, nx, []⟩).formats.filter (fun sp => decide (sp.state = .Bold)) =
      [⟨0, s.length + 4, .Bold⟩] ∧
    reItalic.globalMatch ('*' :: '*' :: (s ++ ['*', '*'])) = [] ∧
    (highlightAdditionalRules ('*' :: '*' :: (s ++ ['*', '*']))
        ⟨pv, ⟨cur, .NoState⟩, nx, []⟩).formats.filter (fun sp => decide (sp.state = .Italic)) =
      [] := by
  have h1 := reBold_spans s hne hs hl
  have h2 := reItalic_spans_bold s hs
  have h3 : reItalic.globalMatch ('*' :: '*' :: (s ++ ['*', '*'])) = [] := by
    simpa [Re.spans] using h2
  generalize '*' :: '*' :: (s ++ ['*', '*']) = t at h1 h2 h3 ⊢
  refine ⟨?_, h3, ?_⟩
  · rw [rules_filter t pv nx cur .Bold (by decide), h1]
    simp
  · rw [rules_filter t pv nx cur .Italic (by decide), h2]
    simp

theorem bold_span_witness :
    "bold".toList ≠ [] ∧ '*' ∉ "bold".toList ∧ LineText "bold".toList ∧
    ((highlightAdditionalRules ('*' :: '*' :: ("bold".toList ++ ['*', '*']))
        ⟨none, ⟨"**bold**".toList, .NoState⟩, none, []⟩).formats.filter
          (fun sp => decide (sp.state = .Bold)) = [⟨0, 4 + 4, .Bold⟩] ∧
    reItalic.globalMatch ('*' :: '*' :: ("bold".toList ++ ['*', '*'])) = [] ∧
    (highlightAdditionalRules ('*' :: '*' :: ("bold".toList ++ ['*', '*']))
        ⟨none, ⟨"**bold**".toList, .NoState⟩, none, []⟩).formats.filter
          (fun sp => decide (sp.state = .Italic)) = []) :=
  ⟨by decide, by decide, by decide,
    bold_span "bold".toList none none "**bold**".toList (by decide) (by decide) (by decide)⟩

/-! ## Theorems: the text above an underline -/

/-- C13 (the code at the failing inputs): above a line of `=` only, a previous
line of whitespace only, or of `-` only, has an empty trimmed and
marker-stripped text, yet the pass sets the whole-line `H1` span, leaves the
line at `HeadlineEnd` and sets the previous line to `H1`; the same happens with
`H2` for a line of `-` only. -/
theorem underline_below_blank_text :
    removeMarkers (trimmed "   ".toList) = [] ∧
    highlightBlock [⟨"   ".toList, .NoState⟩, ⟨"===".toList, .NoState⟩] 1 =
      ([⟨"   ".toList, .H1⟩, ⟨"===".toList, .HeadlineEnd⟩], [⟨0, 3, .H1⟩]) ∧
    removeMarkers (trimmed "---".toList) = [] ∧
    highlightBlock [⟨"---".toList, .NoState⟩, ⟨"===".toList, .NoState⟩] 1 =
      ([⟨"---".toList, .H1⟩, ⟨"===".toList, .HeadlineEnd⟩], [⟨0, 3, .H1⟩]) ∧
    (highlightBlock [⟨"   ".toList, .NoState⟩, ⟨"---".toList, .NoState⟩] 1).1 =
      [⟨"   ".toList, .H2⟩, ⟨"---".toList, .HeadlineEnd⟩] ∧
    ⟨0, 3, .H2⟩ ∈ (highlightBlock [⟨"   ".toList, .NoState⟩, ⟨"---".toList, .NoState⟩] 1).2 :=
  ⟨rfl, rfl, rfl, rfl, rfl, by
    have e : (highlightBlock [⟨"   ".toList, .NoState⟩, ⟨"---".toList, .NoState⟩] 1).2 =
        [⟨0, 3, .HorizontalRuler⟩, ⟨0, 3, .H2⟩] := rfl
    rw [e]
    decide⟩

/-! ## Theorems: the block detectors write last -/

theorem highlightCommentBlock_previous (t : List Char) (x : Highlighter) :
    (highlightCommentBlock t x).previousBlockState = x.previousBlockState := by
  rw [highlightCommentBlock_eq]
  split_ifs <;> rfl

/-- After a `CodeBlock` line, on a line that is no fence, the last span of the
block detectors is a whole-line `CodeBlock` span. -/
theorem blocks_inCode_last (t : List Char) (x : Highlighter)
    (hf : reFence.hasMatch t = false) (hp : x.previousBlockState = .CodeBlock) :
    (highlightCodeBlock t (highlightCommentBlock t x)).formats.getLast? =
      some ⟨0, t.length, .CodeBlock⟩ := by
  rw [highlightCodeBlock_eq, if_neg (by simp [hf]),
    if_pos ((highlightCommentBlock_previous t x).trans hp)]
  simp

/-- The pass on a line that is no fence, below a `CodeBlock` line. -/
theorem pass_inCode (t : List Char) (q cur : Block) (nx : Option Block)
    (hf : reFence.hasMatch t = false) (hq : q.userState = .CodeBlock) :
    (Highlighter.highlightBlock t ⟨some q, cur, nx, []⟩).previous = some q ∧
      (Highlighter.highlightBlock t ⟨some q, cur, nx, []⟩).current = ⟨cur.text, .CodeBlock⟩ ∧
      (Highlighter.highlightBlock t ⟨some q, cur, nx, []⟩).formats.getLast? =
        some ⟨0, t.length, .CodeBlock⟩ := by
  have hp : (⟨some q, cur, nx, []⟩ : Highlighter).previousBlockState = .CodeBlock := hq
  refine ⟨pass_previous t _ (by rw [hp]; decide),
    block_ext _ _ _ (pass_frame t _).2 (pass_state_inCode t _ hf hp), ?_⟩
  have h1 := beforeBlocks_previous t ((Highlighter.setCurrentBlockState .NoState
    (Highlighter.setCurrentBlockState .NoState ⟨some q, cur, nx, []⟩)))
    (by rw [(setCurrentBlockState_frame _ _).2.2.2.2, (setCurrentBlockState_frame _ _).2.2.2.2,
      hp]; decide)
  unfold Highlighter.highlightBlock
  rw [highlightMarkdown_eq]
  apply blocks_inCode_last t _ hf
  rw [Highlighter.previousBlockState, h1]
  exact hq

/-- The pass on a line that is neither the end marker nor a fence, below a
`Comment` line. -/
theorem pass_inComment (q cur : Block) (nx : Option Block) (ht : cur.text ≠ "-->".toList)
    (hf : reFence.hasMatch cur.text = false) (hq : q.userState = .Comment) :
    (Highlighter.highlightBlock cur.text ⟨some q, cur, nx, []⟩).previous = some q ∧
      (Highlighter.highlightBlock cur.text ⟨some q, cur, nx, []⟩).current =
        ⟨cur.text, .Comment⟩ ∧
      (Highlighter.highlightBlock cur.text ⟨some q, cur, nx, []⟩).formats.getLast? =
        some ⟨0, cur.text.length, .Comment⟩ :=
  comment_step cur.text ht hf q nx hq

theorem atx_not_fence {k : Nat} {t : List Char} (hl : LineText t) (hk : AtxHeadline k t) :
    reFence.hasMatch t = false := by
  apply not_fenceLine_hasMatch t hl
  intro hfl
  obtain ⟨r1, h1⟩ := atxHeadline_head hk
  obtain ⟨r2, h2⟩ := fenceLine_head hfl
  rw [h1] at h2
  exact absurd (List.cons.inj h2).1 (by decide)

theorem atx_not_endText {k : Nat} {t : List Char} (hk : AtxHeadline k t) :
    t ≠ "-->".toList := by
  obtain ⟨r1, h1⟩ := atxHeadline_head hk
  rw [h1]
  intro e
  exact absurd (List.cons.inj e).1 (by decide)

/-- C14 (last writer wins): the pass on an ATX headline line below a `CodeBlock`
line leaves the line with `CodeBlock` and ends with a whole-line `CodeBlock` span;
below a `Comment` line it leaves the line with `Comment` and ends with a
whole-line `Comment` span.  The other lines are as before. -/
theorem last_writer_wins (pre : List Block) (q b : Block) (post : List Block) (k : Nat)
    (hl : LineText b.text) (hk : AtxHeadline k b.text) :
    (q.userState = .CodeBlock →
      (highlightBlock (pre ++ q :: b :: post) (pre.length + 1)).1 =
          pre ++ q :: ⟨b.text, .CodeBlock⟩ :: post ∧
        (highlightBlock (pre ++ q :: b :: post) (pre.length + 1)).2.getLast? =
          some ⟨0, b.text.length, .CodeBlock⟩) ∧
    (q.userState = .Comment →
      (highlightBlock (pre ++ q :: b :: post) (pre.length + 1)).1 =
          pre ++ q :: ⟨b.text, .Comment⟩ :: post ∧
        (highlightBlock (pre ++ q :: b :: post) (pre.length + 1)).2.getLast? =
          some ⟨0, b.text.length, .Comment⟩) := by
  constructor
  · intro hq
    obtain ⟨h1, h2, h3⟩ := pass_inCode b.text q b post.head? (atx_not_fence hl hk) hq
    rw [highlightBlock_snoc]
    simp only [h1, h2, Option.getD]
    exact ⟨trivial, h3⟩
  · intro hq
    obtain ⟨h1, h2, h3⟩ := pass_inComment q b post.head? (atx_not_endText hk)
      (atx_not_fence hl hk) hq
    rw [highlightBlock_snoc]
    simp only [h1, h2, Option.getD]
    exact ⟨trivial, h3⟩

theorem last_writer_wins_witness :
    LineText (⟨"## Title".toList, .NoState⟩ : Block).text ∧
    AtxHeadline 2 (⟨"## Title".toList, .NoState⟩ : Block).text ∧
    (⟨"code".toList, .CodeBlock⟩ : Block).userState = .CodeBlock ∧
    (highlightBlock ([⟨"```".toList, .CodeBlock⟩] ++ ⟨"code".toList, .CodeBlock⟩ ::
        ⟨"## Title".toList, .NoState⟩ :: []) (1 + 1)).1 =
      [⟨"```".toList, .CodeBlock⟩] ++ ⟨"code".toList, .CodeBlock⟩ ::
        ⟨"## Title".toList, .CodeBlock⟩ :: [] ∧
    (highlightBlock ([⟨"```".toList, .CodeBlock⟩] ++ ⟨"code".toList, .CodeBlock⟩ ::
        ⟨"## Title".toList, .NoState⟩ :: []) (1 + 1)).2.getLast? =
      some ⟨0, 8, .CodeBlock⟩ :=
  have h1 : LineText (⟨"## Title".toList, .NoState⟩ : Block).text := by decide
  have h2 : AtxHeadline 2 (⟨"## Title".toList, .NoState⟩ : Block).text :=
    ⟨by decide, "Title".toList, by decide, rfl⟩
  ⟨h1, h2, rfl, (last_writer_wins [⟨"```".toList, .CodeBlock⟩] ⟨"code".toList, .CodeBlock⟩
    ⟨"## Title".toList, .NoState⟩ [] 2 h1 h2).1 rfl⟩

/-! ## Theorems: the rule flags -/

/-- A line that matches one of the two list rules is a list item line. -/
theorem listItemLine_of_matches (t : List Char)
    (h : reUnorderedList.globalMatch t ≠ [] ∨ reOrderedList.globalMatch t ≠ []) :
    ListItemLine t := by
  rcases h with h | h
  · rw [Re.globalMatch_ne_nil_iff, reUnorderedList,
      Re.hasMatch_anchored_iff (Re.anchored_seq_bol _)] at h
    simp only [Re.matches_seq, Re.matches_bol, Re.matches_star_cls, Re.matches_cls] at h
    obtain ⟨c1, c2, ⟨-, rfl⟩, c3, ⟨ws, r3, e3, hws, rfl⟩, c4, ⟨m, r4, e4, hm, rfl⟩,
      w, r5, e5, hw, -⟩ := h
    simp only [Cursor.shift] at e3 e4 e5
    subst e3
    subst e4
    subst e5
    refine ⟨ws, r5, hws, Or.inl ⟨m, w, ?_, hw, rfl⟩⟩
    simp only [Bool.or_eq_true, beq_iff_eq] at hm
    rcases hm with (h1 | h1) | h1
    · exact Or.inl h1
    · exact Or.inr (Or.inl h1)
    · exact Or.inr (Or.inr h1)
  · rw [Re.globalMatch_ne_nil_iff, reOrderedList,
      Re.hasMatch_anchored_iff (Re.anchored_seq_bol _)] at h
    simp only [Re.matches_seq, Re.matches_bol, Re.matches_star_cls, Re.matches_cls,
      Re.matches_chr] at h
    obtain ⟨c1, c2, ⟨-, rfl⟩, c3, ⟨ws, r3, e3, hws, rfl⟩, c4, ⟨d, r4, e4, hd, rfl⟩,
      c5, ⟨r5, e5, rfl⟩, w, r6, e6, hw, -⟩ := h
    simp only [Cursor.shift] at e3 e4 e5 e6
    subst e3
    subst e4
    subst e5
    subst e6
    exact ⟨ws, r6, hws, Or.inr ⟨d, w, hd, hw, rfl⟩⟩

theorem listItemLine_iff (t : List Char) :
    (reUnorderedList.globalMatch t ≠ [] ∨ reOrderedList.globalMatch t ≠ []) ↔ ListItemLine t :=
  ⟨listItemLine_of_matches t, listItemLine_matches t⟩

theorem Re.matches_star_chr {g : Bool} {x : Char} {c c1 : Cursor} :
    (Re.star g (Re.chr x)).Matches c c1 ↔
      ∃ xs rest, c.after = xs ++ rest ∧ (∀ y ∈ xs, y = x) ∧ c1 = c.shift xs rest := by
  simp only [Re.chr, Re.matches_star_cls, beq_iff_eq]

theorem reIndentedCode_props :
    reIndentedCode.Anchored ∧ reIndentedCode.EndsEol ∧ reIndentedCode.capFree = true :=
  ⟨Re.anchored_seq_bol _, Re.endsEol_seq _ (Re.endsEol_seq _ (Re.endsEol_seq _ Re.endsEol_eol)),
    rfl⟩

/-- The indented-code pattern matches exactly the indented lines. -/
theorem reIndentedCode_hasMatch_iff (t : List Char) (hl : LineText t) :
    reIndentedCode.hasMatch t = true ↔ IndentedLine t := by
  rw [Re.hasMatch_anchored_iff reIndentedCode_props.1, reIndentedCode]
  simp only [Re.atLeast, Re.matches_seq, Re.matches_alt, Re.matches_bol, Re.matches_chr,
    Re.matches_rep_chr, Re.matches_star_chr, Re.matches_plus_cls, Re.matches_eol, IndentedLine]
  constructor
  · rintro ⟨c1, c2, ⟨-, rfl⟩, c3, hc3, c4, ⟨xs, r4, hx, e4, -, rfl⟩, -⟩
    rcases hc3 with ⟨r3, e3, rfl⟩ | ⟨c5, ⟨r5, e5, rfl⟩, sp, r6, e6, -, rfl⟩
    · simp only [Cursor.shift] at e3 e4
      subst e3
      exact ⟨r3, by rw [e4]; simp [hx], Or.inl rfl⟩
    · simp only [Cursor.shift] at e5 e6 e4
      subst e5
      subst e6
      subst e4
      exact ⟨sp ++ (xs ++ r4), by simp [hx], Or.inr rfl⟩
  · rintro ⟨rest, hne, rfl | rfl⟩
    · have hr : LineText rest := @lineText_append ['\t'] rest hl
      exact ⟨_, _, ⟨trivial, rfl⟩, _, Or.inl ⟨rest, rfl, rfl⟩, _,
        ⟨rest, [], hne, by simp [Cursor.shift], all_dot_of_lineText hr, rfl⟩, Or.inl rfl, rfl⟩
    · have hr : LineText rest := @lineText_append "    ".toList rest hl
      exact ⟨_, _, ⟨trivial, rfl⟩, _, Or.inr ⟨_, ⟨rest, rfl, rfl⟩, [], rest, rfl, by simp, rfl⟩, _,
        ⟨rest, [], hne, by simp [Cursor.shift], all_dot_of_lineText hr, rfl⟩, Or.inl rfl, rfl⟩

/-- The `CodeBlock` spans of the rule table: those of the indented-code rule,
which is skipped when a list rule has matched. -/
theorem rules_filter_code (t : List Char) (pv nx : Option Block) (cur : List Char) :
    (highlightAdditionalRules t ⟨pv, ⟨cur, .NoState⟩, nx, []⟩).formats.filter
        (fun sp => decide (sp.state = .CodeBlock)) =
      if reUnorderedList.globalMatch t ≠ [] ∨ reOrderedList.globalMatch t ≠ [] then []
      else reIndentedCode.spans .CodeBlock t := by
  rw [highlightAdditionalRules_eq t _ rfl]
  dsimp only
  rw [List.nil_append]
  have hcode : (if reUnorderedList.globalMatch t ≠ [] ∨ reOrderedList.globalMatch t ≠ [] then []
      else reIndentedCode.spans .CodeBlock t).filter
        (fun sp => decide (sp.state = .CodeBlock)) =
      if reUnorderedList.globalMatch t ≠ [] ∨ reOrderedList.globalMatch t ≠ [] then []
      else reIndentedCode.spans .CodeBlock t := by
    split
    · rfl
    · rw [Re.spans_filter, if_pos rfl]
  generalize (if reUnorderedList.globalMatch t ≠ [] ∨ reOrderedList.globalMatch t ≠ [] then
    ([] : List Span) else reIndentedCode.spans .CodeBlock t) = x at hcode ⊢
  simp only [List.filter_append, Re.spans_filter, hcode]
  simp

/-- C15 (rule flags): after the rule table has run on a non-empty line whose
carried classification was reset to `NoState`, (1) the carried classification
is `List` when the line is a list item line and `NoState` otherwise, and (2) the
rule table holds a `CodeBlock` span, one span covering the whole line, exactly
when the line is an indented line and no list item line. -/
theorem rule_flags (t : List Char) (pv nx : Option Block) (cur : List Char) (hl : LineText t)
    (hne : t ≠ []) :
    (ListItemLine t →
      (highlightAdditionalRules t ⟨pv, ⟨cur, .NoState⟩, nx, []⟩).current.userState = .List) ∧
    (¬ ListItemLine t →
      (highlightAdditionalRules t ⟨pv, ⟨cur, .NoState⟩, nx, []⟩).current.userState =
        .NoState) ∧
    (IndentedLine t ∧ ¬ ListItemLine t →
      (highlightAdditionalRules t ⟨pv, ⟨cur, .NoState⟩, nx, []⟩).formats.filter
        (fun sp => decide (sp.state = .CodeBlock)) = [⟨0, t.length, .CodeBlock⟩]) ∧
    (¬ (IndentedLine t ∧ ¬ ListItemLine t) →
      (highlightAdditionalRules t ⟨pv, ⟨cur, .NoState⟩, nx, []⟩).formats.filter
        (fun sp => decide (sp.state = .CodeBlock)) = []) := by
  have hsp := Re.spans_anchored reIndentedCode_props.1 reIndentedCode_props.2.1
    reIndentedCode_props.2.2 .CodeBlock hl hne
  refine ⟨?_, ?_, ?_, ?_⟩
  · intro h
    rw [highlightAdditionalRules_eq t _ rfl]
    exact if_pos ((listItemLine_iff t).mpr h)
  · intro h
    rw [highlightAdditionalRules_eq t _ rfl]
    exact if_neg (fun hm => h ((listItemLine_iff t).mp hm))
  · rintro ⟨h1, h2⟩
    rw [rules_filter_code, if_neg (fun hm => h2 ((listItemLine_iff t).mp hm))]
    exact hsp.1 ((reIndentedCode_hasMatch_iff t hl).mpr h1)
  · intro h
    rw [rules_filter_code]
    by_cases hm : reUnorderedList.globalMatch t ≠ [] ∨ reOrderedList.globalMatch t ≠ []
    · rw [if_pos hm]
    · rw [if_neg hm]
      apply hsp.2
      cases hi : reIndentedCode.hasMatch t with
      | false => rfl
      | true =>
        exact absurd ⟨(reIndentedCode_hasMatch_iff t hl).mp hi,
          fun hli => hm ((listItemLine_iff t).mpr hli)⟩ h

theorem rule_flags_witness :
    LineText "    item".toList ∧ "    item".toList ≠ [] ∧
    IndentedLine "    item".toList ∧ ¬ ListItemLine "    item".toList ∧
    (highlightAdditionalRules "    item".toList
        ⟨none, ⟨"    item".toList, .NoState⟩, none, []⟩).current.userState = .NoState ∧
    (highlightAdditionalRules "    item".toList
        ⟨none, ⟨"    item".toList, .NoState⟩, none, []⟩).formats.filter
      (fun sp => decide (sp.state = .CodeBlock)) = [⟨0, 8, .CodeBlock⟩] :=
  have h1 : LineText "    item".toList := by decide
  have h2 : "    item".toList ≠ [] := by decide
  have h3 : IndentedLine "    item".toList := ⟨"item".toList, by decide, Or.inr rfl⟩
  have h4 : ¬ ListItemLine "    item".toList := fun h =>
    absurd ((listItemLine_iff "    item".toList).mpr h) (by decide)
  ⟨h1, h2, h3, h4, (rule_flags "    item".toList none none "    item".toList h1 h2).2.1 h4,
    (rule_flags "    item".toList none none "    item".toList h1 h2).2.2.1 ⟨h3, h4⟩⟩

/-! ## Theorems: empty lines -/

theorem reFence_empty : reFence.hasMatch [] = false := by decide

/-- The pass on an empty line: only the block detectors run. -/
theorem pass_empty (pv : Option Block) (cur : Block) (nx : Option Block) :
    Highlighter.highlightBlock [] ⟨pv, cur, nx, []⟩ =
      if (⟨pv, cur, nx, []⟩ : Highlighter).previousBlockState = .CodeBlock then
        ⟨pv, ⟨cur.text, .CodeBlock⟩, nx, [⟨0, 0, .CodeBlock⟩]⟩
      else if (⟨pv, cur, nx, []⟩ : Highlighter).previousBlockState = .Comment then
        ⟨pv, ⟨cur.text, .Comment⟩, nx, [⟨0, 0, .Comment⟩]⟩
      else ⟨pv, ⟨cur.text, .NoState⟩, nx, []⟩ := by
  unfold Highlighter.highlightBlock
  rw [highlightMarkdown_eq, if_neg (by simp), highlightCodeBlock_eq, highlightCommentBlock_eq,
    if_neg (by rw [reFence_empty]; decide)]
  simp only [Highlighter.setCurrentBlockState, Highlighter.previousBlockState]
  by_cases h1 : (match pv with | some b => b.userState | none => HighlighterState.NoState) =
      .CodeBlock
  · simp [h1]
  · by_cases h2 : (match pv with | some b => b.userState | none => HighlighterState.NoState) =
        .Comment
    · simp [h1, h2]
    · simp [h1, h2]

theorem set_self (doc : List Block) (j : Nat) (p : Block) (h : doc[j]? = some p) :
    doc.set j p = doc := by
  induction doc generalizing j with
  | nil => rfl
  | cons a as ih =>
    cases j with
    | zero =>
      simp only [List.getElem?_cons_zero, Option.some.injEq] at h
      rw [h]; rfl
    | succ j =>
      simp only [List.getElem?_cons_succ] at h
      simp [ih j h]

/-- Writing back a pass that left the previous block alone only replaces the
current block. -/
theorem writeBack_keep (doc : List Block) (i : Nat) (h : Highlighter)
    (hp : h.previous = previousBlock doc i) : writeBack doc i h = doc.set i h.current := by
  unfold writeBack
  split
  · next j p e =>
    rw [hp] at e
    simp only [previousBlock] at e
    rw [List.set_comm h.current p doc (Nat.succ_ne_self j), set_self doc j p e]
  · rfl

/-- C16 (empty lines): the pass on an empty line leaves it with `CodeBlock` when
the line before carries `CodeBlock`, with `Comment` when it carries `Comment` and
with `NoState` otherwise, whatever the next line is; every other line, the one
before included, is as before. -/
theorem empty_line (doc : List Block) (i : Nat) (b : Block) (hb : doc[i]? = some b)
    (ht : b.text = []) :
    (highlightBlock doc i).1 = doc.set i ⟨[],
      if (previousBlock doc i).map (fun q => q.userState) = some .CodeBlock then .CodeBlock
      else if (previousBlock doc i).map (fun q => q.userState) = some .Comment then .Comment
      else .NoState⟩ := by
  simp only [highlightBlock, hb, ht]
  rw [pass_empty]
  cases hq : previousBlock doc i with
  | none =>
    simp only [Highlighter.previousBlockState, Option.map_none']
    rw [if_neg (by decide), if_neg (by decide), if_neg (by simp), if_neg (by simp),
      writeBack_keep _ _ _ hq.symm, ht]
  | some q =>
    simp only [Highlighter.previousBlockState, Option.map_some', Option.some.injEq]
    by_cases h1 : q.userState = .CodeBlock
    · rw [if_pos h1, if_pos h1, writeBack_keep _ _ _ hq.symm, ht]
    · by_cases h2 : q.userState = .Comment
      · rw [if_neg h1, if_neg h1, if_pos h2, if_pos h2, writeBack_keep _ _ _ hq.symm, ht]
      · rw [if_neg h1, if_neg h1, if_neg h2, if_neg h2, writeBack_keep _ _ _ hq.symm, ht]

theorem empty_line_witness :
    [(⟨"<!--".toList, .Comment⟩ : Block), ⟨[], .NoState⟩, ⟨"===".toList, .NoState⟩][1]? =
      some ⟨[], .NoState⟩ ∧
    (⟨[], .NoState⟩ : Block).text = [] ∧
    (highlightBlock [(⟨"<!--".toList, .Comment⟩ : Block), ⟨[], .NoState⟩,
        ⟨"===".toList, .NoState⟩] 1).1 =
      [(⟨"<!--".toList, .Comment⟩ : Block), ⟨[], .Comment⟩, ⟨"===".toList, .NoState⟩] :=
  ⟨rfl, rfl, empty_line _ 1 ⟨[], .NoState⟩ rfl rfl⟩

/-! ## Theorems: the frame of the pass -/

/-- What the pass can do to the previous block: nothing, or turn `NoState` into
`H1` on an underline of `=`, or into `H2` on an underline of `-`. -/
theorem pass_previous_cases (t : List Char) (q cur : Block) (nx : Option Block) :
    (Highlighter.highlightBlock t ⟨some q, cur, nx, []⟩).previous = some q ∨
      (q.userState = .NoState ∧
        (Highlighter.highlightBlock t ⟨some q, cur, nx, []⟩).previous = some ⟨q.text, .H1⟩ ∧
        patternH1.hasMatch t = true) ∨
      (q.userState = .NoState ∧
        (Highlighter.highlightBlock t ⟨some q, cur, nx, []⟩).previous = some ⟨q.text, .H2⟩ ∧
        patternH2.hasMatch t = true) := by
  have h0 : (Highlighter.highlightBlock t ⟨some q, cur, nx, []⟩).previous =
      (if t ≠ [] then highlightHeadline t (highlightAdditionalRules t
        ⟨some q, ⟨cur.text, .NoState⟩, nx, []⟩)
        else ⟨some q, ⟨cur.text, .NoState⟩, nx, []⟩).previous := by
    unfold Highlighter.highlightBlock
    rw [highlightMarkdown_eq]
    exact (blocks_frame t _).1
  rw [h0]
  by_cases ht : t = []
  · left
    rw [if_neg (by simp [ht])]
  · rw [if_pos ht]
    obtain ⟨f1, -, -⟩ := highlightAdditionalRules_frame t
      ⟨some q, ⟨cur.text, .NoState⟩, nx, []⟩
    generalize highlightAdditionalRules t ⟨some q, ⟨cur.text, .NoState⟩, nx, []⟩ = r at f1 ⊢
    obtain ⟨rp, rc, rn, rf⟩ := r
    simp only at f1
    subst f1
    obtain ⟨qt, qs⟩ := q
    unfold highlightHeadline
    split
    · left; rfl
    · simp only [Highlighter.previousBlockState, Highlighter.previousText,
        Highlighter.setFormat, Highlighter.setCurrentBlockState,
        Highlighter.setPreviousUserState, Highlighter.nextText, Option.map]
      split_ifs with a1 a2 a3 a4 a5 a6
      · rcases a2.1 with e | e
        · left; rw [e]
        · right; left; exact ⟨e, rfl, a1⟩
      · left; rfl
      · rcases a4.1 with e | e
        · left; rw [e]
        · right; right; exact ⟨e, rfl, a3⟩
      · left; rfl
      · left; rfl
      · left; rfl
      · left; rfl
      · left; rfl

theorem getElem?_append_other (pre post : List Block) (a b a1 b1 : Block) :
    ∀ j, j ≠ pre.length → j ≠ pre.length + 1 →
      (pre ++ a1 :: b1 :: post)[j]? = (pre ++ a :: b :: post)[j]? := by
  induction pre with
  | nil =>
    intro j h1 h2
    cases j with
    | zero => exact absurd rfl h1
    | succ j =>
      cases j with
      | zero => exact absurd rfl h2
      | succ j => simp
  | cons x xs ih =>
    intro j h1 h2
    cases j with
    | zero => simp
    | succ j =>
      simp only [List.cons_append, List.getElem?_cons_succ]
      exact ih j (by simpa using h1) (by simpa using h2)

/-- C17 (frame of the per-line pass): the pass on line `i` changes no text; every
line other than `i` and `i - 1` is as before; line `i - 1` is as before, or it
carried `NoState` and now carries `H1`, line `i` being of `=` only, or `H2`, line
`i` being of `-` only.  So a previous line that carries anything but `NoState` is
never altered. -/
theorem highlightBlock_frame (doc : List Block) (i : Nat)
    (hl : ∀ b, doc[i]? = some b → LineText b.text) :
    (highlightBlock doc i).1.map (fun b => b.text) = doc.map (fun b => b.text) ∧
    (∀ j, j ≠ i → j + 1 ≠ i → (highlightBlock doc i).1[j]? = doc[j]?) ∧
    (∀ j q, j + 1 = i → doc[j]? = some q →
      (highlightBlock doc i).1[j]? = some q ∨
      (q.userState = .NoState ∧ ∃ b, doc[i]? = some b ∧
        (((highlightBlock doc i).1[j]? = some ⟨q.text, .H1⟩ ∧ OnlyChar '=' b.text) ∨
          ((highlightBlock doc i).1[j]? = some ⟨q.text, .H2⟩ ∧ OnlyChar '-' b.text)))) := by
  cases hb : doc[i]? with
  | none =>
    have e : highlightBlock doc i = (doc, []) := by simp only [highlightBlock, hb]
    rw [e]
    exact ⟨rfl, fun _ _ _ => rfl, fun j q _ hq => Or.inl hq⟩
  | some b =>
    have hlb := hl b hb
    obtain ⟨pre, post, rfl, hlen⟩ := exists_split_at doc i b hb
    subst hlen
    rcases List.eq_nil_or_concat pre with hpre | ⟨pre1, q, hpre⟩
    · subst hpre
      simp only [List.nil_append, List.length_nil]
      rw [highlightBlock_head]
      refine ⟨?_, ?_, ?_⟩
      · simp [(pass_frame b.text ⟨none, b, post.head?, []⟩).2]
      · intro j h1 _
        cases j with
        | zero => exact absurd rfl h1
        | succ j => simp
      · intro j q h1 _
        exact absurd h1 (Nat.succ_ne_zero j)
    · rw [List.concat_eq_append] at hpre
      subst hpre
      have e0 : pre1 ++ [q] ++ b :: post = pre1 ++ q :: b :: post := by simp
      have l0 : (pre1 ++ [q]).length = pre1.length + 1 := by simp
      rw [e0, l0, highlightBlock_snoc]
      have hc := (pass_frame b.text ⟨some q, b, post.head?, []⟩).2
      have hcases := pass_previous_cases b.text q b post.head?
      have hq' : ((Highlighter.highlightBlock b.text
          ⟨some q, b, post.head?, []⟩).previous.getD q).text = q.text := by
        rcases hcases with h | ⟨-, h, -⟩ | ⟨-, h, -⟩ <;> rw [h] <;> rfl
      refine ⟨?_, ?_, ?_⟩
      · simp only [List.map_append, List.map_cons, hq', hc]
      · intro j h1 h2
        exact getElem?_append_other pre1 post q b _ _ j (fun e => h2 (by rw [e]))
          (fun e => h1 e)
      · intro j q1 h1 hq1
        have hj : j = pre1.length := by omega
        subst hj
        rw [getElem?_append_at] at hq1 ⊢
        simp only [Option.some.injEq] at hq1
        subst hq1
        rcases hcases with h | ⟨hs, h, hm⟩ | ⟨hs, h, hm⟩
        · left; rw [h]; rfl
        · right
          exact ⟨hs, b, rfl, Or.inl ⟨by rw [h]; rfl, (patternH1_hasMatch_iff _ hlb).mp hm⟩⟩
        · right
          exact ⟨hs, b, rfl, Or.inr ⟨by rw [h]; rfl, (patternH2_hasMatch_iff _ hlb).mp hm⟩⟩

theorem highlightBlock_frame_witness :
    (∀ b, [(⟨"Title".toList, .NoState⟩ : Block), ⟨"---".toList, .NoState⟩,
        ⟨"text".toList, .List⟩][1]? = some b → LineText b.text) ∧
    ((highlightBlock [(⟨"Title".toList, .NoState⟩ : Block), ⟨"---".toList, .NoState⟩,
        ⟨"text".toList, .List⟩] 1).1.map (fun b => b.text) =
      [(⟨"Title".toList, .NoState⟩ : Block), ⟨"---".toList, .NoState⟩,
        ⟨"text".toList, .List⟩].map (fun b => b.text)) ∧
    (highlightBlock [(⟨"Title".toList, .NoState⟩ : Block), ⟨"---".toList, .NoState⟩,
        ⟨"text".toList, .List⟩] 1).1[2]? = some ⟨"text".toList, .List⟩ :=
  have h : ∀ b, [(⟨"Title".toList, .NoState⟩ : Block), ⟨"---".toList, .NoState⟩,
      ⟨"text".toList, .List⟩][1]? = some b → LineText b.text := by
    intro b hb
    simp only [List.getElem?_cons_succ, List.getElem?_cons_zero, Option.some.injEq] at hb
    rw [← hb]
    decide
  ⟨h, (highlightBlock_frame _ 1 h).1, (highlightBlock_frame _ 1 h).2.1 2 (by decide) (by decide)⟩

/-! ## Theorems: reachable carried classifications -/

theorem headlineState_carried (n : Nat) : isCarried (headlineState n) = true := by
  unfold headlineState
  split <;> rfl

theorem highlightHeadline_carried (t : List Char) (g : Highlighter)
    (hg : isCarried g.current.userState = true) :
    isCarried (highlightHeadline t g).current.userState = true := by
  unfold highlightHeadline
  split
  · simp only [Highlighter.setFormat, Highlighter.setCurrentBlockState]
    exact headlineState_carried _
  · simp only
    split_ifs <;> first | rfl | exact hg

theorem highlightAdditionalRules_carried (t : List Char) (h : Highlighter)
    (hs : h.current.userState = .NoState) :
    isCarried (highlightAdditionalRules t h).current.userState = true := by
  rw [highlightAdditionalRules_eq t h hs]
  dsimp only
  split <;> rfl

theorem blocks_carried (t : List Char) (x : Highlighter)
    (hx : isCarried x.current.userState = true) :
    isCarried (highlightCodeBlock t (highlightCommentBlock t x)).current.userState = true := by
  rw [highlightCodeBlock_eq, highlightCommentBlock_eq]
  split_ifs <;> first | rfl | exact hx

/-- After the pass the current block carries one of the carried
classifications. -/
theorem pass_carried (t : List Char) (h : Highlighter) :
    isCarried (h.highlightBlock t).current.userState = true := by
  unfold Highlighter.highlightBlock
  rw [highlightMarkdown_eq]
  apply blocks_carried
  split
  · exact highlightHeadline_carried t _ (highlightAdditionalRules_carried t _ rfl)
  · rfl

/-- The pass keeps every line of the document within the carried
classifications. -/
theorem highlightBlock_carried (doc : List Block) (i : Nat)
    (hd : ∀ b ∈ doc, isCarried b.userState = true) :
    ∀ b ∈ (highlightBlock doc i).1, isCarried b.userState = true := by
  cases hb : doc[i]? with
  | none =>
    have e : highlightBlock doc i = (doc, []) := by simp only [highlightBlock, hb]
    rw [e]
    exact hd
  | some b =>
    obtain ⟨pre, post, rfl, hlen⟩ := exists_split_at doc i b hb
    subst hlen
    rcases List.eq_nil_or_concat pre with hpre | ⟨pre1, q, hpre⟩
    · subst hpre
      simp only [List.nil_append, List.length_nil]
      rw [highlightBlock_head]
      intro c hc
      rcases List.mem_cons.mp hc with h | h
      · rw [h]; exact pass_carried _ _
      · exact hd c (by simp [h])
    · rw [List.concat_eq_append] at hpre
      subst hpre
      have e0 : pre1 ++ [q] ++ b :: post = pre1 ++ q :: b :: post := by simp
      have l0 : (pre1 ++ [q]).length = pre1.length + 1 := by simp
      rw [e0] at hd
      rw [e0, l0, highlightBlock_snoc]
      intro c hc
      rcases List.mem_append.mp hc with h | h
      · exact hd c (List.mem_append_left _ h)
      · rcases List.mem_cons.mp h with h | h
        · rw [h]
          rcases pass_previous_cases b.text q b post.head? with h1 | ⟨-, h1, -⟩ | ⟨-, h1, -⟩
          · rw [h1]; exact hd q (by simp)
          · rw [h1]; rfl
          · rw [h1]; rfl
        · rcases List.mem_cons.mp h with h | h
          · rw [h]; exact pass_carried _ _
          · exact hd c (by simp [h])

theorem highlightMany_carried (is : List Nat) : ∀ (doc : List Block),
    (∀ b ∈ doc, isCarried b.userState = true) →
    ∀ b ∈ highlightMany is doc, isCarried b.userState = true := by
  induction is with
  | nil => intro doc hd; exact hd
  | cons i is ih =>
    intro doc hd
    exact ih _ (highlightBlock_carried doc i hd)

/-- A line matched by the headline pattern starts with `#`. -/
theorem reHeadline_head (t : List Char) (h : reHeadline.hasMatch t = true) :
    ∃ r, t = '#' :: r := by
  rw [Re.hasMatch_anchored_iff reHeadline_anchored, reHeadline] at h
  simp only [Re.chr, Re.matches_seq, Re.matches_bol, Re.matches_cap, Re.matches_plus_cls] at h
  obtain ⟨c1, c2, ⟨-, rfl⟩, c3, ⟨c4, ⟨hs, r1, hne, h1, hh, rfl⟩, rfl⟩, -⟩ := h
  simp only at h1
  subst h1
  cases hs with
  | nil => exact absurd rfl hne
  | cons x xs =>
    have := hh x (List.mem_cons_self _ _)
    simp only [beq_iff_eq] at this
    exact ⟨xs ++ r1, by rw [this]; rfl⟩

/-- A line matched by `^x+$` starts with `x`. -/
theorem onlyChar_pattern_head (x : Char) (t : List Char)
    (h : (Re.seq .bol (.seq (Re.plus true (Re.chr x)) .eol)).hasMatch t = true) :
    ∃ r, t = x :: r := by
  rw [Re.hasMatch_anchored_iff (Re.anchored_seq_bol _)] at h
  simp only [Re.chr, Re.matches_seq, Re.matches_bol, Re.matches_plus_cls] at h
  obtain ⟨c1, c2, ⟨-, rfl⟩, c3, ⟨xs, r1, hne, h1, hh, rfl⟩, -⟩ := h
  simp only at h1
  subst h1
  cases xs with
  | nil => exact absurd rfl hne
  | cons y ys =>
    have := hh y (List.mem_cons_self _ _)
    simp only [beq_iff_eq] at this
    exact ⟨ys ++ r1, by rw [this]; rfl⟩

/-- A line matched by the fence pattern starts with a backtick. -/
theorem reFence_head (t : List Char) (h : reFence.hasMatch t = true) :
    ∃ r, t = Char.ofNat 96 :: r := by
  rw [reFence, Re.hasMatch_anchored_iff (Re.anchored_seq_bol _)] at h
  simp only [Re.matches_seq, Re.matches_bol, Re.matches_rep_chr] at h
  obtain ⟨c1, c2, ⟨-, rfl⟩, c3, ⟨r1, h1, rfl⟩, -⟩ := h
  simp only at h1
  exact ⟨_, h1⟩

/-- A line matched by the indented-code pattern starts with a tab or a space. -/
theorem reIndentedCode_head (t : List Char) (h : reIndentedCode.hasMatch t = true) :
    ∃ x r, t = x :: r ∧ (x = '\t' ∨ x = ' ') := by
  rw [Re.hasMatch_anchored_iff reIndentedCode_props.1, reIndentedCode] at h
  simp only [Re.atLeast, Re.matches_seq, Re.matches_alt, Re.matches_bol, Re.matches_chr,
    Re.matches_rep_chr] at h
  obtain ⟨c1, c2, ⟨-, rfl⟩, c3, hc3, -⟩ := h
  rcases hc3 with ⟨r3, e3, rfl⟩ | ⟨c5, ⟨r5, e5, rfl⟩, -⟩
  · exact ⟨_, _, e3, Or.inl rfl⟩
  · exact ⟨_, _, e5, Or.inr rfl⟩

/-- On a line that is no headline and no underline the headline detector looks
at the next line only: the previous block is as before and the classification
is as before, `H1` or `H2`. -/
theorem highlightHeadline_lookahead (t : List Char) (g : Highlighter)
    (e0 : reHeadline.firstMatch t = none) (e1 : patternH1.hasMatch t = false)
    (e2 : patternH2.hasMatch t = false) :
    (highlightHeadline t g).previous = g.previous ∧
      ((highlightHeadline t g).current.userState = g.current.userState ∨
        (highlightHeadline t g).current.userState = .H1 ∨
        (highlightHeadline t g).current.userState = .H2) := by
  unfold highlightHeadline
  simp only [e0, e1, e2, Bool.false_eq_true, if_false]
  split_ifs <;>
    simp [Highlighter.setFormat, Highlighter.setCurrentBlockState]

/-- After a `Comment` line, a line that is neither the end marker nor a fence
ends with `Comment`. -/
theorem pass_state_inComment (t : List Char) (h : Highlighter) (ht : t ≠ "-->".toList)
    (hf : reFence.hasMatch t = false) (hp : h.previousBlockState = .Comment) :
    (h.highlightBlock t).current.userState = .Comment := by
  unfold Highlighter.highlightBlock
  rw [highlightMarkdown_eq]
  have h1 := beforeBlocks_previous t
    ((h.setCurrentBlockState .NoState).setCurrentBlockState .NoState)
    (by rw [(setCurrentBlockState_frame _ _).2.2.2.2, (setCurrentBlockState_frame _ _).2.2.2.2,
      hp]; decide)
  have hx : (if t ≠ [] then highlightHeadline t (highlightAdditionalRules t
      ((h.setCurrentBlockState .NoState).setCurrentBlockState .NoState))
      else ((h.setCurrentBlockState .NoState).setCurrentBlockState
        .NoState)).previousBlockState = .Comment := by
    rw [Highlighter.previousBlockState, h1]; exact hp
  rw [blocks_comment t _ (Or.inr ⟨ht, hx⟩) hf (by rw [hx]; decide)]

/-- The pass on a line for which the rule table has set a `CodeBlock` span (a
line styled as indented code): the line ends with `CodeBlock` below a `CodeBlock`
line, with `Comment` below a `Comment` line, and otherwise with `NoState`, `H1` or
`H2`. -/
theorem pass_indented (t : List Char) (pv : Option Block) (cur : Block) (nx : Option Block)
    (hr : (highlightAdditionalRules t ⟨pv, ⟨cur.text, .NoState⟩, nx, []⟩).formats.filter
      (fun sp => decide (sp.state = .CodeBlock)) ≠ []) :
    ((⟨pv, cur, nx, []⟩ : Highlighter).previousBlockState = .CodeBlock ∧
      (Highlighter.highlightBlock t ⟨pv, cur, nx, []⟩).current.userState = .CodeBlock) ∨
    ((⟨pv, cur, nx, []⟩ : Highlighter).previousBlockState = .Comment ∧
      (Highlighter.highlightBlock t ⟨pv, cur, nx, []⟩).current.userState = .Comment) ∨
    ((⟨pv, cur, nx, []⟩ : Highlighter).previousBlockState ≠ .CodeBlock ∧
      (⟨pv, cur, nx, []⟩ : Highlighter).previousBlockState ≠ .Comment ∧
      ((Highlighter.highlightBlock t ⟨pv, cur, nx, []⟩).current.userState = .NoState ∨
        (Highlighter.highlightBlock t ⟨pv, cur, nx, []⟩).current.userState = .H1 ∨
        (Highlighter.highlightBlock t ⟨pv, cur, nx, []⟩).current.userState = .H2)) := by
  rw [rules_filter_code] at hr
  by_cases hm : reUnorderedList.globalMatch t ≠ [] ∨ reOrderedList.globalMatch t ≠ []
  · rw [if_pos hm] at hr
    exact absurd rfl hr
  rw [if_neg hm] at hr
  have hi : reIndentedCode.hasMatch t = true := by
    apply (Re.globalMatch_ne_nil_iff _ _).mp
    intro e
    apply hr
    simp [Re.spans, e]
  obtain ⟨x, r, rfl, hx⟩ := reIndentedCode_head t hi
  have hx1 : x ≠ '#' ∧ x ≠ '=' ∧ x ≠ '-' ∧ x ≠ Char.ofNat 96 ∧ x ≠ '<' := by
    rcases hx with rfl | rfl <;> decide
  have hf : reFence.hasMatch (x :: r) = false := by
    cases h : reFence.hasMatch (x :: r) with
    | false => rfl
    | true =>
      obtain ⟨r1, e⟩ := reFence_head _ h
      exact absurd (List.cons.inj e).1 hx1.2.2.2.1
  have e1 : patternH1.hasMatch (x :: r) = false := by
    cases h : patternH1.hasMatch (x :: r) with
    | false => rfl
    | true =>
      obtain ⟨r1, e⟩ := onlyChar_pattern_head '=' _ h
      exact absurd (List.cons.inj e).1 hx1.2.1
  have e2 : patternH2.hasMatch (x :: r) = false := by
    cases h : patternH2.hasMatch (x :: r) with
    | false => rfl
    | true =>
      obtain ⟨r1, e⟩ := onlyChar_pattern_head '-' _ h
      exact absurd (List.cons.inj e).1 hx1.2.2.1
  have e0 : reHeadline.firstMatch (x :: r) = none := by
    apply Re.firstMatch_none_of_hasMatch
    cases h : reHeadline.hasMatch (x :: r) with
    | false => rfl
    | true =>
      obtain ⟨r1, e⟩ := reHeadline_head _ h
      exact absurd (List.cons.inj e).1 hx1.1
  have c1 : x :: r ≠ "<!--".toList := fun e => hx1.2.2.2.2 (List.cons.inj e).1
  have c2 : x :: r ≠ "-->".toList := fun e => hx1.2.2.1 (List.cons.inj e).1
  by_cases p1 : (⟨pv, cur, nx, []⟩ : Highlighter).previousBlockState = .CodeBlock
  · exact Or.inl ⟨p1, pass_state_inCode _ _ hf p1⟩
  by_cases p2 : (⟨pv, cur, nx, []⟩ : Highlighter).previousBlockState = .Comment
  · exact Or.inr (Or.inl ⟨p2, pass_state_inComment _ _ c2 hf p2⟩)
  refine Or.inr (Or.inr ⟨p1, p2, ?_⟩)
  have hR := highlightAdditionalRules_eq (x :: r) ⟨pv, ⟨cur.text, .NoState⟩, nx, []⟩ rfl
  obtain ⟨l1, l2⟩ := highlightHeadline_lookahead (x :: r)
    (highlightAdditionalRules (x :: r) ⟨pv, ⟨cur.text, .NoState⟩, nx, []⟩) e0 e1 e2
  have hRs : (highlightAdditionalRules (x :: r)
      ⟨pv, ⟨cur.text, .NoState⟩, nx, []⟩).current.userState = .NoState := by
    rw [hR]
    exact if_neg hm
  have hRp : (highlightAdditionalRules (x :: r)
      ⟨pv, ⟨cur.text, .NoState⟩, nx, []⟩).previous = pv :=
    (highlightAdditionalRules_frame _ _).1
  rw [hRs] at l2
  rw [hRp] at l1
  have hpb : (highlightHeadline (x :: r) (highlightAdditionalRules (x :: r)
      ⟨pv, ⟨cur.text, .NoState⟩, nx, []⟩)).previousBlockState =
      (⟨pv, cur, nx, []⟩ : Highlighter).previousBlockState := by
    simp only [Highlighter.previousBlockState, l1]
  clear hR
  have hpass : Highlighter.highlightBlock (x :: r) ⟨pv, cur, nx, []⟩ =
      highlightHeadline (x :: r)
        (highlightAdditionalRules (x :: r) ⟨pv, ⟨cur.text, .NoState⟩, nx, []⟩) := by
    show highlightCodeBlock _ (highlightCommentBlock _
      (if x :: r ≠ [] then highlightHeadline (x :: r) (highlightAdditionalRules (x :: r)
        ⟨pv, ⟨cur.text, .NoState⟩, nx, []⟩) else _)) = _
    rw [if_pos (by simp)]
    apply blocks_id _ _ hf c1 c2
    · rw [hpb]; exact p2
    · rw [hpb]; exact p1
  rw [hpass]
  exact l2

/-- C18 (counterexample): in the fresh buffer `<!--`, `    code` the second line
is styled as an indented code block (the rule table sets a `CodeBlock` span on
it) and the line before it is no fenced line, yet after the passes it carries
`Comment`, which is neither `NoState` nor a headline level. -/
theorem indented_code_in_comment :
    highlightLines (freshDocument ["<!--".toList, "    code".toList]) =
      ([⟨"<!--".toList, .Comment⟩, ⟨"    code".toList, .Comment⟩],
        [[⟨0, 4, .Comment⟩], [⟨0, 8, .CodeBlock⟩, ⟨0, 8, .Comment⟩]]) ∧
    (highlightAdditionalRules "    code".toList
        ⟨some ⟨"<!--".toList, .Comment⟩, ⟨"    code".toList, .NoState⟩, none, []⟩).formats =
      [⟨0, 8, .CodeBlock⟩] :=
  ⟨rfl, rfl⟩

/-- C18, as amended (reachable carried classifications): after the pass on a line
of any buffer the line carries one of `NoState`, `H1` .. `H6`, `HeadlineEnd`,
`List`, `Comment`, `CodeBlock`, `CodeBlockEnd`; in a buffer that starts with
`NoState` everywhere every line stays in that set after any sequence of passes;
and a line styled as an indented code block (the rule table sets a `CodeBlock`
span on it) carries `CodeBlock` when the line before it carries `CodeBlock`,
`Comment` when the line before it carries `Comment`, and otherwise `NoState`, `H1`
or `H2`. -/
theorem carried_classifications (doc : List Block) (i : Nat) (b : Block)
    (hb : doc[i]? = some b) :
    (∃ b1, (highlightBlock doc i).1[i]? = some b1 ∧ isCarried b1.userState = true ∧
      ((highlightAdditionalRules b.text
          ⟨previousBlock doc i, ⟨b.text, .NoState⟩, doc[i + 1]?, []⟩).formats.filter
          (fun sp => decide (sp.state = .CodeBlock)) ≠ [] →
        ((⟨previousBlock doc i, b, doc[i + 1]?, []⟩ : Highlighter).previousBlockState =
            .CodeBlock ∧ b1.userState = .CodeBlock) ∨
        ((⟨previousBlock doc i, b, doc[i + 1]?, []⟩ : Highlighter).previousBlockState =
            .Comment ∧ b1.userState = .Comment) ∨
        ((⟨previousBlock doc i, b, doc[i + 1]?, []⟩ : Highlighter).previousBlockState ≠
            .CodeBlock ∧
          (⟨previousBlock doc i, b, doc[i + 1]?, []⟩ : Highlighter).previousBlockState ≠
            .Comment ∧
          (b1.userState = .NoState ∨ b1.userState = .H1 ∨ b1.userState = .H2)))) ∧
    (∀ (texts : List (List Char)) (is : List Nat),
      ∀ q ∈ highlightMany is (freshDocument texts), isCarried q.userState = true) := by
  refine ⟨⟨_, (highlightBlock_at doc i b hb).2, pass_carried _ _, ?_⟩, ?_⟩
  · intro hr
    exact pass_indented b.text (previousBlock doc i) b doc[i + 1]? hr
  · intro texts is
    apply highlightMany_carried
    intro q hq
    simp only [freshDocument, List.mem_map] at hq
    obtain ⟨t, -, rfl⟩ := hq
    rfl

theorem carried_classifications_witness :
    [(⟨"<!--".toList, .Comment⟩ : Block), ⟨"    code".toList, .NoState⟩][1]? =
        some ⟨"    code".toList, .NoState⟩ ∧
    (highlightAdditionalRules "    code".toList
        ⟨some ⟨"<!--".toList, .Comment⟩, ⟨"    code".toList, .NoState⟩, none, []⟩).formats.filter
        (fun sp => decide (sp.state = .CodeBlock)) = [⟨0, 8, .CodeBlock⟩] ∧
    (highlightBlock [⟨"<!--".toList, .Comment⟩, ⟨"    code".toList, .NoState⟩] 1).1[1]? =
        some ⟨"    code".toList, .Comment⟩ ∧
    ((∃ b1, (highlightBlock [⟨"<!--".toList, .Comment⟩, ⟨"    code".toList, .NoState⟩] 1).1[1]? =
          some b1 ∧ isCarried b1.userState = true ∧
      ((highlightAdditionalRules (⟨"    code".toList, .NoState⟩ : Block).text
          ⟨previousBlock [⟨"<!--".toList, .Comment⟩, ⟨"    code".toList, .NoState⟩] 1,
            ⟨(⟨"    code".toList, .NoState⟩ : Block).text, .NoState⟩,
            [(⟨"<!--".toList, .Comment⟩ : Block), ⟨"    code".toList, .NoState⟩][1 + 1]?,
            []⟩).formats.filter
          (fun sp => decide (sp.state = .CodeBlock)) ≠ [] →
        ((⟨previousBlock [⟨"<!--".toList, .Comment⟩, ⟨"    code".toList, .NoState⟩] 1,
            ⟨"    code".toList, .NoState⟩,
            [(⟨"<!--".toList, .Comment⟩ : Block), ⟨"    code".toList, .NoState⟩][1 + 1]?,
            []⟩ : Highlighter).previousBlockState = .CodeBlock ∧ b1.userState = .CodeBlock) ∨
        ((⟨previousBlock [⟨"<!--".toList, .Comment⟩, ⟨"    code".toList, .NoState⟩] 1,
            ⟨"    code".toList, .NoState⟩,
            [(⟨"<!--".toList, .Comment⟩ : Block), ⟨"    code".toList, .NoState⟩][1 + 1]?,
            []⟩ : Highlighter).previousBlockState = .Comment ∧ b1.userState = .Comment) ∨
        ((⟨previousBlock [⟨"<!--".toList, .Comment⟩, ⟨"    code".toList, .NoState⟩] 1,
            ⟨"    code".toList, .NoState⟩,
            [(⟨"<!--".toList, .Comment⟩ : Block), ⟨"    code".toList, .NoState⟩][1 + 1]?,
            []⟩ : Highlighter).previousBlockState ≠ .CodeBlock ∧
          (⟨previousBlock [⟨"<!--".toList, .Comment⟩, ⟨"    code".toList, .NoState⟩] 1,
            ⟨"    code".toList, .NoState⟩,
            [(⟨"<!--".toList, .Comment⟩ : Block), ⟨"    code".toList, .NoState⟩][1 + 1]?,
            []⟩ : Highlighter).previousBlockState ≠ .Comment ∧
          (b1.userState = .NoState ∨ b1.userState = .H1 ∨ b1.userState = .H2)))) ∧
    (∀ (texts : List (List Char)) (is : List Nat),
      ∀ q ∈ highlightMany is (freshDocument texts), isCarried q.userState = true)) :=
  ⟨rfl, rfl, rfl,
    carried_classifications [⟨"<!--".toList, .Comment⟩, ⟨"    code".toList, .NoState⟩] 1
      ⟨"    code".toList, .NoState⟩ rfl⟩

/-- A match found by the search starts at or after the start of the search, ends
at or after its own start, and ends inside the subject. -/
theorem Re.searchFrom_bounds (r : Re) : ∀ (after before : List Char) (m : Match),
    r.searchFrom before after = some m →
    before.length ≤ m.start ∧ m.start ≤ m.stop.pos ∧
      m.stop.pos + m.stop.after.length = before.length + after.length := by
  have key : ∀ (before after : List Char) (c : Cursor),
      r.go ⟨before, after, none⟩ some = some c →
      before.length ≤ c.pos ∧ c.pos + c.after.length = before.length + after.length := by
    intro before after c h
    obtain ⟨c1, hm, hc⟩ := Re.go_sound r _ _ _ h
    cases hc
    refine ⟨Re.matches_pos hm, ?_⟩
    have ht := congrArg List.length (Re.matches_text hm)
    simp only [List.length_append, List.length_reverse] at ht
    exact ht
  intro after
  induction after with
  | nil =>
    intro before m h
    simp only [Re.searchFrom, Option.map_eq_some'] at h
    obtain ⟨c, hc, rfl⟩ := h
    obtain ⟨k1, k2⟩ := key _ _ _ hc
    exact ⟨Nat.le_refl _, k1, k2⟩
  | cons x xs ih =>
    intro before m h
    rw [Re.searchFrom] at h
    cases hg : r.go ⟨before, x :: xs, none⟩ some with
    | some c =>
      rw [hg] at h
      cases h
      obtain ⟨k1, k2⟩ := key _ _ _ hg
      exact ⟨Nat.le_refl _, k1, k2⟩
    | none =>
      rw [hg] at h
      obtain ⟨i1, i2, i3⟩ := ih (x :: before) m h
      simp only [List.length_cons] at i1 i3 ⊢
      exact ⟨by omega, i2, by omega⟩

/-- Every match of the iteration ends at or after its start and inside the
subject. -/
theorem Re.globalFrom_bounds (r : Re) : ∀ (fuel : Nat) (before after : List Char),
    ∀ m ∈ r.globalFrom fuel before after,
      m.start ≤ m.stop.pos ∧ m.stop.pos ≤ before.length + after.length := by
  intro fuel
  induction fuel with
  | zero => intro before after m hm; simp [Re.globalFrom] at hm
  | succ fuel ih =>
    intro before after m hm
    rw [Re.globalFrom] at hm
    cases hs : r.searchFrom before after with
    | none => rw [hs] at hm; simp at hm
    | some m0 =>
      rw [hs] at hm
      obtain ⟨b1, b2, b3⟩ := Re.searchFrom_bounds r after before m0 hs
      have h0 : m0.start ≤ m0.stop.pos ∧ m0.stop.pos ≤ before.length + after.length :=
        ⟨b2, by omega⟩
      simp only at hm
      split at hm
      · cases ha : m0.stop.after with
        | nil =>
          rw [ha] at hm
          simp only [List.mem_singleton] at hm
          rw [hm]; exact h0
        | cons x xs =>
          rw [ha] at hm
          simp only [List.mem_cons] at hm
          rcases hm with hm | hm
          · rw [hm]; exact h0
          · obtain ⟨j1, j2⟩ := ih _ _ m hm
            rw [ha] at b3
            simp only [List.length_cons, Cursor.pos] at j2 b3 ⊢
            exact ⟨j1, by omega⟩
      · simp only [List.mem_cons] at hm
        rcases hm with hm | hm
        · rw [hm]; exact h0
        · obtain ⟨j1, j2⟩ := ih _ _ m hm
          simp only [Cursor.pos] at j2 b3 ⊢
          exact ⟨j1, by omega⟩

/-- Every span of a pattern lies inside the text. -/
theorem Re.spans_bounds (r : Re) (s : HighlighterState) (t : List Char) :
    ∀ sp ∈ r.spans s t, sp.start + sp.count ≤ t.length := by
  intro sp hsp
  simp only [Re.spans, List.mem_map] at hsp
  obtain ⟨m, hm, rfl⟩ := hsp
  obtain ⟨j1, j2⟩ := Re.globalFrom_bounds r _ _ _ m hm
  simp only [Match.capturedStart, Match.capturedLength, List.length_nil] at j2 ⊢
  omega

/-- One rule adds spans inside the text only. -/
theorem applyRule_bounds (t : List Char) (h : Highlighter) (rule : HighlightingRule)
    (hh : ∀ sp ∈ h.formats, sp.start + sp.count ≤ t.length) :
    ∀ sp ∈ (applyRule t h rule).formats, sp.start + sp.count ≤ t.length := by
  rw [applyRule_eq]
  split
  · exact hh
  · intro sp hsp
    simp only [List.mem_append] at hsp
    rcases hsp with hsp | hsp
    · exact hh sp hsp
    · exact Re.spans_bounds rule.pattern rule.state t sp hsp

theorem foldl_applyRule_bounds (t : List Char) : ∀ (rules : List HighlightingRule)
    (h : Highlighter), (∀ sp ∈ h.formats, sp.start + sp.count ≤ t.length) →
    ∀ sp ∈ (rules.foldl (applyRule t) h).formats, sp.start + sp.count ≤ t.length := by
  intro rules
  induction rules with
  | nil => intro h hh; exact hh
  | cons rule rules ih =>
    intro h hh
    exact ih _ (applyRule_bounds t h rule hh)

/-- The rule table adds spans inside the text only. -/
theorem highlightAdditionalRules_bounds (t : List Char) (h : Highlighter)
    (hh : ∀ sp ∈ h.formats, sp.start + sp.count ≤ t.length) :
    ∀ sp ∈ (highlightAdditionalRules t h).formats, sp.start + sp.count ≤ t.length :=
  foldl_applyRule_bounds t highlightingRules h hh

/-- The headline detector adds a span inside the text only. -/
theorem highlightHeadline_bounds (t : List Char) (h : Highlighter)
    (hh : ∀ sp ∈ h.formats, sp.start + sp.count ≤ t.length) :
    ∀ sp ∈ (highlightHeadline t h).formats, sp.start + sp.count ≤ t.length := by
  have hw : ∀ (s : HighlighterState) (sp : Span),
      sp ∈ h.formats ∨ sp = ⟨0, t.length, s⟩ → sp.start + sp.count ≤ t.length := by
    intro s sp hsp
    rcases hsp with hsp | rfl
    · exact hh sp hsp
    · simp
  unfold highlightHeadline
  split
  · rename_i m hm
    intro sp hsp
    simp only [Highlighter.setFormat, Highlighter.setCurrentBlockState, List.mem_append,
      List.mem_singleton] at hsp
    rcases hsp with hsp | rfl
    · exact hh sp hsp
    · obtain ⟨b1, b2, b3⟩ := Re.searchFrom_bounds reHeadline t [] m hm
      simp only [Match.capturedStart, Match.capturedLength, List.length_nil] at b3 ⊢
      omega
  · simp only
    split_ifs <;> intro sp hsp <;>
      first
      | exact hh sp hsp
      | (simp only [Highlighter.setFormat, Highlighter.setCurrentBlockState,
          Highlighter.setPreviousUserState, List.mem_append, List.mem_singleton] at hsp
         first
         | exact hw _ sp hsp
         | (rcases hsp with hsp | rfl
            · exact hw _ sp hsp
            · simp))

/-- The comment and code detectors add spans over the whole text only. -/
theorem blocks_bounds (t : List Char) (h : Highlighter)
    (hh : ∀ sp ∈ h.formats, sp.start + sp.count ≤ t.length) :
    ∀ sp ∈ (highlightCodeBlock t (highlightCommentBlock t h)).formats,
      sp.start + sp.count ≤ t.length := by
  have hw : ∀ (g : Highlighter) (s : HighlighterState),
      (∀ sp ∈ g.formats, sp.start + sp.count ≤ t.length) → ∀ sp,
      sp ∈ g.formats ++ [⟨0, t.length, s⟩] → sp.start + sp.count ≤ t.length := by
    intro g s hg sp hsp
    simp only [List.mem_append, List.mem_singleton] at hsp
    rcases hsp with hsp | rfl
    · exact hg sp hsp
    · simp
  have hc : ∀ sp ∈ (highlightCommentBlock t h).formats, sp.start + sp.count ≤ t.length := by
    rw [highlightCommentBlock_eq]
    split_ifs <;> first | exact hh | exact hw h _ hh
  rw [highlightCodeBlock_eq]
  split_ifs <;> first | exact hc | exact hw _ _ hc

/-- The pass adds spans inside the text only. -/
theorem pass_bounds (t : List Char) (h : Highlighter)
    (hh : ∀ sp ∈ h.formats, sp.start + sp.count ≤ t.length) :
    ∀ sp ∈ (h.highlightBlock t).formats, sp.start + sp.count ≤ t.length := by
  unfold Highlighter.highlightBlock
  rw [highlightMarkdown_eq]
  apply blocks_bounds
  split
  · exact highlightHeadline_bounds t _ (highlightAdditionalRules_bounds t _ hh)
  · exact hh

/-- C19 (spans stay inside the line): every span set by the pass on line `i` of a
document lies inside the text of that line, and so does every span set by the
pass on any text `t` with any neighbours: the offset is not negative and offset
plus length is at most the length of the text. -/
theorem spans_inside_line (doc : List Block) (i : Nat) (b : Block) (hb : doc[i]? = some b) :
    (∀ sp ∈ (highlightBlock doc i).2, 0 ≤ sp.start ∧ sp.start + sp.count ≤ b.text.length) ∧
    (∀ (t : List Char) (pv : Option Block) (cur : Block) (nx : Option Block),
      ∀ sp ∈ (Highlighter.highlightBlock t ⟨pv, cur, nx, []⟩).formats,
        0 ≤ sp.start ∧ sp.start + sp.count ≤ t.length) := by
  constructor
  · intro sp hsp
    rw [(highlightBlock_at doc i b hb).1] at hsp
    exact ⟨Nat.zero_le _, pass_bounds _ _ (fun _ hx => absurd hx (List.not_mem_nil _)) sp hsp⟩
  · intro t pv cur nx sp hsp
    exact ⟨Nat.zero_le _, pass_bounds _ _ (fun _ hx => absurd hx (List.not_mem_nil _)) sp hsp⟩

theorem spans_inside_line_witness :
    (freshDocument ["# a **b** c".toList, "===".toList])[0]? =
        some ⟨"# a **b** c".toList, .NoState⟩ ∧
    (highlightBlock (freshDocument ["# a **b** c".toList, "===".toList]) 0).2 =
        [⟨4, 5, .Bold⟩, ⟨0, 11, .H1⟩] ∧
    ((∀ sp ∈ (highlightBlock (freshDocument ["# a **b** c".toList, "===".toList]) 0).2,
        0 ≤ sp.start ∧
          sp.start + sp.count ≤ (⟨"# a **b** c".toList, .NoState⟩ : Block).text.length) ∧
    (∀ (t : List Char) (pv : Option Block) (cur : Block) (nx : Option Block),
      ∀ sp ∈ (Highlighter.highlightBlock t ⟨pv, cur, nx, []⟩).formats,
        0 ≤ sp.start ∧ sp.start + sp.count ≤ t.length)) :=
  ⟨rfl, rfl,
    spans_inside_line (freshDocument ["# a **b** c".toList, "===".toList]) 0
      ⟨"# a **b** c".toList, .NoState⟩ rfl⟩

end MarkdownHighlighter
